import Mathlib

/-!
# Verification of the DSRT Polygon Triangulation Module

Shallow embedding of `src/curves/Triangulation.js` (Mapbox-Earcut-derived
ear-clipping triangulator).  JavaScript numbers are embedded as exact
rationals (`ℚ`); the pointer-heavy circular doubly-linked node structure is
embedded as an arena of records addressed by stable integer indices (the
arena+index pattern the specification itself recommends), with `prev` /
`next` / `prevZ` / `nextZ` stored as indices.  Unbounded source loops are
given explicit fuel; fuel is ghost state, chosen large enough at the top
level that terminating source runs never exhaust it.  Out-of-range reads of
the flat coordinate buffer (which produce `NaN` in JavaScript and are
declared caller-error / undefined behaviour by the specification) are
embedded as reads of `0`.
-/

/- Batteries marks the `Rat` field operations `@[irreducible]`; the
concrete-input witnesses below evaluate them through `decide`, so restore
their definitional reducibility for this file. -/
attribute [local semireducible] Rat.mul Rat.inv Rat.add Rat.sub

namespace DSRT

/-- One polygon vertex during triangulation (`createNode` record of the
source): original ordinal `i`, planar coordinates, Morton key `z`,
primary ring links `prev`/`next`, Z-order links `prevZ`/`nextZ`
(`none` embeds JavaScript `null`), and the `steiner` flag. -/
structure PNode where
  i : Nat
  x : ℚ
  y : ℚ
  z : Nat
  prev : Nat
  next : Nat
  prevZ : Option Nat
  nextZ : Option Nat
  steiner : Bool
deriving DecidableEq, Repr

attribute [ext] PNode

/-- The all-zero node used for unallocated arena slots. -/
def PNode.blank : PNode :=
  { i := 0, x := 0, y := 0, z := 0, prev := 0, next := 0,
    prevZ := none, nextZ := none, steiner := false }

/-- Call-scoped node arena: a heap of nodes addressed by index, plus the
number of allocated slots.  Fresh nodes are allocated at index `size`. -/
structure Arena where
  heap : Nat → PNode
  size : Nat

/-- The empty arena. -/
def Arena.empty : Arena := { heap := fun _ => PNode.blank, size := 0 }

/-- Read the node stored at index `n`. -/
def nodeAt (A : Arena) (n : Nat) : PNode := A.heap n

/-- Overwrite the node at index `j` by applying `f` to it (one mutating
statement of the source). -/
def setAt (A : Arena) (j : Nat) (f : PNode → PNode) : Arena :=
  { A with heap := fun k => if k = j then f (A.heap k) else A.heap k }

/-- `data[i]` on the flat coordinate buffer; out-of-range reads embed as
`0` (JavaScript yields `NaN`; the specification declares such inputs
undefined behaviour, §7). -/
def dAt (data : List ℚ) (i : Nat) : ℚ := data.getD i 0

/-! ## Geometric primitives (verbatim from the source) -/

/-- `triangleArea`: signed area form
`(q.y - p.y) * (r.x - q.x) - (q.x - p.x) * (r.y - q.y)`. -/
def triangleArea (p q r : PNode) : ℚ :=
  (q.y - p.y) * (r.x - q.x) - (q.x - p.x) * (r.y - q.y)

/-- `pointsEqual`: coordinate equality of two nodes. -/
def pointsEqual (a b : PNode) : Bool :=
  a.x == b.x && a.y == b.y

/-- `pointInTriangle`: boundary-inclusive point-in-triangle test, the three
half-plane products of the source with `>=` comparisons. -/
def pointInTriangle (ax ay bx b_y cx cy px py : ℚ) : Bool :=
  (cx - px) * (ay - py) ≥ (ax - px) * (cy - py) &&
  (ax - px) * (b_y - py) ≥ (bx - px) * (ay - py) &&
  (bx - px) * (cy - py) ≥ (cx - px) * (b_y - py)

/-- `pointInTriangleExclusive`: as `pointInTriangle` but excluding the
single point coincident with the first vertex `(ax, ay)`. -/
def pointInTriangleExclusive (ax ay bx b_y cx cy px py : ℚ) : Bool :=
  !(ax == px && ay == py) && pointInTriangle ax ay bx b_y cx cy px py

/-- `calculateSignedArea`: shoelace sum
`Σ (data[j] - data[i]) * (data[i+1] + data[j+1])` with `j` trailing `i`
and initialised to `stop - dim` (the last vertex, closing the cycle).
The loop advances `i` by `dim`; a zero `dim` (a non-terminating loop in
the source) returns the accumulator unchanged. -/
def calculateSignedAreaAux (data : List ℚ) (dim stop : Nat) :
    Nat → Nat → Nat → ℚ → ℚ
  | 0, _, _, acc => acc
  | fuel + 1, i, j, acc =>
      if i < stop ∧ 0 < dim then
        calculateSignedAreaAux data dim stop fuel (i + dim) i
          (acc + (dAt data j - dAt data i) * (dAt data (i + 1) + dAt data (j + 1)))
      else acc

/-- `calculateSignedArea` entry point over the range `[start, stop)`.
The structural fuel `stop + 1` dominates the loop's iteration count
(`i` starts at `start` and strictly increases below `stop`). -/
def calculateSignedArea (data : List ℚ) (start stop dim : Nat) : ℚ :=
  calculateSignedAreaAux data dim stop (stop + 1) start (stop - dim) 0

/-! ## Node allocation and removal (verbatim from the source) -/

/-- `createNode`: fresh node with self-less links zeroed; the source
initialises `prev`/`next` to `null`, immediately overwritten by
`addNode`, so the embedding sets them in `addNode` directly. -/
def createNode (i : Nat) (x y : ℚ) : PNode :=
  { i := i, x := x, y := y, z := 0, prev := 0, next := 0,
    prevZ := none, nextZ := none, steiner := false }

/-- `addNode`: allocate a node and link it after `last` (or self-linked
when `last` is `null`).  Returns the new arena and the new node's index.
Mirrors the source's statement order:
`node.next = last.next; node.prev = last; last.next.prev = node;
last.next = node;`. -/
def addNode (A : Arena) (i : Nat) (x y : ℚ) (last : Option Nat) :
    Arena × Nat :=
  let n := A.size
  match last with
  | none =>
      let node := { createNode i x y with prev := n, next := n }
      ({ heap := fun k => if k = n then node else A.heap k, size := n + 1 }, n)
  | some l =>
      let ln := (nodeAt A l).next
      let node := { createNode i x y with prev := l, next := ln }
      let A1 : Arena :=
        { heap := fun k => if k = n then node else A.heap k, size := n + 1 }
      let A2 := setAt A1 ln (fun p => { p with prev := n })
      let A3 := setAt A2 l (fun p => { p with next := n })
      (A3, n)

/-- `removeNode`: unlink `node` from the primary ring and, when Z-order
links are present, from the Z-list, in the source's statement order
(each statement reads the then-current heap):
`node.next.prev = node.prev; node.prev.next = node.next;
if (node.prevZ) node.prevZ.nextZ = node.nextZ;
if (node.nextZ) node.nextZ.prevZ = node.prevZ;`. -/
def removeNode (A : Arena) (n : Nat) : Arena :=
  let A1 := setAt A ((nodeAt A n).next) (fun p => { p with prev := (nodeAt A n).prev })
  let A2 := setAt A1 ((nodeAt A1 n).prev) (fun p => { p with next := (nodeAt A1 n).next })
  let A3 := match (nodeAt A2 n).prevZ with
    | some pz => setAt A2 pz (fun p => { p with nextZ := (nodeAt A2 n).nextZ })
    | none => A2
  match (nodeAt A3 n).nextZ with
    | some nz => setAt A3 nz (fun p => { p with prevZ := (nodeAt A3 n).prevZ })
    | none => A3

/-! ## Ring construction (`createLinkedList`) -/

/-- Buffer positions visited by the source's forward loop
`for (i = start; i < stop; i += dim)`.  A zero `dim` (non-terminating in
the source) yields the empty list. -/
def stepsUpAux (stop dim : Nat) : Nat → Nat → List Nat
  | 0, _ => []
  | fuel + 1, i =>
      if i < stop ∧ 0 < dim then i :: stepsUpAux stop dim fuel (i + dim)
      else []

/-- Entry point with fuel `stop + 1`, enough for every loop iteration. -/
def stepsUp (start stop dim : Nat) : List Nat :=
  stepsUpAux stop dim (stop + 1) start

/-- Buffer positions visited by the source's backward loop
`for (i = stop - dim; i >= start; i -= dim)` (the loop index may step
below zero in JavaScript, so it is embedded over `ℤ`). -/
def stepsDownAux (start : Int) (dim : Nat) : Nat → Int → List Int
  | 0, _ => []
  | fuel + 1, i =>
      if start ≤ i ∧ 0 < dim then i :: stepsDownAux start dim fuel (i - dim)
      else []

/-- Entry point with fuel `(i - start).toNat + 1`, enough for every loop
iteration. -/
def stepsDown (i start : Int) (dim : Nat) : List Int :=
  stepsDownAux start dim ((i - start).toNat + 1) i

/-- One forward insertion step of `createLinkedList`: add the vertex at
buffer position `p` (ordinal `p / dim`). -/
def addStep (data : List ℚ) (dim : Nat) (st : Arena × Option Nat) (p : Nat) :
    Arena × Option Nat :=
  let (A, last) := st
  let (A', n) := addNode A (p / dim) (dAt data p) (dAt data (p + 1)) last
  (A', some n)

/-- `createLinkedList`: build one circular ring over `[start, stop)`.
Threads forward when `clockwise === (calculateSignedArea(...) > 0)`,
backward otherwise; then drops the last node if it coincides with the
first (`pointsEqual(last, last.next)`), returning `last.next`. -/
def createLinkedList (A : Arena) (data : List ℚ)
    (start stop dim : Nat) (clockwise : Bool) : Arena × Option Nat :=
  let (A', last) :=
    if clockwise = decide (calculateSignedArea data start stop dim > 0) then
      (stepsUp start stop dim).foldl (addStep data dim) (A, none)
    else
      ((stepsDown ((stop : Int) - dim) start dim).map Int.toNat).foldl
        (addStep data dim) (A, none)
  match last with
  | none => (A', none)
  | some l =>
      if pointsEqual (nodeAt A' l) (nodeAt A' ((nodeAt A' l).next)) then
        let A'' := removeNode A' l
        (A'', some ((nodeAt A'' l).next))
      else (A', some l)

/-! ## Morton (Z-order) keys (`computeZOrder`) -/

/-- First bit-spreading stage of `computeZOrder`:
`x = (x | (x << 8)) & 0x00FF00FF`. -/
def mortonSpread1 (x : Nat) : Nat := (x ||| (x <<< 8)) &&& 0x00FF00FF

/-- Second stage: `x = (x | (x << 4)) & 0x0F0F0F0F`. -/
def mortonSpread2 (x : Nat) : Nat := (x ||| (x <<< 4)) &&& 0x0F0F0F0F

/-- Third stage: `x = (x | (x << 2)) & 0x33333333`. -/
def mortonSpread3 (x : Nat) : Nat := (x ||| (x <<< 2)) &&& 0x33333333

/-- Fourth stage: `x = (x | (x << 1)) & 0x55555555`. -/
def mortonSpread4 (x : Nat) : Nat := (x ||| (x <<< 1)) &&& 0x55555555

/-- The full bit-spreading pipeline of `computeZOrder` applied to one
quantized coordinate. -/
def mortonSpread (x : Nat) : Nat :=
  mortonSpread4 (mortonSpread3 (mortonSpread2 (mortonSpread1 x)))

/-- `(v - minV) * scale | 0` of the source.  JavaScript `| 0` truncates
toward zero; on the non-negative values supplied by `triangulatePolygon`
(coordinates at or above the bounding-box minimum, non-negative scale)
truncation coincides with `⌊·⌋.toNat` used here. -/
def quantize (v minV scale : ℚ) : Nat := (⌊(v - minV) * scale⌋).toNat

/-- `computeZOrder`: Morton key obtained by interleaving the bits of the
two quantized coordinates: `x | (y << 1)` after spreading. -/
def computeZOrder (x y minX minY scale : ℚ) : Nat :=
  mortonSpread (quantize x minX scale) |||
    (mortonSpread (quantize y minY scale) <<< 1)

/-! ## Ear validity, unindexed (`isValidEar`) -/

/-- The loop-body condition of `isValidEar` for a scanned node `pIdx`:
inside the candidate triangle's bounding box, inside the triangle under
the first-vertex-exclusive test, and with non-negative signed area in its
own local triangle `(p.prev, p, p.next)`. -/
def earBlocker (A : Arena) (ax ay bx b_y cx cy minTX minTY maxTX maxTY : ℚ)
    (pIdx : Nat) : Bool :=
  let p := nodeAt A pIdx
  decide (p.x ≥ minTX) && decide (p.x ≤ maxTX) &&
  decide (p.y ≥ minTY) && decide (p.y ≤ maxTY) &&
  pointInTriangleExclusive ax ay bx b_y cx cy p.x p.y &&
  decide (triangleArea (nodeAt A p.prev) p (nodeAt A p.next) ≥ 0)

/-- The scan loop of `isValidEar`: walk `next`-links from `c.next`,
stopping at `a`; return `false` on the first blocking node.  Exhausted
fuel (a corrupted ring never reaching `a` loops forever in the source)
returns `true`. -/
def earScan (A : Arena) (ax ay bx b_y cx cy minTX minTY maxTX maxTY : ℚ)
    (aIdx : Nat) : Nat → Nat → Bool
  | 0, _ => true
  | fuel + 1, p =>
      if p = aIdx then true
      else if earBlocker A ax ay bx b_y cx cy minTX minTY maxTX maxTY p then false
      else earScan A ax ay bx b_y cx cy minTX minTY maxTX maxTY aIdx fuel
        ((nodeAt A p).next)

/-- `isValidEar`: reject when the signed area of `(prev, ear, next)` is
non-negative, otherwise scan every other ring node from `c.next` to `a`
for a blocker. -/
def isValidEar (A : Arena) (ear : Nat) (fuel : Nat) : Bool :=
  let b := nodeAt A ear
  let a := nodeAt A b.prev
  let c := nodeAt A b.next
  if triangleArea a b c ≥ 0 then false
  else
    let minTX := min (min a.x b.x) c.x
    let minTY := min (min a.y b.y) c.y
    let maxTX := max (max a.x b.x) c.x
    let maxTY := max (max a.y b.y) c.y
    earScan A a.x a.y b.x b.y c.x c.y minTX minTY maxTX maxTY b.prev fuel c.next

/-! ## Ear validity, indexed (`isValidEarHashed`) -/

/-- The loop-body condition of `isValidEarHashed` for a scanned node:
as `earBlocker` plus the explicit `p !== a && p !== c` identity checks of
the source. -/
def hashedBlocker (A : Arena) (ax ay bx b_y cx cy minTX minTY maxTX maxTY : ℚ)
    (aIdx cIdx : Nat) (pIdx : Nat) : Bool :=
  let p := nodeAt A pIdx
  decide (p.x ≥ minTX) && decide (p.x ≤ maxTX) &&
  decide (p.y ≥ minTY) && decide (p.y ≤ maxTY) &&
  decide (pIdx ≠ aIdx) && decide (pIdx ≠ cIdx) &&
  pointInTriangleExclusive ax ay bx b_y cx cy p.x p.y &&
  decide (triangleArea (nodeAt A p.prev) p (nodeAt A p.next) ≥ 0)

/-- First loop of `isValidEarHashed`
(`while (p && p.z >= minZ && n && n.z <= maxZ)`), walking both Z-order
directions at once.  Returns `none` when a blocker is found, otherwise
`some (p, n)`, the exit state feeding the two tail loops. -/
def hashedLoopBoth (A : Arena) (ax ay bx b_y cx cy minTX minTY maxTX maxTY : ℚ)
    (aIdx cIdx : Nat) (minZ maxZ : Nat) :
    Nat → Option Nat → Option Nat → Option (Option Nat × Option Nat)
  | 0, p, n => some (p, n)
  | fuel + 1, p, n =>
      match p, n with
      | some pi, some ni =>
          if (nodeAt A pi).z ≥ minZ ∧ (nodeAt A ni).z ≤ maxZ then
            if hashedBlocker A ax ay bx b_y cx cy minTX minTY maxTX maxTY aIdx cIdx pi
            then none
            else
              let p' := (nodeAt A pi).prevZ
              if hashedBlocker A ax ay bx b_y cx cy minTX minTY maxTX maxTY aIdx cIdx ni
              then none
              else hashedLoopBoth A ax ay bx b_y cx cy minTX minTY maxTX maxTY
                aIdx cIdx minZ maxZ fuel p' ((nodeAt A ni).nextZ)
          else some (p, n)
      | _, _ => some (p, n)

/-- Second loop of `isValidEarHashed` (`while (p && p.z >= minZ)`),
walking `prevZ` only. -/
def hashedLoopP (A : Arena) (ax ay bx b_y cx cy minTX minTY maxTX maxTY : ℚ)
    (aIdx cIdx : Nat) (minZ : Nat) : Nat → Option Nat → Bool
  | 0, _ => true
  | fuel + 1, p =>
      match p with
      | none => true
      | some pi =>
          if (nodeAt A pi).z ≥ minZ then
            if hashedBlocker A ax ay bx b_y cx cy minTX minTY maxTX maxTY aIdx cIdx pi
            then false
            else hashedLoopP A ax ay bx b_y cx cy minTX minTY maxTX maxTY
              aIdx cIdx minZ fuel ((nodeAt A pi).prevZ)
          else true

/-- Third loop of `isValidEarHashed` (`while (n && n.z <= maxZ)`),
walking `nextZ` only. -/
def hashedLoopN (A : Arena) (ax ay bx b_y cx cy minTX minTY maxTX maxTY : ℚ)
    (aIdx cIdx : Nat) (maxZ : Nat) : Nat → Option Nat → Bool
  | 0, _ => true
  | fuel + 1, n =>
      match n with
      | none => true
      | some ni =>
          if (nodeAt A ni).z ≤ maxZ then
            if hashedBlocker A ax ay bx b_y cx cy minTX minTY maxTX maxTY aIdx cIdx ni
            then false
            else hashedLoopN A ax ay bx b_y cx cy minTX minTY maxTX maxTY
              aIdx cIdx maxZ fuel ((nodeAt A ni).nextZ)
          else true

/-- `isValidEarHashed`: the area and inclusion logic of `isValidEar`, with
the other-node scan restricted to the Z-order neighbourhood
`[minZ, maxZ]` of the candidate triangle's bounding box, reached by
walking `prevZ` and `nextZ` outward from the ear. -/
def isValidEarHashed (A : Arena) (ear : Nat) (minX minY scale : ℚ)
    (fuel : Nat) : Bool :=
  let b := nodeAt A ear
  let a := nodeAt A b.prev
  let c := nodeAt A b.next
  if triangleArea a b c ≥ 0 then false
  else
    let minTX := min (min a.x b.x) c.x
    let minTY := min (min a.y b.y) c.y
    let maxTX := max (max a.x b.x) c.x
    let maxTY := max (max a.y b.y) c.y
    let minZ := computeZOrder minTX minTY minX minY scale
    let maxZ := computeZOrder maxTX maxTY minX minY scale
    match hashedLoopBoth A a.x a.y b.x b.y c.x c.y minTX minTY maxTX maxTY
        b.prev b.next minZ maxZ fuel b.prevZ b.nextZ with
    | none => false
    | some (p, n) =>
        hashedLoopP A a.x a.y b.x b.y c.x c.y minTX minTY maxTX maxTY
          b.prev b.next minZ fuel p &&
        hashedLoopN A a.x a.y b.x b.y c.x c.y minTX minTY maxTX maxTY
          b.prev b.next maxZ fuel n

/-! ## Ring walks (specification-side views of the loops) -/

/-- Indices visited by following `next`-links from `p` until reaching
`stopIdx` (exclusive); the list the `isValidEar` scan traverses.  For a
well-formed ring containing `stopIdx` and fuel at least the ring size,
this is exactly the set of ring nodes strictly between `c` and `a`. -/
def walkNext (A : Arena) (stopIdx : Nat) : Nat → Nat → List Nat
  | 0, _ => []
  | fuel + 1, p =>
      if p = stopIdx then []
      else p :: walkNext A stopIdx fuel ((nodeAt A p).next)

/-- Indices visited by following `next`-links from `p`, for `fuel` steps;
used to enumerate a whole ring (`fuel` = ring size). -/
def ringList (A : Arena) : Nat → Nat → List Nat
  | 0, _ => []
  | fuel + 1, p => p :: ringList A fuel ((nodeAt A p).next)

/-! ## Recovery pass 1: `simplifyPoints` -/

/-- The do-while loop of `simplifyPoints`: remove non-steiner nodes that
duplicate their successor or are exactly collinear with both neighbours
(zero signed triangle area); on removal step back to `prev` (which also
becomes the new `end`), breaking when the ring collapses to a self-linked
node. -/
def simplifyAux : Nat → Arena → Nat → Nat → Arena × Nat
  | 0, A, _, endI => (A, endI)
  | fuel + 1, A, cur, endI =>
      let c := nodeAt A cur
      if !c.steiner &&
          (pointsEqual c (nodeAt A c.next) ||
           decide (triangleArea (nodeAt A c.prev) c (nodeAt A c.next) = 0)) then
        let A' := removeNode A cur
        let cur' := (nodeAt A' cur).prev
        if cur' = (nodeAt A' cur').next then (A', cur')
        else simplifyAux fuel A' cur' cur'
      else
        let nxt := c.next
        if nxt = endI then (A, endI)
        else simplifyAux fuel A nxt endI

/-- `simplifyPoints`: removes colinear and duplicate points; a `null`
start returns `null`, an omitted `end` defaults to `start`. -/
def simplifyPoints (A : Arena) (start endOpt : Option Nat) (fuel : Nat) :
    Arena × Option Nat :=
  match start with
  | none => (A, none)
  | some s =>
      let e := endOpt.getD s
      let (A', r) := simplifyAux fuel A s e
      (A', some r)

/-! ## Recovery pass 2: local self-intersections (modelled) -/

/-- Sign of a rational, used by the modelled segment-crossing test. -/
def sgn (q : ℚ) : Int := if 0 < q then 1 else if q < 0 then -1 else 0

/-- Modelled from the spec: proper-crossing test between segments
`p1—q1` and `p2—q2` (the "improperly overlaps a neighboring edge"
condition of §4.4); the concrete predicate is absent from `src/`. -/
def segsCross (p1 q1 p2 q2 : PNode) : Bool :=
  decide (sgn (triangleArea p1 q1 p2) ≠ sgn (triangleArea p1 q1 q2)) &&
  decide (sgn (triangleArea p2 q2 p1) ≠ sgn (triangleArea p2 q2 q1))

/-- Modelled from the spec: the scan loop of `resolveLocalIntersections`
(§4.4 pass 3, absent from `src/`): for each node `p`, when the edges
`p.prev—p` and `p.next—p.next.next` cross, emit the triangle
`(p.prev, p, p.next.next)` that becomes trivially available, unlink `p`
and `p.next` to remove the crossing, and restart from the reconnection
point. -/
def resolveAux : Nat → Arena → Nat → Nat → List Nat → Arena × Nat × List Nat
  | 0, A, _, start, tris => (A, start, tris)
  | fuel + 1, A, p, start, tris =>
      let pn := nodeAt A p
      let a := pn.prev
      let b := (nodeAt A pn.next).next
      if !(pointsEqual (nodeAt A a) (nodeAt A b)) &&
          segsCross (nodeAt A a) pn (nodeAt A pn.next) (nodeAt A b) then
        let tris' := tris ++ [(nodeAt A a).i, pn.i, (nodeAt A b).i]
        let A1 := removeNode A p
        let A2 := removeNode A1 pn.next
        let p' := (nodeAt A2 b).next
        if p' = b then (A2, b, tris')
        else resolveAux fuel A2 p' b tris'
      else
        let p' := pn.next
        if p' = start then (A, start, tris)
        else resolveAux fuel A p' start tris

/-- Modelled from the spec: `resolveLocalIntersections` (absent from
`src/`): repair locally self-intersecting configurations, then clean the
ring with `simplifyPoints` before handing it on. -/
def resolveLocalIntersections (A : Arena) (start : Option Nat)
    (tris : List Nat) (fuel : Nat) : Arena × Option Nat × List Nat :=
  match start with
  | none => (A, none, tris)
  | some s =>
      let (A1, p, tris') := resolveAux fuel A s s tris
      let (A2, e) := simplifyPoints A1 (some p) none fuel
      (A2, e, tris')

/-! ## Ring splicing (modelled) -/

/-- Modelled from the spec: the splice shared by the hole merger and the
split pass (absent from `src/`): "two new nodes are created duplicating
the bridge endpoints".  Creates copies `a2` of `a` and `b2` of `b` and
relinks `a → b … b.prevOld → b2 → a2 → a.nextOld …`; applied to two
separate rings this merges them into one ring joined by zero-area bridge
edges, applied to one ring it cuts the ring in two along the diagonal
`a—b`.  Returns the arena and the index of `b2`. -/
def spliceBridge (A : Arena) (a b : Nat) : Arena × Nat :=
  let n := A.size
  let m := A.size + 1
  let aN := nodeAt A a
  let bN := nodeAt A b
  let an := aN.next
  let bp := bN.prev
  let a2 : PNode := { createNode aN.i aN.x aN.y with prev := m, next := an }
  let b2 : PNode := { createNode bN.i bN.x bN.y with prev := bp, next := n }
  let A1 : Arena :=
    { heap := fun k => if k = n then a2 else if k = m then b2 else A.heap k,
      size := A.size + 2 }
  let A2 := setAt A1 a (fun p => { p with next := b })
  let A3 := setAt A2 b (fun p => { p with prev := a })
  let A4 := setAt A3 an (fun p => { p with prev := n })
  let A5 := setAt A4 bp (fun p => { p with next := m })
  (A5, m)

/-! ## Spatial index construction (modelled) -/

/-- Insert index `q` into a list kept ascending by stored Morton key. -/
def insertByZ (A : Arena) (q : Nat) : List Nat → List Nat
  | [] => [q]
  | r :: rs =>
      if (nodeAt A q).z < (nodeAt A r).z then q :: r :: rs
      else r :: insertByZ A q rs

/-- Insertion sort of node indices by stored Morton key. -/
def sortByZ (A : Arena) (l : List Nat) : List Nat :=
  l.foldr (insertByZ A) []

/-- Link the `prevZ`/`nextZ` chain along a list of node indices,
terminating with `null` at both ends. -/
def linkZChain : Arena → Option Nat → List Nat → Arena
  | A, _, [] => A
  | A, prevOpt, q :: rest =>
      let A1 := setAt A q (fun p => { p with prevZ := prevOpt, nextZ := rest.head? })
      linkZChain A1 (some q) rest

/-- Modelled from the spec: `buildSpatialIndex` (absent from `src/`):
assign every ring node its Morton key via `computeZOrder` and thread the
secondary `prevZ`/`nextZ` list in ascending key order.  The source's
Z-list is null-terminated at both ends (the `while (p && …)` walks of
`isValidEarHashed` rely on this), so the chain is linked open, not
circular. -/
def buildSpatialIndex (A : Arena) (start : Nat) (minX minY scale : ℚ)
    (fuel : Nat) : Arena :=
  let rl := start :: walkNext A start fuel ((nodeAt A start).next)
  let A1 := rl.foldl
    (fun Ac q =>
      setAt Ac q (fun p => { p with z := computeZOrder p.x p.y minX minY scale }))
    A
  linkZChain A1 none (sortByZ A1 rl)

/-! ## Hole merging -/

/-- Modelled from the spec: the leftmost-node search (`findLeftmost` is
absent from `src/`): minimum `x`, ties broken by minimum `y` (the
documented deterministic tie-break). -/
def leftmostPick (A : Arena) : Nat → List Nat → Nat
  | best, [] => best
  | best, q :: rest =>
      if (nodeAt A q).x < (nodeAt A best).x ∨
          ((nodeAt A q).x = (nodeAt A best).x ∧ (nodeAt A q).y < (nodeAt A best).y)
      then leftmostPick A q rest
      else leftmostPick A best rest

/-- Modelled from the spec: `findLeftmost` over a whole ring. -/
def findLeftmost (A : Arena) (start : Nat) (fuel : Nat) : Nat :=
  leftmostPick A start (walkNext A start fuel ((nodeAt A start).next))

/-- Modelled from the spec: the `compareByPosition` sort order (absent
from `src/`): ascending `x`, ties broken by ascending `y`. -/
def posLE (A : Arena) (u v : Nat) : Bool :=
  decide ((nodeAt A u).x < (nodeAt A v).x) ||
  (decide ((nodeAt A u).x = (nodeAt A v).x) && decide ((nodeAt A u).y ≤ (nodeAt A v).y))

/-- Insertion step of the queue sort by `posLE`. -/
def insertByPos (A : Arena) (q : Nat) : List Nat → List Nat
  | [] => [q]
  | r :: rs => if posLE A q r then q :: r :: rs else r :: insertByPos A q rs

/-- Insertion sort of the hole queue by `posLE`
(`queue.sort(compareByPosition)`). -/
def sortByPos (A : Arena) (l : List Nat) : List Nat :=
  l.foldr (insertByPos A) []

/-- Squared distance between two nodes. -/
def distSq (p q : PNode) : ℚ := (p.x - q.x) * (p.x - q.x) + (p.y - q.y) * (p.y - q.y)

/-- Pick from a candidate list the node nearest to `h`. -/
def nearestPick (A : Arena) (h : PNode) : Nat → List Nat → Nat
  | best, [] => best
  | best, q :: rest =>
      if distSq (nodeAt A q) h < distSq (nodeAt A best) h
      then nearestPick A h q rest
      else nearestPick A h best rest

/-- Modelled from the spec: `connectHole` (absent from `src/`): find a
point on the current merged ring visible to the hole's leftmost point and
splice the two rings through it with `spliceBridge`.  The visibility
search itself is abstracted to a deterministic choice (the merged-ring
node nearest to the hole node); which visible node is chosen affects only
which bridge is built, not the spliced-ring structure the claims address.
Returns the merged ring entry point. -/
def connectHole (A : Arena) (holeN outer : Nat) (fuel : Nat) : Arena × Nat :=
  let candidates := outer :: walkNext A outer fuel ((nodeAt A outer).next)
  let b := nearestPick A (nodeAt A holeN) outer candidates
  let (A', _) := spliceBridge A b holeN
  (A', b)

/-- The hole ranges `[holeIndices[i]*dim, holeIndices[i+1]*dim)` of the
source, the last extending to `data.length`. -/
def holeRanges (holeIdx : List Nat) (dim dataLen : Nat) : List (Nat × Nat) :=
  match holeIdx with
  | [] => []
  | h :: rest =>
      (h * dim, match rest with | h2 :: _ => h2 * dim | [] => dataLen) ::
        holeRanges rest dim dataLen

/-- Per-hole-range step of `processHoles`: build the hole ring with
`clockwise = false`, flag a ring reduced to one node as `steiner`, and
queue the ring's leftmost node.  (A hole range that yields no ring — a
caller error the source would crash on — is skipped.) -/
def holeStep (data : List ℚ) (dim fuel : Nat) (st : Arena × List Nat)
    (r : Nat × Nat) : Arena × List Nat :=
  let (Ac, q) := st
  let (Ab, listOpt) := createLinkedList Ac data r.1 r.2 dim false
  match listOpt with
  | none => (Ab, q)
  | some l =>
      let Ab' :=
        if l = (nodeAt Ab l).next then
          setAt Ab l (fun p => { p with steiner := true })
        else Ab
      (Ab', q ++ [findLeftmost Ab' l fuel])

/-- `processHoles`: run `holeStep` over every hole range, sort the queued
leftmost nodes by position, and splice every hole into the merged ring
in that order. -/
def processHoles (A : Arena) (data : List ℚ) (holeIndices : List Nat)
    (outerNode dim fuel : Nat) : Arena × Nat :=
  let (A1, queue) :=
    (holeRanges holeIndices dim data.length).foldl (holeStep data dim fuel)
      (A, [])
  (sortByPos A1 queue).foldl
    (fun st h =>
      let (Ac, o) := st
      connectHole Ac h o fuel)
    (A1, outerNode)

/-! ## The ear-clipping engine and recovery pipeline

The source's `triangulateLinkedList` loop, its pass escalation and the
split pass are mutually recursive; the embedding folds them into one
structurally fuel-recursive dispatcher `triangulateRun` over an explicit
call descriptor, so that concrete runs reduce definitionally.  The three
named wrappers below it correspond one-to-one to the source functions. -/

/-- Call descriptor for the triangulation engine: `main` is an entry into
`triangulateLinkedList`, `loop` is the state of its clipping loop
(current ear and stop point), `split` is an entry into the split pass. -/
inductive TLCall where
  | main (earOpt : Option Nat) (pass : Nat)
  | loop (ear stop : Nat) (pass : Nat)
  | split (ear : Nat)
deriving DecidableEq, Repr

/-- The fused recursion of `triangulateLinkedList` /
`splitAndTriangulate`.

`main earOpt pass`: a `null` ear returns immediately; on the pass-0 entry
with an active scale the spatial index is built; then the clipping loop
runs from `ear` with `stopPoint = ear`.

`loop ear stop pass`: the `while (ear.prev !== ear.next)` loop: clip a
valid ear (emit `(prev.i, ear.i, next.i)`, unlink, resume from
`next.next`, which also becomes the new stop point) or advance; when a
full traversal returns to the stop point without an emission the pass has
stalled and escalates: pass 0 simplifies and hands to pass 1, pass 1
simplifies, resolves local self-intersections and hands to pass 2, pass 2
splits.

`split ear`: modelled from the spec (`splitAndTriangulate`, §4.4 pass 4,
absent from `src/`): cut the ring along a diagonal into two sub-rings and
recurse the entire pipeline (from pass 0) independently on each half,
concatenating the triangle outputs.  The diagonal search is abstracted to
the first non-adjacent vertex pair `(ear, ear.next.next)`; which diagonal
is chosen affects only the shape of the halves. -/
def triangulateRun (dim : Nat) (minX minY scale : ℚ) :
    Nat → TLCall → Arena → List Nat → Arena × List Nat
  | 0, _, A, tris => (A, tris)
  | f + 1, c, A, tris =>
      match c with
      | .main earOpt pass =>
          match earOpt with
          | none => (A, tris)
          | some ear =>
              let A' := if pass = 0 ∧ scale ≠ 0
                then buildSpatialIndex A ear minX minY scale f else A
              triangulateRun dim minX minY scale f (.loop ear ear pass) A' tris
      | .loop ear stop pass =>
          if (nodeAt A ear).prev = (nodeAt A ear).next then (A, tris)
          else
            let prv := (nodeAt A ear).prev
            let nxt := (nodeAt A ear).next
            if (if scale ≠ 0 then isValidEarHashed A ear minX minY scale (A.size + 1)
                else isValidEar A ear (A.size + 1)) then
              let tris' := tris ++ [(nodeAt A prv).i, (nodeAt A ear).i, (nodeAt A nxt).i]
              let A' := removeNode A ear
              let e' := (nodeAt A' nxt).next
              triangulateRun dim minX minY scale f (.loop e' e' pass) A' tris'
            else
              if nxt = stop then
                if pass = 0 then
                  let st := simplifyPoints A (some nxt) none f
                  triangulateRun dim minX minY scale f (.main st.2 1) st.1 tris
                else if pass = 1 then
                  let st := simplifyPoints A (some nxt) none f
                  let rt := resolveLocalIntersections st.1 st.2 tris f
                  triangulateRun dim minX minY scale f (.main rt.2.1 2) rt.1 rt.2.2
                else if pass = 2 then
                  triangulateRun dim minX minY scale f (.split nxt) A tris
                else (A, tris)
              else triangulateRun dim minX minY scale f (.loop nxt stop pass) A tris
      | .split ear =>
          let nxt := (nodeAt A ear).next
          let b := (nodeAt A nxt).next
          if b = ear ∨ b = nxt ∨ b = (nodeAt A ear).prev then (A, tris)
          else
            let sp := spliceBridge A ear b
            let r1 := triangulateRun dim minX minY scale f (.main (some ear) 0) sp.1 tris
            triangulateRun dim minX minY scale f (.main (some sp.2) 0) r1.1 r1.2

/-- `triangulateLinkedList` (entry form). -/
def triangulateLL (A : Arena) (earOpt : Option Nat) (tris : List Nat)
    (dim : Nat) (minX minY scale : ℚ) (pass : Nat) (fuel : Nat) :
    Arena × List Nat :=
  triangulateRun dim minX minY scale fuel (.main earOpt pass) A tris

/-- The clipping loop of `triangulateLinkedList` (loop form). -/
def earLoop (A : Arena) (ear stop : Nat) (tris : List Nat) (dim : Nat)
    (minX minY scale : ℚ) (pass : Nat) (fuel : Nat) : Arena × List Nat :=
  triangulateRun dim minX minY scale fuel (.loop ear stop pass) A tris

/-- Modelled from the spec: `splitAndTriangulate` (split-pass form). -/
def splitAndTriangulate (A : Arena) (ear : Nat) (tris : List Nat)
    (dim : Nat) (minX minY scale : ℚ) (fuel : Nat) : Arena × List Nat :=
  triangulateRun dim minX minY scale fuel (.split ear) A tris

/-! ## Top-level entry points -/

/-- Ghost fuel supplied to the source's unbounded loops: generous cubic
bound in the input size, never exhausted on terminating runs. -/
def topFuel (n : Nat) : Nat := (n + 8) * (n + 8) * (n + 8)

/-- `triangulatePolygon`: the exported entry point (lines 16–51 of the
source): build the outer ring clockwise, merge holes, derive the
bounding-box context and `scaleFactor = 32767 / max(dx, dy)` when
`vertices.length > 80 * dimensions`, and run the ear-clipping engine.
An absent `holeIndices` argument is embedded as `[]`. -/
def triangulatePolygon (vertices : List ℚ) (holeIndices : List Nat)
    (dimensions : Nat) : List Nat :=
  let hasHoles := holeIndices ≠ []
  let outerLength := if hasHoles then holeIndices.headD 0 * dimensions
    else vertices.length
  let fuel := topFuel vertices.length
  let (A0, outerOpt) := createLinkedList Arena.empty vertices 0 outerLength
    dimensions true
  match outerOpt with
  | none => []
  | some outer0 =>
      if (nodeAt A0 outer0).next = (nodeAt A0 outer0).prev then []
      else
        let (A1, outer1) := if hasHoles
          then processHoles A0 vertices holeIndices outer0 dimensions fuel
          else (A0, outer0)
        let ctx : ℚ × ℚ × ℚ :=
          if vertices.length > 80 * dimensions then
            let bb := (stepsUp dimensions outerLength dimensions).foldl
              (fun st i =>
                let (mnX, mnY, mxX, mxY) := st
                let x := dAt vertices i
                let y := dAt vertices (i + 1)
                (if x < mnX then x else mnX, if y < mnY then y else mnY,
                 if x > mxX then x else mxX, if y > mxY then y else mxY))
              (dAt vertices 0, dAt vertices 1, dAt vertices 0, dAt vertices 1)
            let d := max (bb.2.2.1 - bb.1) (bb.2.2.2 - bb.2.1)
            (bb.1, bb.2.1, if d ≠ 0 then 32767 / d else 0)
          else (0, 0, 0)
        (triangulateLL A1 (some outer1) [] dimensions ctx.1 ctx.2.1 ctx.2.2 0
          fuel).2

/-- Result record of `flattenPolygonData`. -/
structure FlattenResult where
  vertices : List ℚ
  holes : List Nat
  dimensions : Nat
deriving DecidableEq, Repr

/-- `flattenPolygonData`: flatten nested rings to one coordinate buffer;
after each ring except the first, push the running point total as a hole
index (`holeIndex += previousLength; holes.push(holeIndex)` guarded by
`if (previousLength)`).  `flattenStep` is one iteration of the
`for (const ring of data)` loop. -/
def flattenStep (dimensions : Nat) (st : List ℚ × List Nat × Nat × Nat)
    (ring : List (List ℚ)) : List ℚ × List Nat × Nat × Nat :=
  let (vs, hs, hi, pl) := st
  let vs' := vs ++ ring.foldl
    (fun acc point => acc ++ (List.range dimensions).map (dAt point)) []
  let (hi', hs') := if pl ≠ 0 then (hi + pl, hs ++ [hi + pl]) else (hi, hs)
  (vs', hs', hi', ring.length)

def flattenPolygonData (data : List (List (List ℚ))) : FlattenResult :=
  let dimensions := ((data.headD []).headD []).length
  let st := data.foldl (flattenStep dimensions)
    (([] : List ℚ), ([] : List Nat), 0, 0)
  { vertices := st.1, holes := st.2.1, dimensions := dimensions }

/-- The triangle-area accumulation loop of `calculateTriangulationQuality`
(`for (i = 0; i < triangles.length; i += 3)`), summing the absolute
shoelace area of each emitted index triple. -/
def trianglesAreaSum (vertices : List ℚ) (dimensions : Nat) :
    List Nat → ℚ
  | i1 :: i2 :: i3 :: rest =>
      let a := i1 * dimensions
      let b := i2 * dimensions
      let c := i3 * dimensions
      |(dAt vertices a - dAt vertices c) * (dAt vertices (b + 1) - dAt vertices (a + 1)) -
        (dAt vertices a - dAt vertices b) * (dAt vertices (c + 1) - dAt vertices (a + 1))| +
        trianglesAreaSum vertices dimensions rest
  | _ => 0

/-- `calculateTriangulationQuality`: expected area
`|signedArea(outer)| − Σ |signedArea(hole_k)|` against the summed
absolute triangle area; `0` when both are zero, else
`Math.abs((trianglesArea - polygonArea) / polygonArea)`. -/
def calculateTriangulationQuality (vertices : List ℚ) (holeIndices : List Nat)
    (dimensions : Nat) (triangles : List Nat) : ℚ :=
  let hasHoles := holeIndices ≠ []
  let outerLen := if hasHoles then holeIndices.headD 0 * dimensions
    else vertices.length
  let polygonArea0 := |calculateSignedArea vertices 0 outerLen dimensions|
  let polygonArea := if hasHoles then
      polygonArea0 -
        ((holeRanges holeIndices dimensions vertices.length).map
          (fun r => |calculateSignedArea vertices r.1 r.2 dimensions|)).sum
    else polygonArea0
  let trianglesArea := trianglesAreaSum vertices dimensions triangles
  if polygonArea = 0 ∧ trianglesArea = 0 then 0
  else |(trianglesArea - polygonArea) / polygonArea|

/-! # Verification

## C9: empty vertex buffer -/

theorem calculateSignedAreaAux_stop_le (data : List ℚ) (dim stop fuel i j : Nat)
    (acc : ℚ) (h : ¬ i < stop) :
    calculateSignedAreaAux data dim stop fuel i j acc = acc := by
  cases fuel with
  | zero => rfl
  | succ f => simp [calculateSignedAreaAux, h]

theorem stepsUp_nil (start stop dim : Nat) (h : ¬ start < stop) :
    stepsUp start stop dim = [] := by
  simp [stepsUp, stepsUpAux, h]

theorem stepsDown_nil (i start : Int) (dim : Nat) (h : ¬ start ≤ i ∨ dim = 0) :
    stepsDown i start dim = [] := by
  rcases h with h | h
  · simp [stepsDown, stepsDownAux, h]
  · simp [stepsDown, stepsDownAux, h]

/-- The empty buffer builds no ring. -/
theorem createLinkedList_empty (dim : Nat) (cw : Bool) :
    createLinkedList Arena.empty [] 0 0 dim cw = (Arena.empty, none) := by
  unfold createLinkedList
  have hsa : calculateSignedArea [] 0 0 dim = 0 := by
    unfold calculateSignedArea
    exact calculateSignedAreaAux_stop_le [] dim 0 (0 + 1) 0 (0 - dim) 0 (by omega)
  rw [hsa]
  have hup : stepsUp 0 0 dim = [] := stepsUp_nil 0 0 dim (by omega)
  have hdn : stepsDown (((0 : Nat) : Int) - (dim : Int)) ((0 : Nat) : Int) dim = [] := by
    rcases Nat.eq_zero_or_pos dim with h | h
    · exact stepsDown_nil _ _ _ (Or.inr h)
    · refine stepsDown_nil _ _ _ (Or.inl ?_)
      simp only [not_le]
      omega
  rw [hup, hdn]
  cases cw <;> simp

/-- C9.  `triangulatePolygon` applied to an empty vertex buffer (and the
empty hole list embedding an absent `holeIndices` argument) returns the
empty triangle list for every `dimensions`; the embedding is a total
function, so no error is raised on this path. -/
theorem triangulatePolygon_empty_input (dim : Nat) :
    triangulatePolygon [] [] dim = [] := by
  unfold triangulatePolygon
  simp only [List.length_nil, ne_eq, not_true_eq_false, if_false,
    reduceIte, createLinkedList_empty]

/-! ## C10: `flattenPolygonData` hole indices -/

/-- Specification-side view of the hole-index entries produced by the
`flattenPolygonData` fold, starting from accumulated count `hi` and
previous-ring length `pl`. -/
def entriesFrom (hi pl : Nat) : List (List (List ℚ)) → List Nat
  | [] => []
  | r :: rest =>
      if pl ≠ 0 then (hi + pl) :: entriesFrom (hi + pl) r.length rest
      else entriesFrom hi r.length rest

/-- The hole-index component of the `flattenPolygonData` fold is
`entriesFrom`. -/
theorem flatten_foldl_holes (dimensions : Nat) :
    ∀ (rs : List (List (List ℚ))) (vs : List ℚ) (hs : List Nat) (hi pl : Nat),
      (rs.foldl (flattenStep dimensions) (vs, hs, hi, pl)).2.1 =
        hs ++ entriesFrom hi pl rs := by
  intro rs
  induction rs with
  | nil => intro vs hs hi pl; simp [entriesFrom]
  | cons r rest ih =>
      intro vs hs hi pl
      by_cases hpl : pl = 0
      · subst hpl
        simp only [List.foldl_cons, flattenStep, ne_eq, not_true_eq_false,
          if_false, reduceIte, entriesFrom]
        exact ih _ _ _ _
      · simp only [List.foldl_cons, flattenStep, ne_eq, hpl, not_false_eq_true,
          if_true, reduceIte, entriesFrom]
        rw [ih]
        simp

/-- Closed form of `entriesFrom` when every remaining ring is non-empty
and the previous ring was non-empty. -/
theorem entriesFrom_closed :
    ∀ (rs : List (List (List ℚ))) (hi pl : Nat), pl ≠ 0 →
      (∀ r ∈ rs, r ≠ []) →
      entriesFrom hi pl rs =
        (List.range rs.length).map
          (fun k => hi + pl + ((rs.take k).map List.length).sum) := by
  intro rs
  induction rs with
  | nil => intro hi pl _ _; simp [entriesFrom]
  | cons r rest ih =>
      intro hi pl hpl hne
      have hr : r ≠ [] := hne r (List.mem_cons_self r rest)
      have hrlen : r.length ≠ 0 := by
        simp only [ne_eq, List.length_eq_zero]
        exact hr
      rw [entriesFrom, if_pos hpl,
        ih (hi + pl) r.length hrlen (fun q hq => hne q (List.mem_cons_of_mem r hq))]
      rw [List.length_cons, List.range_succ_eq_map]
      simp only [List.map_cons, List.take_zero, List.map_nil, List.sum_nil,
        Nat.add_zero, List.map_map]
      congr 1
      apply List.map_congr_left
      intro k _
      simp only [Function.comp_apply, List.take_succ_cons, List.map_cons,
        List.sum_cons]
      omega

/-- C10.  For every nested-ring input whose rings are all non-empty, the
`holes` list returned by `flattenPolygonData` has its `k`-th entry equal
to the total number of points in rings `0` through `k`, and is strictly
ascending (hence satisfies `Triangulate`'s ascending-`holeIndices`
precondition). -/
theorem flattenPolygonData_holes (data : List (List (List ℚ)))
    (hne : ∀ r ∈ data, r ≠ []) :
    (flattenPolygonData data).holes =
      (List.range (data.length - 1)).map
        (fun k => ((data.take (k + 1)).map List.length).sum) ∧
    List.Chain' (· < ·) (flattenPolygonData data).holes := by
  have hform : (flattenPolygonData data).holes =
      (List.range (data.length - 1)).map
        (fun k => ((data.take (k + 1)).map List.length).sum) := by
    unfold flattenPolygonData
    dsimp only
    rw [flatten_foldl_holes]
    cases data with
    | nil => simp [entriesFrom]
    | cons r rest =>
        have hr : r ≠ [] := hne r (List.mem_cons_self r rest)
        have hrlen : r.length ≠ 0 := by
          simp only [ne_eq, List.length_eq_zero]
          exact hr
        rw [entriesFrom, if_neg (by simp),
          entriesFrom_closed rest 0 r.length hrlen
            (fun q hq => hne q (List.mem_cons_of_mem r hq))]
        simp only [List.nil_append, List.length_cons, Nat.add_sub_cancel]
        apply List.map_congr_left
        intro k _
        simp only [List.take_succ_cons, List.map_cons, List.sum_cons]
        omega
  refine ⟨hform, ?_⟩
  rw [hform]
  rcases Nat.eq_zero_or_pos (data.length - 1) with h0 | hpos
  · rw [h0]; simp
  · obtain ⟨m, hm⟩ : ∃ m, data.length - 1 = m + 1 :=
      ⟨data.length - 2, by omega⟩
    rw [hm]
    rw [List.chain'_map]
    rw [List.chain'_range_succ]
    intro k hk
    have hk1 : k + 1 < data.length := by omega
    have htk : data.take (k + 2) = data.take (k + 1) ++ (data[k + 1]?).toList := by
      simpa using List.take_succ (l := data) (n := k + 1)
    have hsome : data[k + 1]? = some data[k + 1] := List.getElem?_eq_getElem hk1
    have hmem : data[k + 1] ∈ data := List.getElem_mem hk1
    have hlen : 0 < (data[k + 1]).length := List.length_pos.mpr (hne _ hmem)
    rw [htk, hsome]
    simp only [Option.toList_some, List.map_append, List.sum_append,
      List.map_cons, List.map_nil, List.sum_cons, List.sum_nil]
    omega

/-! ## C7: quality metric -/

/-- The claim's formula taken verbatim: absolute value over the numerator
only, `|triangulatedArea − expectedArea| / expectedArea`. -/
def qualityClaimFormula (vertices : List ℚ) (holeIndices : List Nat)
    (dimensions : Nat) (triangles : List Nat) : ℚ :=
  let hasHoles := holeIndices ≠ []
  let outerLen := if hasHoles then holeIndices.headD 0 * dimensions
    else vertices.length
  let polygonArea0 := |calculateSignedArea vertices 0 outerLen dimensions|
  let polygonArea := if hasHoles then
      polygonArea0 -
        ((holeRanges holeIndices dimensions vertices.length).map
          (fun r => |calculateSignedArea vertices r.1 r.2 dimensions|)).sum
    else polygonArea0
  let trianglesArea := trianglesAreaSum vertices dimensions triangles
  if polygonArea = 0 ∧ trianglesArea = 0 then 0
  else |trianglesArea - polygonArea| / polygonArea

/-- The amended formula: absolute value over the whole quotient
(equivalently `|tA − eA| / |eA|`). -/
def qualityAmendedFormula (vertices : List ℚ) (holeIndices : List Nat)
    (dimensions : Nat) (triangles : List Nat) : ℚ :=
  let hasHoles := holeIndices ≠ []
  let outerLen := if hasHoles then holeIndices.headD 0 * dimensions
    else vertices.length
  let polygonArea0 := |calculateSignedArea vertices 0 outerLen dimensions|
  let polygonArea := if hasHoles then
      polygonArea0 -
        ((holeRanges holeIndices dimensions vertices.length).map
          (fun r => |calculateSignedArea vertices r.1 r.2 dimensions|)).sum
    else polygonArea0
  let trianglesArea := trianglesAreaSum vertices dimensions triangles
  if polygonArea = 0 ∧ trianglesArea = 0 then 0
  else |trianglesArea - polygonArea| / |polygonArea|

/-- C7 counterexample.  When the expected area is negative (hole areas
exceeding the outer area), the code returns the absolute value of the
quotient (here `1`) while the claim's formula
`|tA − eA| / eA` is negative (here `−1`), contradicting both the code and
the claim's own `≥ 0` assertion. -/
theorem quality_claim_counterexample :
    calculateTriangulationQuality
        [0, 0, 1, 0, 1, 1, 0, 1, 10, 10, 20, 10, 20, 20, 10, 20] [4] 2 [] = 1 ∧
      qualityClaimFormula
        [0, 0, 1, 0, 1, 1, 0, 1, 10, 10, 20, 10, 20, 20, 10, 20] [4] 2 [] = -1 := by
  constructor
  · decide
  · decide

/-- C7 amended.  `calculateTriangulationQuality` returns `0` when both the
expected area `|signedArea(outer)| − Σ|signedArea(hole_k)|` and the summed
absolute triangle area are zero, and otherwise
`|triangulatedArea − expectedArea| / |expectedArea|`; the result is always
`≥ 0`.  (Purity is intrinsic to the embedding: the function only reads its
arguments.) -/
theorem quality_amended (vertices : List ℚ) (holeIndices : List Nat)
    (dimensions : Nat) (triangles : List Nat) :
    calculateTriangulationQuality vertices holeIndices dimensions triangles =
      qualityAmendedFormula vertices holeIndices dimensions triangles ∧
    0 ≤ calculateTriangulationQuality vertices holeIndices dimensions triangles := by
  constructor
  · unfold calculateTriangulationQuality qualityAmendedFormula
    dsimp only
    split_ifs <;> first | rfl | rw [abs_div]
  · unfold calculateTriangulationQuality
    dsimp only
    split_ifs <;> first | exact le_refl 0 | exact abs_nonneg _

/-! ## C1: unindexed ear validity -/

/-- `0 ≤ a * b` and `0 < b` force `0 ≤ a`. -/
theorem nonneg_of_mul_nonneg_pos {a b : ℚ} (h : 0 ≤ a * b) (hb : 0 < b) :
    0 ≤ a := by
  by_contra hneg
  push_neg at hneg
  have := mul_neg_of_neg_of_pos hneg hb
  linarith

/-- A point accepted by the boundary-inclusive `pointInTriangle` test of a
negative-area candidate triangle lies inside the triangle's bounding box,
so the source's bounding-box prefilter never rejects a point the
inclusion test would accept. -/
theorem pointInTriangle_bbox (ax ay bx b_y cx cy px py : ℚ)
    (hA : (b_y - ay) * (cx - bx) - (bx - ax) * (cy - b_y) < 0)
    (hin : pointInTriangle ax ay bx b_y cx cy px py = true) :
    min (min ax bx) cx ≤ px ∧ px ≤ max (max ax bx) cx ∧
      min (min ay b_y) cy ≤ py ∧ py ≤ max (max ay b_y) cy := by
  have hin' := hin
  unfold pointInTriangle at hin'
  simp only [Bool.and_eq_true, decide_eq_true_eq, ge_iff_le] at hin'
  obtain ⟨⟨h1, h2⟩, h3⟩ := hin'
  have c1n : 0 ≤ (cx - px) * (ay - py) - (ax - px) * (cy - py) := by linarith
  have c2n : 0 ≤ (ax - px) * (b_y - py) - (bx - px) * (ay - py) := by linarith
  have c3n : 0 ≤ (bx - px) * (cy - py) - (cx - px) * (b_y - py) := by linarith
  have hSpos : 0 < ((cx - px) * (ay - py) - (ax - px) * (cy - py)) +
      ((ax - px) * (b_y - py) - (bx - px) * (ay - py)) +
      ((bx - px) * (cy - py) - (cx - px) * (b_y - py)) := by nlinarith
  refine ⟨?_, ?_, ?_, ?_⟩
  · have hm1 : min (min ax bx) cx ≤ ax := (min_le_left _ _).trans (min_le_left _ _)
    have hm2 : min (min ax bx) cx ≤ bx := (min_le_left _ _).trans (min_le_right _ _)
    have hm3 : min (min ax bx) cx ≤ cx := min_le_right _ _
    have key : (px - min (min ax bx) cx) *
        (((cx - px) * (ay - py) - (ax - px) * (cy - py)) +
         ((ax - px) * (b_y - py) - (bx - px) * (ay - py)) +
         ((bx - px) * (cy - py) - (cx - px) * (b_y - py))) =
        ((bx - px) * (cy - py) - (cx - px) * (b_y - py)) * (ax - min (min ax bx) cx) +
        ((cx - px) * (ay - py) - (ax - px) * (cy - py)) * (bx - min (min ax bx) cx) +
        ((ax - px) * (b_y - py) - (bx - px) * (ay - py)) * (cx - min (min ax bx) cx) := by
      ring
    have hr : 0 ≤ (px - min (min ax bx) cx) *
        (((cx - px) * (ay - py) - (ax - px) * (cy - py)) +
         ((ax - px) * (b_y - py) - (bx - px) * (ay - py)) +
         ((bx - px) * (cy - py) - (cx - px) * (b_y - py))) := by
      rw [key]
      have t1 := mul_nonneg c3n (sub_nonneg.mpr hm1)
      have t2 := mul_nonneg c1n (sub_nonneg.mpr hm2)
      have t3 := mul_nonneg c2n (sub_nonneg.mpr hm3)
      linarith
    have := nonneg_of_mul_nonneg_pos hr hSpos
    linarith
  · have hm1 : ax ≤ max (max ax bx) cx := (le_max_left _ _).trans (le_max_left _ _)
    have hm2 : bx ≤ max (max ax bx) cx := (le_max_right _ _).trans (le_max_left _ _)
    have hm3 : cx ≤ max (max ax bx) cx := le_max_right _ _
    have key : (max (max ax bx) cx - px) *
        (((cx - px) * (ay - py) - (ax - px) * (cy - py)) +
         ((ax - px) * (b_y - py) - (bx - px) * (ay - py)) +
         ((bx - px) * (cy - py) - (cx - px) * (b_y - py))) =
        ((bx - px) * (cy - py) - (cx - px) * (b_y - py)) * (max (max ax bx) cx - ax) +
        ((cx - px) * (ay - py) - (ax - px) * (cy - py)) * (max (max ax bx) cx - bx) +
        ((ax - px) * (b_y - py) - (bx - px) * (ay - py)) * (max (max ax bx) cx - cx) := by
      ring
    have hr : 0 ≤ (max (max ax bx) cx - px) *
        (((cx - px) * (ay - py) - (ax - px) * (cy - py)) +
         ((ax - px) * (b_y - py) - (bx - px) * (ay - py)) +
         ((bx - px) * (cy - py) - (cx - px) * (b_y - py))) := by
      rw [key]
      have t1 := mul_nonneg c3n (sub_nonneg.mpr hm1)
      have t2 := mul_nonneg c1n (sub_nonneg.mpr hm2)
      have t3 := mul_nonneg c2n (sub_nonneg.mpr hm3)
      linarith
    have := nonneg_of_mul_nonneg_pos hr hSpos
    linarith
  · have hm1 : min (min ay b_y) cy ≤ ay := (min_le_left _ _).trans (min_le_left _ _)
    have hm2 : min (min ay b_y) cy ≤ b_y := (min_le_left _ _).trans (min_le_right _ _)
    have hm3 : min (min ay b_y) cy ≤ cy := min_le_right _ _
    have key : (py - min (min ay b_y) cy) *
        (((cx - px) * (ay - py) - (ax - px) * (cy - py)) +
         ((ax - px) * (b_y - py) - (bx - px) * (ay - py)) +
         ((bx - px) * (cy - py) - (cx - px) * (b_y - py))) =
        ((bx - px) * (cy - py) - (cx - px) * (b_y - py)) * (ay - min (min ay b_y) cy) +
        ((cx - px) * (ay - py) - (ax - px) * (cy - py)) * (b_y - min (min ay b_y) cy) +
        ((ax - px) * (b_y - py) - (bx - px) * (ay - py)) * (cy - min (min ay b_y) cy) := by
      ring
    have hr : 0 ≤ (py - min (min ay b_y) cy) *
        (((cx - px) * (ay - py) - (ax - px) * (cy - py)) +
         ((ax - px) * (b_y - py) - (bx - px) * (ay - py)) +
         ((bx - px) * (cy - py) - (cx - px) * (b_y - py))) := by
      rw [key]
      have t1 := mul_nonneg c3n (sub_nonneg.mpr hm1)
      have t2 := mul_nonneg c1n (sub_nonneg.mpr hm2)
      have t3 := mul_nonneg c2n (sub_nonneg.mpr hm3)
      linarith
    have := nonneg_of_mul_nonneg_pos hr hSpos
    linarith
  · have hm1 : ay ≤ max (max ay b_y) cy := (le_max_left _ _).trans (le_max_left _ _)
    have hm2 : b_y ≤ max (max ay b_y) cy := (le_max_right _ _).trans (le_max_left _ _)
    have hm3 : cy ≤ max (max ay b_y) cy := le_max_right _ _
    have key : (max (max ay b_y) cy - py) *
        (((cx - px) * (ay - py) - (ax - px) * (cy - py)) +
         ((ax - px) * (b_y - py) - (bx - px) * (ay - py)) +
         ((bx - px) * (cy - py) - (cx - px) * (b_y - py))) =
        ((bx - px) * (cy - py) - (cx - px) * (b_y - py)) * (max (max ay b_y) cy - ay) +
        ((cx - px) * (ay - py) - (ax - px) * (cy - py)) * (max (max ay b_y) cy - b_y) +
        ((ax - px) * (b_y - py) - (bx - px) * (ay - py)) * (max (max ay b_y) cy - cy) := by
      ring
    have hr : 0 ≤ (max (max ay b_y) cy - py) *
        (((cx - px) * (ay - py) - (ax - px) * (cy - py)) +
         ((ax - px) * (b_y - py) - (bx - px) * (ay - py)) +
         ((bx - px) * (cy - py) - (cx - px) * (b_y - py))) := by
      rw [key]
      have t1 := mul_nonneg c3n (sub_nonneg.mpr hm1)
      have t2 := mul_nonneg c1n (sub_nonneg.mpr hm2)
      have t3 := mul_nonneg c2n (sub_nonneg.mpr hm3)
      linarith
    have := nonneg_of_mul_nonneg_pos hr hSpos
    linarith

/-- The scan loop of `isValidEar` is the all-quantifier of the negated
blocking condition over the walked node list. -/
theorem earScan_eq_all (A : Arena) (ax ay bx b_y cx cy mnx mny mxx mxy : ℚ)
    (aIdx : Nat) :
    ∀ fuel p, earScan A ax ay bx b_y cx cy mnx mny mxx mxy aIdx fuel p =
      (walkNext A aIdx fuel p).all
        (fun q => !earBlocker A ax ay bx b_y cx cy mnx mny mxx mxy q) := by
  intro fuel
  induction fuel with
  | zero => intro p; rfl
  | succ f ih =>
      intro p
      by_cases hp : p = aIdx
      · simp [earScan, walkNext, hp]
      · by_cases hb : earBlocker A ax ay bx b_y cx cy mnx mny mxx mxy p
        · simp [earScan, walkNext, hp, hb]
        · simp [earScan, walkNext, hp, hb, ih]

/-- The blocking condition exactly as claim C1 states it, with
"non-reflex" read under the claim's own §4.1 convention (non-negative
local area is "reflex or collinear", so a non-reflex node has
non-positive local area): the node passes the prev-vertex-exclusive
inclusion test and is non-reflex in its own local triangle. -/
def claimBlockerC1 (A : Arena) (ax ay bx b_y cx cy : ℚ) (pIdx : Nat) : Bool :=
  let p := nodeAt A pIdx
  pointInTriangleExclusive ax ay bx b_y cx cy p.x p.y &&
  decide (triangleArea (nodeAt A p.prev) p (nodeAt A p.next) ≤ 0)

/-- Claim C1 as stated: the ear is accepted iff its signed area is
negative and no other ring node blocks it in the sense of
`claimBlockerC1`. -/
def isValidEarClaim (A : Arena) (ear fuel : Nat) : Bool :=
  let b := nodeAt A ear
  let a := nodeAt A b.prev
  let c := nodeAt A b.next
  decide (triangleArea a b c < 0) &&
  (walkNext A b.prev fuel c.next).all
    (fun q => !claimBlockerC1 A a.x a.y b.x b.y c.x c.y q)

/-- Four-node ring `(0,0) → (4,0) → (2,4) → (2,1) → …` used to refute C1
as stated: node 3 `(2,1)` lies strictly inside the candidate triangle of
ear 1 and has positive (reflex) local area `6`, so the code rejects the
ear while the claim's non-reflex reading accepts it. -/
def c1Arena : Arena :=
  { heap := fun k =>
      if k = 0 then
        { i := 0, x := 0, y := 0, z := 0, prev := 3, next := 1,
          prevZ := none, nextZ := none, steiner := false }
      else if k = 1 then
        { i := 1, x := 4, y := 0, z := 0, prev := 0, next := 2,
          prevZ := none, nextZ := none, steiner := false }
      else if k = 2 then
        { i := 2, x := 2, y := 4, z := 0, prev := 1, next := 3,
          prevZ := none, nextZ := none, steiner := false }
      else if k = 3 then
        { i := 3, x := 2, y := 1, z := 0, prev := 2, next := 0,
          prevZ := none, nextZ := none, steiner := false }
      else PNode.blank,
    size := 4 }

/-- C1 counterexample.  On `c1Arena`, ear 1: `isValidEar` rejects (node 3
is strictly inside the candidate triangle with local signed area
`6 ≥ 0`), but the claim's predicate — which only lets a *non-reflex*
(local area `≤ 0`) node block — accepts.  The claim mislabels the
blocking node's local-area condition. -/
theorem isValidEar_claim_counterexample :
    isValidEar c1Arena 1 5 = false ∧ isValidEarClaim c1Arena 1 5 = true := by
  constructor
  · decide
  · decide

/-- Pointwise agreement of the source's blocking condition with the
amended claim's: for a negative-area candidate triangle the bounding-box
prefilter is implied by the inclusion test, so the source condition is
exactly "inside under the prev-vertex-exclusive test and local signed
area non-negative". -/
theorem earBlocker_eq_amended (A : Arena) (a b c : PNode) (q : Nat)
    (harea : triangleArea a b c < 0) :
    earBlocker A a.x a.y b.x b.y c.x c.y (min (min a.x b.x) c.x)
        (min (min a.y b.y) c.y) (max (max a.x b.x) c.x)
        (max (max a.y b.y) c.y) q =
      (pointInTriangleExclusive a.x a.y b.x b.y c.x c.y
          (nodeAt A q).x (nodeAt A q).y &&
        decide (triangleArea (nodeAt A (nodeAt A q).prev) (nodeAt A q)
          (nodeAt A (nodeAt A q).next) ≥ 0)) := by
  by_cases hin : pointInTriangleExclusive a.x a.y b.x b.y c.x c.y
      (nodeAt A q).x (nodeAt A q).y = true
  · have hin' : pointInTriangle a.x a.y b.x b.y c.x c.y
        (nodeAt A q).x (nodeAt A q).y = true := by
      unfold pointInTriangleExclusive at hin
      exact (Bool.and_eq_true _ _ |>.mp hin).2
    have harea' : (b.y - a.y) * (c.x - b.x) - (b.x - a.x) * (c.y - b.y) < 0 := by
      unfold triangleArea at harea
      exact harea
    obtain ⟨hb1, hb2, hb3, hb4⟩ :=
      pointInTriangle_bbox a.x a.y b.x b.y c.x c.y
        (nodeAt A q).x (nodeAt A q).y harea' hin'
    unfold earBlocker
    have e1 : decide ((nodeAt A q).x ≥ min (min a.x b.x) c.x) = true := by
      simp only [ge_iff_le, decide_eq_true_eq]
      exact hb1
    have e2 : decide ((nodeAt A q).x ≤ max (max a.x b.x) c.x) = true :=
      decide_eq_true hb2
    have e3 : decide ((nodeAt A q).y ≥ min (min a.y b.y) c.y) = true := by
      simp only [ge_iff_le, decide_eq_true_eq]
      exact hb3
    have e4 : decide ((nodeAt A q).y ≤ max (max a.y b.y) c.y) = true :=
      decide_eq_true hb4
    dsimp only
    rw [e1, e2, e3, e4, hin]
    simp only [Bool.true_and]
  · have hin0 : pointInTriangleExclusive a.x a.y b.x b.y c.x c.y
        (nodeAt A q).x (nodeAt A q).y = false := by
      simpa using hin
    unfold earBlocker
    dsimp only
    rw [hin0]
    simp only [Bool.and_false, Bool.false_and]

/-- C1 amended.  `isValidEar` accepts exactly when the candidate's signed
area is negative and no other ring node both passes the boundary-inclusive
point-in-triangle test that excludes only points coincident with the
ear's `prev` vertex and has *non-negative* signed area in its own local
triangle (reflex-or-collinear under the §4.1 convention, not non-reflex
as claimed). -/
theorem isValidEar_amended (A : Arena) (ear fuel : Nat) :
    isValidEar A ear fuel = true ↔
      (triangleArea (nodeAt A (nodeAt A ear).prev) (nodeAt A ear)
          (nodeAt A (nodeAt A ear).next) < 0 ∧
        ∀ q ∈ walkNext A (nodeAt A ear).prev fuel
            ((nodeAt A (nodeAt A ear).next).next),
          ¬(pointInTriangleExclusive (nodeAt A (nodeAt A ear).prev).x
              (nodeAt A (nodeAt A ear).prev).y (nodeAt A ear).x
              (nodeAt A ear).y (nodeAt A (nodeAt A ear).next).x
              (nodeAt A (nodeAt A ear).next).y (nodeAt A q).x
              (nodeAt A q).y = true ∧
            0 ≤ triangleArea (nodeAt A (nodeAt A q).prev) (nodeAt A q)
              (nodeAt A (nodeAt A q).next))) := by
  unfold isValidEar
  dsimp only
  by_cases harea : triangleArea (nodeAt A (nodeAt A ear).prev) (nodeAt A ear)
      (nodeAt A (nodeAt A ear).next) ≥ 0
  · rw [if_pos harea]
    constructor
    · intro hfalse
      exact absurd hfalse (by simp)
    · rintro ⟨hlt, -⟩
      exact absurd harea (not_le.mpr hlt)
  · rw [if_neg harea]
    have harea' : triangleArea (nodeAt A (nodeAt A ear).prev) (nodeAt A ear)
        (nodeAt A (nodeAt A ear).next) < 0 := lt_of_not_ge harea
    rw [earScan_eq_all, List.all_eq_true]
    constructor
    · intro hall
      refine ⟨harea', ?_⟩
      intro q hq ⟨hqin, hqarea⟩
      have := hall q hq
      rw [earBlocker_eq_amended A _ _ _ q harea'] at this
      rw [hqin, decide_eq_true hqarea] at this
      simp at this
    · rintro ⟨-, hnone⟩
      intro q hq
      rw [earBlocker_eq_amended A _ _ _ q harea']
      by_cases hqin : pointInTriangleExclusive (nodeAt A (nodeAt A ear).prev).x
          (nodeAt A (nodeAt A ear).prev).y (nodeAt A ear).x (nodeAt A ear).y
          (nodeAt A (nodeAt A ear).next).x (nodeAt A (nodeAt A ear).next).y
          (nodeAt A q).x (nodeAt A q).y = true
      · by_cases hqa : 0 ≤ triangleArea (nodeAt A (nodeAt A q).prev)
            (nodeAt A q) (nodeAt A (nodeAt A q).next)
        · exact absurd ⟨hqin, hqa⟩ (hnone q hq)
        · rw [hqin]
          simp [hqa]
      · have : pointInTriangleExclusive (nodeAt A (nodeAt A ear).prev).x
            (nodeAt A (nodeAt A ear).prev).y (nodeAt A ear).x (nodeAt A ear).y
            (nodeAt A (nodeAt A ear).next).x (nodeAt A (nodeAt A ear).next).y
            (nodeAt A q).x (nodeAt A q).y = false := by simpa using hqin
        rw [this]
        simp

/-- C10 witness: the theorem applied to the spec's square-with-hole
example. -/
theorem flattenPolygonData_holes_witness :
    (flattenPolygonData
        [[[0, 0], [10, 0], [10, 10], [0, 10]],
         [[3, 3], [7, 3], [7, 7], [3, 7]]]).holes =
      (List.range
          (([[[0, 0], [10, 0], [10, 10], [0, 10]],
             [[3, 3], [7, 3], [7, 7], [3, 7]]] :
              List (List (List ℚ))).length - 1)).map
        (fun k =>
          ((([[[0, 0], [10, 0], [10, 10], [0, 10]],
              [[3, 3], [7, 3], [7, 7], [3, 7]]] :
               List (List (List ℚ))).take (k + 1)).map List.length).sum) ∧
    List.Chain' (· < ·)
      (flattenPolygonData
        [[[0, 0], [10, 0], [10, 10], [0, 10]],
         [[3, 3], [7, 3], [7, 7], [3, 7]]]).holes :=
  flattenPolygonData_holes _ (by decide)

/-! ## C2: triangle counts (square instance) -/

/-- Specification-side absolute triangle area sum: half the absolute
cross product per emitted index triple (the triangles' true geometric
areas, where the source's internal `trianglesAreaSum` accumulates the
doubled shoelace values). -/
def absTriangleAreaSum (vertices : List ℚ) (dimensions : Nat) :
    List Nat → ℚ
  | i1 :: i2 :: i3 :: rest =>
      let ax := dAt vertices (i1 * dimensions)
      let ay := dAt vertices (i1 * dimensions + 1)
      let bx := dAt vertices (i2 * dimensions)
      let b_y := dAt vertices (i2 * dimensions + 1)
      let cx := dAt vertices (i3 * dimensions)
      let cy := dAt vertices (i3 * dimensions + 1)
      |(bx - ax) * (cy - ay) - (cx - ax) * (b_y - ay)| / 2 +
        absTriangleAreaSum vertices dimensions rest
  | _ => 0

/-- C2, square instance: the square `[(0,0),(4,0),(4,4),(0,4)]` with
dimensions 2 and no holes yields exactly `2 = n − 2` triangles whose
absolute areas sum to `16`.  (The universal `n − 2` statement over all
simple polygons is not settled here.) -/
theorem triangulatePolygon_square :
    (triangulatePolygon [0, 0, 4, 0, 4, 4, 0, 4] [] 2).length = 2 * 3 ∧
    absTriangleAreaSum [0, 0, 4, 0, 4, 4, 0, 4] 2
      (triangulatePolygon [0, 0, 4, 0, 4, 4, 0, 4] [] 2) = 16 := by
  constructor
  · decide
  · decide

/-! ## C4: `createLinkedList` threading and winding -/

theorem stepsUpAux_fuel (stop dim : Nat) :
    ∀ f f' i, stop - i ≤ f → stop - i ≤ f' →
      stepsUpAux stop dim f i = stepsUpAux stop dim f' i := by
  intro f
  induction f with
  | zero =>
      intro f' i hf hf'
      have hi : ¬ i < stop := by omega
      cases f' with
      | zero => rfl
      | succ g' => simp [stepsUpAux, hi]
  | succ g ih =>
      intro f' i hf hf'
      cases f' with
      | zero =>
          have hi : ¬ i < stop := by omega
          simp [stepsUpAux, hi]
      | succ g' =>
          by_cases hc : i < stop ∧ 0 < dim
          · simp only [stepsUpAux, if_pos hc]
            rw [ih g' (i + dim) (by omega) (by omega)]
          · simp [stepsUpAux, hc]

theorem stepsUp_cons (start stop dim : Nat) (h : start < stop) (hd : 0 < dim) :
    stepsUp start stop dim = start :: stepsUp (start + dim) stop dim := by
  unfold stepsUp
  rw [show stepsUpAux stop dim (stop + 1) start =
      start :: stepsUpAux stop dim stop (start + dim) by
    simp [stepsUpAux, h, hd]]
  rw [stepsUpAux_fuel stop dim stop (stop + 1) (start + dim) (by omega) (by omega)]

theorem stepsUp_closed (dim : Nat) (hd : 0 < dim) :
    ∀ q start, stepsUp start (start + q * dim) dim =
      (List.range q).map (fun k => start + k * dim) := by
  intro q
  induction q with
  | zero =>
      intro start
      simp only [Nat.zero_mul, Nat.add_zero, List.range_zero, List.map_nil]
      exact stepsUp_nil start start dim (by omega)
  | succ q ih =>
      intro start
      have hpos : 0 < (q + 1) * dim := Nat.mul_pos (by omega) hd
      rw [stepsUp_cons start (start + (q + 1) * dim) dim (by omega) hd]
      rw [show start + (q + 1) * dim = (start + dim) + q * dim by ring]
      rw [ih (start + dim)]
      rw [List.range_succ_eq_map]
      simp only [List.map_cons, Nat.zero_mul, Nat.add_zero, List.map_map]
      congr 1
      apply List.map_congr_left
      intro k _
      simp only [Function.comp_apply, Nat.succ_eq_add_one]
      ring

theorem stepsDownAux_fuel (start : Int) (dim : Nat) :
    ∀ f f' (i : Int), (i - start + 1).toNat ≤ f → (i - start + 1).toNat ≤ f' →
      stepsDownAux start dim f i = stepsDownAux start dim f' i := by
  intro f
  induction f with
  | zero =>
      intro f' i hf hf'
      have hi : ¬ start ≤ i := by omega
      cases f' with
      | zero => rfl
      | succ g' => simp [stepsDownAux, hi]
  | succ g ih =>
      intro f' i hf hf'
      cases f' with
      | zero =>
          have hi : ¬ start ≤ i := by omega
          simp [stepsDownAux, hi]
      | succ g' =>
          by_cases hc : start ≤ i ∧ 0 < dim
          · simp only [stepsDownAux, if_pos hc]
            rw [ih g' (i - dim) (by omega) (by omega)]
          · simp [stepsDownAux, hc]

theorem stepsDown_cons (i start : Int) (dim : Nat) (h : start ≤ i)
    (hd : 0 < dim) :
    stepsDown i start dim = i :: stepsDown (i - dim) start dim := by
  unfold stepsDown
  rw [show stepsDownAux start dim ((i - start).toNat + 1) i =
      i :: stepsDownAux start dim ((i - start).toNat) (i - dim) by
    simp [stepsDownAux, h, hd]]
  rw [stepsDownAux_fuel start dim ((i - start).toNat)
    ((i - dim - start).toNat + 1) (i - dim) (by omega) (by omega)]

theorem stepsDown_closed (dim : Nat) (hd : 0 < dim) :
    ∀ (q : Nat) (start : Int),
      stepsDown (start + (q : Int) * dim - dim) start dim =
        (List.range q).map (fun k => start + ((q - 1 - k : Nat) : Int) * dim) := by
  intro q
  induction q with
  | zero =>
      intro start
      refine (stepsDown_nil _ _ _ (Or.inl ?_)).trans (by simp)
      push_cast
      omega
  | succ q ih =>
      intro start
      have hle : start ≤ start + (q : Int) * dim := by
        have h0 : (0 : Int) ≤ (q : Int) * dim := by positivity
        omega
      rw [show start + ((q + 1 : Nat) : Int) * dim - dim = start + (q : Int) * dim by
        push_cast; ring]
      rw [stepsDown_cons (start + (q : Int) * dim) start dim hle hd]
      rw [show start + (q : Int) * dim - dim = start + (q : Int) * dim - dim from rfl]
      have ih' := ih start
      rw [show start + (q : Int) * (dim : Int) - dim = start + (q : Int) * dim - dim
        from rfl] at ih'
      rw [ih']
      rw [List.range_succ_eq_map]
      simp only [List.map_cons, List.map_map]
      congr 1
      apply List.map_congr_left
      intro k _
      simp only [Function.comp_apply, Nat.succ_eq_add_one]
      have e : (q + 1 - 1 - (k + 1) : Nat) = (q - 1 - k : Nat) := by omega
      simp only [Nat.add_sub_cancel] at e ⊢
      rw [show (q - (k + 1) : Nat) = (q - 1 - k : Nat) by omega]

/-- One shoelace edge term `(x_cur − x_next) * (y_next + y_cur)`, as the
source's `calculateSignedArea` accumulates it per edge. -/
def edgeTerm (a b : ℚ × ℚ) : ℚ := (a.1 - b.1) * (b.2 + a.2)

/-- Open-chain shoelace sum over consecutive pairs of a vertex list. -/
def linChain : List (ℚ × ℚ) → ℚ
  | a :: b :: rest => edgeTerm a b + linChain (b :: rest)
  | _ => 0

/-- Cyclic shoelace sum of a vertex list: the open chain closed by the
wrap-around edge from the last vertex back to the first (realised by
prepending the last vertex). -/
def cycleShoelace (l : List (ℚ × ℚ)) : ℚ :=
  match l.getLast? with
  | none => 0
  | some v => linChain (v :: l)

/-- Specification-side accumulation of the `calculateSignedArea` loop:
the edge terms along a position list with a trailing previous index. -/
def pathSum (data : List ℚ) : List Nat → Nat → ℚ
  | [], _ => 0
  | p :: rest, j =>
      (dAt data j - dAt data p) * (dAt data (p + 1) + dAt data (j + 1)) +
        pathSum data rest p

theorem calculateSignedAreaAux_eq_pathSum (data : List ℚ) (dim stop : Nat) :
    ∀ fuel i j acc, calculateSignedAreaAux data dim stop fuel i j acc =
      acc + pathSum data (stepsUpAux stop dim fuel i) j := by
  intro fuel
  induction fuel with
  | zero => intro i j acc; simp [calculateSignedAreaAux, stepsUpAux, pathSum]
  | succ f ih =>
      intro i j acc
      by_cases hc : i < stop ∧ 0 < dim
      · simp only [calculateSignedAreaAux, stepsUpAux, if_pos hc, pathSum]
        rw [ih]
        ring
      · simp [calculateSignedAreaAux, stepsUpAux, hc, pathSum]

theorem calculateSignedArea_eq_pathSum (data : List ℚ) (start stop dim : Nat) :
    calculateSignedArea data start stop dim =
      pathSum data (stepsUp start stop dim) (stop - dim) := by
  unfold calculateSignedArea stepsUp
  rw [calculateSignedAreaAux_eq_pathSum]
  ring

/-- The coordinate pair stored for buffer position `p`. -/
def coordAt (data : List ℚ) (p : Nat) : ℚ × ℚ := (dAt data p, dAt data (p + 1))

theorem pathSum_eq_linChain (data : List ℚ) :
    ∀ (ps : List Nat) (j : Nat),
      pathSum data ps j = linChain (coordAt data j :: ps.map (coordAt data)) := by
  intro ps
  induction ps with
  | nil => intro j; simp [pathSum, linChain]
  | cons p rest ih =>
      intro j
      simp only [pathSum, List.map_cons, linChain, edgeTerm, coordAt]
      rw [ih p]
      simp [coordAt]

theorem edgeTerm_swap (a b : ℚ × ℚ) : edgeTerm b a = -edgeTerm a b := by
  unfold edgeTerm
  ring

theorem linChain_snoc :
    ∀ (l : List (ℚ × ℚ)) (a v : ℚ × ℚ),
      linChain ((a :: l) ++ [v]) =
        linChain (a :: l) + edgeTerm (l.getLastD a) v := by
  intro l
  induction l with
  | nil => intro a v; simp [linChain, edgeTerm]
  | cons b rest ih =>
      intro a v
      simp only [List.cons_append, linChain, List.getLastD_cons]
      have hbv := ih b v
      simp only [List.cons_append, List.append_eq] at hbv ⊢
      rw [hbv]
      ring

theorem linChain_reverse : ∀ (l : List (ℚ × ℚ)), linChain l.reverse = -linChain l := by
  intro l
  induction l with
  | nil => simp [linChain]
  | cons a t ih =>
      cases t with
      | nil => simp [linChain]
      | cons b rest =>
          have hrev : (a :: b :: rest).reverse = (b :: rest).reverse ++ [a] := by
            simp
          rw [hrev]
          obtain ⟨c, t', hct⟩ : ∃ c t', (b :: rest).reverse = c :: t' := by
            cases h : (b :: rest).reverse with
            | nil => simp at h
            | cons c t' => exact ⟨c, t', rfl⟩
          rw [hct, linChain_snoc t' c a]
          rw [← hct, ih]
          have hlast : t'.getLastD c = b := by
            have h1 : (c :: t').getLast? = some b := by
              rw [← hct, List.getLast?_reverse]
              rfl
            have h2 : (c :: t').getLast? = some (t'.getLastD c) := by
              rw [List.getLast?_cons, List.getLastD_eq_getLast?]
            rw [h1] at h2
            exact (Option.some.inj h2).symm
          rw [hlast, edgeTerm_swap a b]
          simp only [linChain]
          ring

theorem cycleShoelace_reverse (l : List (ℚ × ℚ)) :
    cycleShoelace l.reverse = -cycleShoelace l := by
  cases l with
  | nil => simp [cycleShoelace]
  | cons a t =>
      unfold cycleShoelace
      rw [List.getLast?_reverse]
      simp only [List.head?_cons]
      have hgl : (a :: t).getLast? = some (t.getLastD a) := by
        rw [List.getLast?_cons, List.getLastD_eq_getLast?]
      rw [hgl]
      have hrev : a :: (a :: t).reverse = ((a :: t) ++ [a]).reverse := by
        simp
      rw [hrev, linChain_reverse]
      have hsnoc := linChain_snoc t a a
      rw [hsnoc]
      simp only [linChain]
      ring

theorem getD_append_lt {α : Type} :
    ∀ (ps : List α) (p : α) (j : Nat) (d : α), j < ps.length →
      (ps ++ [p]).getD j d = ps.getD j d := by
  intro ps
  induction ps with
  | nil => intro p j d hj; exact absurd hj (by simp)
  | cons a rest ih =>
      intro p j d hj
      cases j with
      | zero => rfl
      | succ j' =>
          simp only [List.cons_append, List.getD_cons_succ]
          exact ih p j' d (by simpa using hj)

theorem getD_append_length {α : Type} :
    ∀ (ps : List α) (p : α) (d : α), (ps ++ [p]).getD ps.length d = p := by
  intro ps
  induction ps with
  | nil => intro p d; rfl
  | cons a rest ih =>
      intro p d
      simp only [List.cons_append, List.length_cons, List.getD_cons_succ]
      exact ih p d

/-- The node record produced for ring slot `j` when building a ring of
`m` nodes over position list `ps` at arena base `base`. -/
def builtNode (data : List ℚ) (dim base m j : Nat) (ps : List Nat) : PNode :=
  { i := ps.getD j 0 / dim, x := dAt data (ps.getD j 0),
    y := dAt data (ps.getD j 0 + 1), z := 0,
    prev := base + (if j = 0 then m - 1 else j - 1),
    next := base + (if j = m - 1 then 0 else j + 1),
    prevZ := none, nextZ := none, steiner := false }

/-- Arena read/write lemmas for the index bookkeeping below. -/
theorem setAt_size (A : Arena) (j : Nat) (f : PNode → PNode) :
    (setAt A j f).size = A.size := rfl

theorem setAt_same (A : Arena) (j : Nat) (f : PNode → PNode) :
    (setAt A j f).heap j = f (A.heap j) := by
  simp [setAt]

theorem setAt_other (A : Arena) (j k : Nat) (f : PNode → PNode)
    (h : k ≠ j) : (setAt A j f).heap k = A.heap k := by
  simp [setAt, h]

/-- Allocation of a fresh node at the top of the arena. -/
def pushNode (A : Arena) (nd : PNode) : Arena :=
  { heap := fun k => if k = A.size then nd else A.heap k, size := A.size + 1 }

theorem pushNode_size (A : Arena) (nd : PNode) :
    (pushNode A nd).size = A.size + 1 := rfl

theorem pushNode_same (A : Arena) (nd : PNode) :
    (pushNode A nd).heap A.size = nd := by
  simp [pushNode]

theorem pushNode_other (A : Arena) (nd : PNode) (k : Nat) (h : k ≠ A.size) :
    (pushNode A nd).heap k = A.heap k := by
  simp [pushNode, h]

/-- `addNode` linking after `l` is the composite of one allocation and
the two relink writes, in source statement order. -/
theorem addNode_some_eq (A : Arena) (i : Nat) (x y : ℚ) (l : Nat) :
    addNode A i x y (some l) =
      (setAt (setAt
          (pushNode A { createNode i x y with prev := l, next := (nodeAt A l).next })
          ((nodeAt A l).next) (fun q => { q with prev := A.size }))
        l (fun q => { q with next := A.size }), A.size) := rfl

theorem addNode_none_eq (A : Arena) (i : Nat) (x y : ℚ) :
    addNode A i x y none =
      (pushNode A { createNode i x y with prev := A.size, next := A.size },
        A.size) := rfl

/-- Folding `addStep` over a non-empty position list appends exactly one
cyclically linked fresh node per position, in insertion order, leaving
the rest of the arena untouched, and leaves `last` pointing at the final
fresh node. -/
theorem buildFold_spec (data : List ℚ) (dim : Nat) :
    ∀ (ps : List Nat) (A : Arena), ps ≠ [] →
      (ps.foldl (addStep data dim) (A, none)).1.size = A.size + ps.length ∧
      (ps.foldl (addStep data dim) (A, none)).2 = some (A.size + ps.length - 1) ∧
      (∀ k, k < A.size ∨ A.size + ps.length ≤ k →
        (ps.foldl (addStep data dim) (A, none)).1.heap k = A.heap k) ∧
      (∀ j, j < ps.length →
        (ps.foldl (addStep data dim) (A, none)).1.heap (A.size + j) =
          builtNode data dim A.size ps.length j ps) := by
  intro ps
  induction ps using List.reverseRecOn with
  | nil => intro A h; exact absurd rfl h
  | append_singleton ps p ih =>
      intro A _
      rw [List.foldl_append, List.foldl_cons, List.foldl_nil]
      by_cases hps : ps = []
      · subst hps
        rw [List.foldl_nil]
        have hstep : addStep data dim (A, none) p =
            (pushNode A { createNode (p / dim) (dAt data p) (dAt data (p + 1))
                with prev := A.size, next := A.size }, some A.size) := rfl
        rw [hstep]
        dsimp only
        refine ⟨rfl, by simp, ?_, ?_⟩
        · intro k hk
          exact pushNode_other _ _ k (by simp at hk; omega)
        · intro j hj
          have hj0 : j = 0 := by simp at hj; omega
          subst hj0
          rw [show A.size + 0 = A.size from rfl, pushNode_same]
          simp [builtNode, createNode]
      · obtain ⟨hsize, hlast, hold, hnodes⟩ := ih A hps
        have hm : 0 < ps.length := List.length_pos.mpr hps
        have hpair : ps.foldl (addStep data dim) (A, none) =
            ((ps.foldl (addStep data dim) (A, none)).1,
              some (A.size + ps.length - 1)) := by
          rw [← hlast]
        rw [hpair]
        have hstep : ∀ (R : Arena) (l : Nat),
            addStep data dim (R, some l) p =
              (setAt (setAt
                  (pushNode R { createNode (p / dim) (dAt data p)
                      (dAt data (p + 1)) with prev := l, next := (nodeAt R l).next })
                  ((nodeAt R l).next) (fun q => { q with prev := R.size }))
                l (fun q => { q with next := R.size }), some R.size) := by
          intro R l
          rfl
        rw [hstep]
        dsimp only
        set R := (ps.foldl (addStep data dim) (A, none)).1 with hR
        have hlidx : A.size + (ps.length - 1) = A.size + ps.length - 1 := by omega
        have hlnode : R.heap (A.size + (ps.length - 1)) =
            builtNode data dim A.size ps.length (ps.length - 1) ps :=
          hnodes (ps.length - 1) (by omega)
        have hln : (nodeAt R (A.size + ps.length - 1)).next = A.size := by
          rw [nodeAt, ← hlidx, hlnode]
          simp [builtNode]
        refine ⟨?_, ?_, ?_, ?_⟩
        · rw [setAt_size, setAt_size, pushNode_size, hsize]
          simp only [List.length_append, List.length_singleton]
          omega
        · rw [hsize]
          exact congrArg some (by
            simp only [List.length_append, List.length_singleton]
            omega)
        · intro k hk
          simp only [List.length_append, List.length_singleton] at hk
          rw [setAt_other _ _ _ _ (by omega : k ≠ A.size + ps.length - 1), hln,
            setAt_other _ _ _ _ (by omega : k ≠ A.size),
            pushNode_other _ _ _ (by rw [hsize]; omega)]
          exact hold k (by omega)
        · intro j hj
          simp only [List.length_append, List.length_singleton] at hj
          by_cases hjm : j = ps.length
          · subst hjm
            rw [setAt_other _ _ _ _
                (by omega : A.size + ps.length ≠ A.size + ps.length - 1), hln,
              setAt_other _ _ _ _ (by omega : A.size + ps.length ≠ A.size)]
            rw [show A.size + ps.length = R.size by rw [hsize]]
            rw [pushNode_same, hsize]
            simp only [builtNode, createNode]
            rw [getD_append_length]
            simp only [List.length_append, List.length_singleton]
            apply PNode.ext <;> first | rfl | (dsimp only; split_ifs <;> omega)
          · have hjlt : j < ps.length := by omega
            by_cases hm1 : ps.length = 1
            · have hj0 : j = 0 := by omega
              subst hj0
              have e1 : A.size + ps.length - 1 = A.size := by omega
              rw [e1] at hln
              rw [show A.size + 0 = A.size from rfl, e1, setAt_same, hln,
                setAt_same, pushNode_other _ _ _ (by rw [hsize]; omega)]
              have h0node : R.heap A.size =
                  builtNode data dim A.size ps.length 0 ps := by
                have := hnodes 0 (by omega)
                rwa [Nat.add_zero] at this
              rw [h0node, hsize]
              simp only [builtNode]
              rw [getD_append_lt ps p 0 0 (by omega)]
              simp only [List.length_append, List.length_singleton]
              apply PNode.ext <;> first | rfl | (dsimp only; split_ifs <;> omega)
            · have hm2 : 2 ≤ ps.length := by omega
              by_cases hj0 : j = 0
              · subst hj0
                rw [show A.size + 0 = A.size from rfl]
                rw [setAt_other _ _ _ _ (by omega : A.size ≠ A.size + ps.length - 1),
                  hln, setAt_same, pushNode_other _ _ _ (by rw [hsize]; omega)]
                have h0node : R.heap A.size =
                    builtNode data dim A.size ps.length 0 ps := by
                  have := hnodes 0 (by omega)
                  rwa [Nat.add_zero] at this
                rw [h0node, hsize]
                simp only [builtNode]
                rw [getD_append_lt ps p 0 0 (by omega)]
                simp only [List.length_append, List.length_singleton]
                apply PNode.ext <;> first | rfl | (dsimp only; split_ifs <;> omega)
              · by_cases hjl : j = ps.length - 1
                · subst hjl
                  rw [hlidx, setAt_same, hln,
                    setAt_other _ _ _ _
                      (by omega : A.size + ps.length - 1 ≠ A.size),
                    pushNode_other _ _ _ (by rw [hsize]; omega)]
                  rw [← hlidx, hlnode, hsize]
                  simp only [builtNode]
                  rw [getD_append_lt ps p (ps.length - 1) 0 (by omega)]
                  simp only [List.length_append, List.length_singleton]
                  apply PNode.ext <;> first | rfl | (dsimp only; split_ifs <;> omega)
                · rw [setAt_other _ _ _ _
                      (by omega : A.size + j ≠ A.size + ps.length - 1), hln,
                    setAt_other _ _ _ _ (by omega : A.size + j ≠ A.size),
                    pushNode_other _ _ _ (by rw [hsize]; omega)]
                  rw [hnodes j hjlt]
                  simp only [builtNode]
                  rw [getD_append_lt ps p j 0 (by omega)]
                  simp only [List.length_append, List.length_singleton]
                  apply PNode.ext <;> first | rfl | (dsimp only; split_ifs <;> omega)

theorem map_range_getD {α : Type} (g : Nat → α) (m j : Nat) (d : α)
    (hj : j < m) : ((List.range m).map g).getD j d = g j := by
  rw [List.getD_eq_getElem?_getD, List.getElem?_map, List.getElem?_range hj]
  rfl

theorem reverse_map_range {α : Type} (g : Nat → α) :
    ∀ m, ((List.range m).map g).reverse =
      (List.range m).map (fun k => g (m - 1 - k)) := by
  intro m
  induction m with
  | zero => simp
  | succ m ih =>
      conv_lhs => rw [List.range_succ]
      rw [List.map_append, List.reverse_append]
      simp only [List.map_cons, List.map_nil, List.reverse_cons,
        List.reverse_nil, List.nil_append, List.singleton_append]
      rw [ih]
      conv_rhs => rw [List.range_succ_eq_map]
      simp only [List.map_cons, List.map_map, Function.comp_apply,
        Nat.add_sub_cancel, Nat.sub_zero]
      congr 1
      apply List.map_congr_left
      intro k _
      simp only [Function.comp_apply, Nat.succ_eq_add_one]
      congr 1
      omega

theorem map_range_getD_map {α β : Type} (f : α → β) (d : α) :
    ∀ (ps : List α),
      (List.range ps.length).map (fun j => f (ps.getD j d)) = ps.map f := by
  intro ps
  induction ps with
  | nil => simp
  | cons a rest ih =>
      rw [List.length_cons, List.range_succ_eq_map]
      simp only [List.map_cons, List.getD_cons_zero, List.map_map]
      congr 1

/-- Walking `next`-links from the base of a freshly built ring visits the
fresh nodes in allocation order. -/
theorem ringList_built (A : Arena) (base m : Nat)
    (hnext : ∀ j, j < m →
      (nodeAt A (base + j)).next = base + (if j = m - 1 then 0 else j + 1)) :
    ∀ cnt j, j + cnt ≤ m → ringList A cnt (base + j) = List.range' (base + j) cnt := by
  intro cnt
  induction cnt with
  | zero => intro j _; rfl
  | succ c ih =>
      intro j hj
      rw [ringList, List.range'_succ]
      congr 1
      rw [hnext j (by omega)]
      by_cases hjl : j = m - 1
      · have hc : c = 0 := by omega
        subst hc
        rfl
      · rw [if_neg hjl]
        rw [show base + (j + 1) = base + (j + 1) from rfl]
        exact ih (j + 1) (by omega)

/-- The backward loop visits exactly the forward loop's positions in
reverse order (integer loop indices collapsed back to `Nat`). -/
theorem stepsDown_toNat_reverse (start stop dim : Nat) (hdim : 0 < dim)
    (hle : start ≤ stop) (hdvd : dim ∣ (stop - start)) :
    (stepsDown ((stop : Int) - dim) start dim).map Int.toNat =
      (stepsUp start stop dim).reverse := by
  obtain ⟨m, hm⟩ := hdvd
  rw [Nat.mul_comm] at hm
  have hstop : stop = start + m * dim := by omega
  subst hstop
  have hcast : ((start + m * dim : Nat) : Int) - (dim : Int) =
      (start : Int) + (m : Int) * dim - dim := by
    push_cast
    ring
  rw [hcast, stepsDown_closed dim hdim m (start : Int),
    stepsUp_closed dim hdim m start, reverse_map_range]
  rw [List.map_map]
  apply List.map_congr_left
  intro k hk
  simp only [Function.comp_apply]
  have : (start : Int) + ((m - 1 - k : Nat) : Int) * dim =
      ((start + (m - 1 - k) * dim : Nat) : Int) := by
    push_cast
    ring
  rw [this, Int.toNat_natCast]

/-- The tail of `createLinkedList`: drop the last node when it coincides
in position with the first. -/
def finishRing (st : Arena × Option Nat) : Arena × Option Nat :=
  match st.2 with
  | none => (st.1, none)
  | some l =>
      if pointsEqual (nodeAt st.1 l) (nodeAt st.1 ((nodeAt st.1 l).next)) then
        (removeNode st.1 l, some ((nodeAt (removeNode st.1 l) l).next))
      else (st.1, some l)

theorem createLinkedList_eq (A : Arena) (data : List ℚ)
    (start stop dim : Nat) (cw : Bool) :
    createLinkedList A data start stop dim cw =
      finishRing
        ((if cw = decide (calculateSignedArea data start stop dim > 0)
          then stepsUp start stop dim
          else (stepsDown ((stop : Int) - dim) start dim).map Int.toNat).foldl
          (addStep data dim) (A, none)) := by
  by_cases h : cw = decide (calculateSignedArea data start stop dim > 0)
  · simp only [createLinkedList, finishRing, if_pos h]
  · simp only [createLinkedList, finishRing, if_neg h]

/-- When the first and last positions of a non-empty position list carry
distinct coordinates, `finishRing` drops nothing and returns the last
built node. -/
theorem buildRing_spec (data : List ℚ) (dim : Nat) (A : Arena) (ps : List Nat)
    (hne : ps ≠ [])
    (hdup : ¬ (dAt data (ps.getD (ps.length - 1) 0) = dAt data (ps.getD 0 0) ∧
      dAt data (ps.getD (ps.length - 1) 0 + 1) = dAt data (ps.getD 0 0 + 1))) :
    finishRing (ps.foldl (addStep data dim) (A, none)) =
      ((ps.foldl (addStep data dim) (A, none)).1, some (A.size + ps.length - 1)) := by
  obtain ⟨hsize, hlast, hold, hnodes⟩ := buildFold_spec data dim ps A hne
  have hm : 0 < ps.length := List.length_pos.mpr hne
  have hlnode : (ps.foldl (addStep data dim) (A, none)).1.heap
      (A.size + (ps.length - 1)) =
      builtNode data dim A.size ps.length (ps.length - 1) ps :=
    hnodes (ps.length - 1) (by omega)
  have h0node : (ps.foldl (addStep data dim) (A, none)).1.heap (A.size + 0) =
      builtNode data dim A.size ps.length 0 ps := hnodes 0 (by omega)
  rw [Nat.add_zero] at h0node
  unfold finishRing
  rw [hlast]
  have hlidx : A.size + ps.length - 1 = A.size + (ps.length - 1) := by omega
  have hlnext : (nodeAt (ps.foldl (addStep data dim) (A, none)).1
      (A.size + ps.length - 1)).next = A.size := by
    rw [nodeAt, hlidx, hlnode]
    simp [builtNode]
  have hpe : pointsEqual
      (nodeAt (ps.foldl (addStep data dim) (A, none)).1 (A.size + ps.length - 1))
      (nodeAt (ps.foldl (addStep data dim) (A, none)).1
        ((nodeAt (ps.foldl (addStep data dim) (A, none)).1
          (A.size + ps.length - 1)).next)) = false := by
    rw [hlnext, nodeAt, nodeAt, hlidx, hlnode, h0node]
    simp only [pointsEqual, builtNode, Bool.and_eq_false_iff, beq_eq_false_iff_ne,
      ne_eq]
    by_cases hx : dAt data (ps.getD (ps.length - 1) 0) = dAt data (ps.getD 0 0)
    · right
      intro hy
      exact hdup ⟨hx, hy⟩
    · left
      exact hx
  dsimp only
  rw [hpe]
  simp

/-- The forward position list's cyclic shoelace value is exactly
`calculateSignedArea` of the range. -/
theorem cycleShoelace_forward (data : List ℚ) (start stop dim : Nat)
    (hdim : 0 < dim) (hlt : start < stop) (hdvd : dim ∣ (stop - start)) :
    cycleShoelace ((stepsUp start stop dim).map (coordAt data)) =
      calculateSignedArea data start stop dim := by
  have hmd : (stop - start) / dim * dim = stop - start := Nat.div_mul_cancel hdvd
  obtain ⟨m', hm'⟩ : ∃ m', (stop - start) / dim = m' + 1 := by
    refine ⟨(stop - start) / dim - 1, ?_⟩
    have : 0 < (stop - start) / dim := by
      rcases Nat.eq_zero_or_pos ((stop - start) / dim) with h0 | h0
      · rw [h0] at hmd
        omega
      · exact h0
    omega
  have hstop : stop = start + (m' + 1) * dim := by
    rw [hm'] at hmd
    omega
  have hps_eq : stepsUp start stop dim =
      (List.range (m' + 1)).map (fun k => start + k * dim) := by
    conv_lhs => rw [hstop]
    exact stepsUp_closed dim hdim (m' + 1) start
  have hlastp : (stepsUp start stop dim).getLast? = some (stop - dim) := by
    rw [hps_eq, List.range_succ, List.map_append]
    simp only [List.map_cons, List.map_nil]
    rw [List.getLast?_concat]
    have : start + m' * dim = stop - dim := by
      have hsm : (m' + 1) * dim = m' * dim + dim := by ring
      omega
    rw [this]
  have hgl : ((stepsUp start stop dim).map (coordAt data)).getLast? =
      some (coordAt data (stop - dim)) := by
    rw [List.getLast?_map, hlastp]
    rfl
  unfold cycleShoelace
  rw [hgl]
  rw [calculateSignedArea_eq_pathSum, pathSum_eq_linChain]

/-- Full threading/winding description of `createLinkedList` (shared by
the hole-merging development, which needs the winding signs of both
orientation flags). -/
theorem createLinkedList_winding (data : List ℚ) (start stop dim : Nat)
    (cw : Bool) (A : Arena) (hdim : 0 < dim) (hlt : start < stop)
    (hdvd : dim ∣ (stop - start))
    (hends : ¬ (dAt data start = dAt data (stop - dim) ∧
      dAt data (start + 1) = dAt data (stop - dim + 1))) :
    (createLinkedList A data start stop dim cw).2 =
        some (A.size + (stop - start) / dim - 1) ∧
    ringList (createLinkedList A data start stop dim cw).1
        ((stop - start) / dim) A.size =
      List.range' A.size ((stop - start) / dim) ∧
    ((List.range' A.size ((stop - start) / dim)).map
        (fun k => ((nodeAt (createLinkedList A data start stop dim cw).1 k).x,
          (nodeAt (createLinkedList A data start stop dim cw).1 k).y)) =
      if cw = decide (calculateSignedArea data start stop dim > 0)
      then (stepsUp start stop dim).map (coordAt data)
      else ((stepsUp start stop dim).map (coordAt data)).reverse) ∧
    (cycleShoelace ((List.range' A.size ((stop - start) / dim)).map
        (fun k => ((nodeAt (createLinkedList A data start stop dim cw).1 k).x,
          (nodeAt (createLinkedList A data start stop dim cw).1 k).y))) =
      if cw = decide (calculateSignedArea data start stop dim > 0)
      then calculateSignedArea data start stop dim
      else -calculateSignedArea data start stop dim) ∧
    (cw = true → 0 ≤ cycleShoelace ((List.range' A.size ((stop - start) / dim)).map
        (fun k => ((nodeAt (createLinkedList A data start stop dim cw).1 k).x,
          (nodeAt (createLinkedList A data start stop dim cw).1 k).y)))) ∧
    (cw = false → cycleShoelace ((List.range' A.size ((stop - start) / dim)).map
        (fun k => ((nodeAt (createLinkedList A data start stop dim cw).1 k).x,
          (nodeAt (createLinkedList A data start stop dim cw).1 k).y))) ≤ 0) := by
  have hmd : (stop - start) / dim * dim = stop - start := Nat.div_mul_cancel hdvd
  obtain ⟨m', hm'⟩ : ∃ m', (stop - start) / dim = m' + 1 := by
    refine ⟨(stop - start) / dim - 1, ?_⟩
    have : 0 < (stop - start) / dim := by
      rcases Nat.eq_zero_or_pos ((stop - start) / dim) with h0 | h0
      · rw [h0] at hmd
        omega
      · exact h0
    omega
  rw [hm']
  have hstop : stop = start + (m' + 1) * dim := by
    rw [hm'] at hmd
    omega
  have hsm : (m' + 1) * dim = m' * dim + dim := by ring
  have hps_eq : stepsUp start stop dim =
      (List.range (m' + 1)).map (fun k => start + k * dim) := by
    conv_lhs => rw [hstop]
    exact stepsUp_closed dim hdim (m' + 1) start
  have hlen : (stepsUp start stop dim).length = m' + 1 := by
    rw [hps_eq]
    simp
  have hCSfwd := cycleShoelace_forward data start stop dim hdim hlt hdvd
  by_cases hbr : cw = decide (calculateSignedArea data start stop dim > 0)
  · -- forward threading
    have hne : stepsUp start stop dim ≠ [] := by
      intro h
      rw [h] at hlen
      simp at hlen
    have hget0 : (stepsUp start stop dim).getD 0 0 = start := by
      rw [hps_eq, map_range_getD _ (m' + 1) 0 0 (by omega)]
      omega
    have hgetl : (stepsUp start stop dim).getD
        ((stepsUp start stop dim).length - 1) 0 = stop - dim := by
      rw [hlen, hps_eq, map_range_getD _ (m' + 1) (m' + 1 - 1) 0 (by omega)]
      simp only [Nat.add_sub_cancel]
      omega
    have hdup : ¬ (dAt data ((stepsUp start stop dim).getD
          ((stepsUp start stop dim).length - 1) 0) =
        dAt data ((stepsUp start stop dim).getD 0 0) ∧
        dAt data ((stepsUp start stop dim).getD
          ((stepsUp start stop dim).length - 1) 0 + 1) =
        dAt data ((stepsUp start stop dim).getD 0 0 + 1)) := by
      rw [hget0, hgetl]
      rintro ⟨h1, h2⟩
      exact hends ⟨h1.symm, h2.symm⟩
    rw [createLinkedList_eq, if_pos hbr,
      buildRing_spec data dim A (stepsUp start stop dim) hne hdup]
    obtain ⟨hsize, hlast, hold, hnodes⟩ :=
      buildFold_spec data dim (stepsUp start stop dim) A hne
    have hcoords : (List.range' A.size (m' + 1)).map
        (fun k => ((nodeAt (stepsUp start stop dim |>.foldl
            (addStep data dim) (A, none)).1 k).x,
          (nodeAt (stepsUp start stop dim |>.foldl
            (addStep data dim) (A, none)).1 k).y)) =
        (stepsUp start stop dim).map (coordAt data) := by
      rw [List.range'_eq_map_range, List.map_map]
      rw [show (stepsUp start stop dim).map (coordAt data) =
          (List.range (stepsUp start stop dim).length).map
            (fun j => coordAt data ((stepsUp start stop dim).getD j 0)) from
        (map_range_getD_map (coordAt data) 0 (stepsUp start stop dim)).symm]
      rw [hlen]
      apply List.map_congr_left
      intro j hj
      rw [List.mem_range] at hj
      simp only [Function.comp_apply]
      rw [nodeAt, hnodes j (by omega)]
      simp [builtNode, coordAt]
    refine ⟨by rw [hlen], ?_, ?_, ?_, ?_, ?_⟩
    · have hnext : ∀ j, j < m' + 1 →
          (nodeAt (stepsUp start stop dim |>.foldl
            (addStep data dim) (A, none)).1 (A.size + j)).next =
            A.size + (if j = m' + 1 - 1 then 0 else j + 1) := by
        intro j hj
        rw [nodeAt, hnodes j (by omega)]
        simp only [builtNode]
        rw [hlen]
      have := ringList_built _ A.size (m' + 1) hnext (m' + 1) 0 (by omega)
      rwa [Nat.add_zero] at this
    · rw [hcoords, if_pos hbr]
    · rw [hcoords, if_pos hbr, hCSfwd]
    · intro hcw
      rw [hcoords, hCSfwd]
      rw [hcw] at hbr
      have := of_decide_eq_true hbr.symm
      linarith
    · intro hcw
      rw [hcoords, hCSfwd]
      rw [hcw] at hbr
      have : ¬ calculateSignedArea data start stop dim > 0 :=
        of_decide_eq_false hbr.symm
      linarith
  · -- backward threading
    have hrev : (stepsDown ((stop : Int) - dim) start dim).map Int.toNat =
        (stepsUp start stop dim).reverse :=
      stepsDown_toNat_reverse start stop dim hdim (by omega) hdvd
    have hlenr : ((stepsUp start stop dim).reverse).length = m' + 1 := by
      rw [List.length_reverse, hlen]
    have hrevform : (stepsUp start stop dim).reverse =
        (List.range (m' + 1)).map (fun k => start + (m' + 1 - 1 - k) * dim) := by
      rw [hps_eq, reverse_map_range]
    have hne : (stepsUp start stop dim).reverse ≠ [] := by
      intro h
      rw [h] at hlenr
      simp at hlenr
    have hget0 : ((stepsUp start stop dim).reverse).getD 0 0 = stop - dim := by
      rw [hrevform, map_range_getD _ (m' + 1) 0 0 (by omega)]
      simp only [Nat.add_sub_cancel, Nat.sub_zero]
      omega
    have hgetl : ((stepsUp start stop dim).reverse).getD
        (((stepsUp start stop dim).reverse).length - 1) 0 = start := by
      rw [hlenr, hrevform, map_range_getD _ (m' + 1) (m' + 1 - 1) 0 (by omega)]
      simp only [Nat.add_sub_cancel, Nat.sub_self]
      omega
    have hdup : ¬ (dAt data (((stepsUp start stop dim).reverse).getD
          (((stepsUp start stop dim).reverse).length - 1) 0) =
        dAt data (((stepsUp start stop dim).reverse).getD 0 0) ∧
        dAt data (((stepsUp start stop dim).reverse).getD
          (((stepsUp start stop dim).reverse).length - 1) 0 + 1) =
        dAt data (((stepsUp start stop dim).reverse).getD 0 0 + 1)) := by
      rw [hget0, hgetl]
      exact hends
    rw [createLinkedList_eq, if_neg hbr, hrev,
      buildRing_spec data dim A ((stepsUp start stop dim).reverse) hne hdup]
    obtain ⟨hsize, hlast, hold, hnodes⟩ :=
      buildFold_spec data dim ((stepsUp start stop dim).reverse) A hne
    have hcoords : (List.range' A.size (m' + 1)).map
        (fun k => ((nodeAt ((stepsUp start stop dim).reverse.foldl
            (addStep data dim) (A, none)).1 k).x,
          (nodeAt ((stepsUp start stop dim).reverse.foldl
            (addStep data dim) (A, none)).1 k).y)) =
        ((stepsUp start stop dim).map (coordAt data)).reverse := by
      rw [List.range'_eq_map_range, List.map_map]
      rw [← List.map_reverse]
      rw [show ((stepsUp start stop dim).reverse).map (coordAt data) =
          (List.range ((stepsUp start stop dim).reverse).length).map
            (fun j => coordAt data
              (((stepsUp start stop dim).reverse).getD j 0)) from
        (map_range_getD_map (coordAt data) 0
          ((stepsUp start stop dim).reverse)).symm]
      rw [hlenr]
      apply List.map_congr_left
      intro j hj
      rw [List.mem_range] at hj
      simp only [Function.comp_apply]
      rw [nodeAt, hnodes j (by omega)]
      simp [builtNode, coordAt]
    refine ⟨by rw [hlenr], ?_, ?_, ?_, ?_, ?_⟩
    · have hnext : ∀ j, j < m' + 1 →
          (nodeAt ((stepsUp start stop dim).reverse.foldl
            (addStep data dim) (A, none)).1 (A.size + j)).next =
            A.size + (if j = m' + 1 - 1 then 0 else j + 1) := by
        intro j hj
        rw [nodeAt, hnodes j (by omega)]
        simp only [builtNode]
        rw [hlenr]
      have := ringList_built _ A.size (m' + 1) hnext (m' + 1) 0 (by omega)
      rwa [Nat.add_zero] at this
    · rw [hcoords, if_neg hbr]
    · rw [hcoords, if_neg hbr, cycleShoelace_reverse, hCSfwd]
    · intro hcw
      rw [hcoords, cycleShoelace_reverse, hCSfwd]
      rw [hcw] at hbr
      have hd : decide (calculateSignedArea data start stop dim > 0) = false := by
        cases h : decide (calculateSignedArea data start stop dim > 0)
        · rfl
        · exact absurd h.symm hbr
      have : ¬ calculateSignedArea data start stop dim > 0 :=
        of_decide_eq_false hd
      linarith
    · intro hcw
      rw [hcoords, cycleShoelace_reverse, hCSfwd]
      rw [hcw] at hbr
      have hd : decide (calculateSignedArea data start stop dim > 0) = true := by
        cases h : decide (calculateSignedArea data start stop dim > 0)
        · exact absurd h.symm hbr
        · rfl
      have := of_decide_eq_true hd
      linarith

/-- C4.  `createLinkedList` threads the range's vertices forward through
the buffer exactly when the requested orientation flag agrees with the
sign test `signedArea > 0`, and backward otherwise, building one fresh
circular ring whose vertex cycle spells the buffer order or its reverse
accordingly; consequently the ring's cyclic shoelace value is
`signedArea` or `-signedArea`, non-negative whenever `clockwise = true`
and non-positive whenever `clockwise = false` — the caller-requested
winding regardless of the input's winding. -/
theorem createLinkedList_threading (data : List ℚ) (start stop dim : Nat)
    (cw : Bool) (A : Arena) (hdim : 0 < dim) (hlt : start < stop)
    (hdvd : dim ∣ (stop - start))
    (hends : ¬ (dAt data start = dAt data (stop - dim) ∧
      dAt data (start + 1) = dAt data (stop - dim + 1))) :
    (createLinkedList A data start stop dim cw).2 =
        some (A.size + (stop - start) / dim - 1) ∧
    ringList (createLinkedList A data start stop dim cw).1
        ((stop - start) / dim) A.size =
      List.range' A.size ((stop - start) / dim) ∧
    ((List.range' A.size ((stop - start) / dim)).map
        (fun k => ((nodeAt (createLinkedList A data start stop dim cw).1 k).x,
          (nodeAt (createLinkedList A data start stop dim cw).1 k).y)) =
      if cw = decide (calculateSignedArea data start stop dim > 0)
      then (stepsUp start stop dim).map (coordAt data)
      else ((stepsUp start stop dim).map (coordAt data)).reverse) ∧
    (cycleShoelace ((List.range' A.size ((stop - start) / dim)).map
        (fun k => ((nodeAt (createLinkedList A data start stop dim cw).1 k).x,
          (nodeAt (createLinkedList A data start stop dim cw).1 k).y))) =
      if cw = decide (calculateSignedArea data start stop dim > 0)
      then calculateSignedArea data start stop dim
      else -calculateSignedArea data start stop dim) ∧
    (cw = true → 0 ≤ cycleShoelace ((List.range' A.size ((stop - start) / dim)).map
        (fun k => ((nodeAt (createLinkedList A data start stop dim cw).1 k).x,
          (nodeAt (createLinkedList A data start stop dim cw).1 k).y)))) ∧
    (cw = false → cycleShoelace ((List.range' A.size ((stop - start) / dim)).map
        (fun k => ((nodeAt (createLinkedList A data start stop dim cw).1 k).x,
          (nodeAt (createLinkedList A data start stop dim cw).1 k).y))) ≤ 0) :=
  createLinkedList_winding data start stop dim cw A hdim hlt hdvd hends

/-- Witness for C4: the threading theorem instantiated on a concrete
counter-clockwise square, requested with `clockwise = false`. -/
theorem createLinkedList_threading_witness :
    (0 < 2 ∧ 0 < 8 ∧ 2 ∣ (8 - 0) ∧
      ¬ (dAt [(0:ℚ), 0, 4, 0, 4, 4, 0, 4] 0 =
           dAt [(0:ℚ), 0, 4, 0, 4, 4, 0, 4] (8 - 2) ∧
         dAt [(0:ℚ), 0, 4, 0, 4, 4, 0, 4] (0 + 1) =
           dAt [(0:ℚ), 0, 4, 0, 4, 4, 0, 4] (8 - 2 + 1))) ∧
    (createLinkedList Arena.empty [(0:ℚ), 0, 4, 0, 4, 4, 0, 4] 0 8 2 false).2 =
      some (Arena.empty.size + (8 - 0) / 2 - 1) :=
  ⟨⟨by decide, by decide, by decide, by decide⟩,
    (createLinkedList_threading [(0:ℚ), 0, 4, 0, 4, 4, 0, 4] 0 8 2 false
      Arena.empty (by decide) (by decide) (by decide) (by decide)).1⟩

/-! ## C8: ring link invariants -/

/-- The doubly-linked-ring invariant over a set `S` of live node indices:
every member's `next` and `prev` stay in `S` and are mutually inverse
(`next(prev(n)) = n` and `prev(next(n)) = n`). -/
def ringOK (A : Arena) (S : List Nat) : Bool :=
  S.all fun n =>
    decide ((nodeAt A n).next ∈ S) && decide ((nodeAt A n).prev ∈ S) &&
    decide ((nodeAt A (nodeAt A n).next).prev = n) &&
    decide ((nodeAt A (nodeAt A n).prev).next = n)

/-- The doubly-linked Z-list invariant over a set `S` of live node
indices: any present `nextZ`/`prevZ` link of a member stays in `S` and
is mirrored by the opposite link of its target. -/
def zOK (A : Arena) (S : List Nat) : Bool :=
  S.all fun n =>
    (match (nodeAt A n).nextZ with
     | some q => decide (q ∈ S) && decide ((nodeAt A q).prevZ = some n)
     | none => true) &&
    (match (nodeAt A n).prevZ with
     | some p => decide (p ∈ S) && decide ((nodeAt A p).nextZ = some n)
     | none => true)

theorem ringOK_iff (A : Arena) (S : List Nat) :
    ringOK A S = true ↔ ∀ n ∈ S,
      (nodeAt A n).next ∈ S ∧ (nodeAt A n).prev ∈ S ∧
      (nodeAt A (nodeAt A n).next).prev = n ∧
      (nodeAt A (nodeAt A n).prev).next = n := by
  unfold ringOK
  simp [List.all_eq_true, and_assoc]

theorem zOK_iff (A : Arena) (S : List Nat) :
    zOK A S = true ↔ ∀ n ∈ S,
      (∀ q, (nodeAt A n).nextZ = some q → q ∈ S ∧ (nodeAt A q).prevZ = some n) ∧
      (∀ p, (nodeAt A n).prevZ = some p → p ∈ S ∧ (nodeAt A p).nextZ = some n) := by
  unfold zOK
  rw [List.all_eq_true]
  refine forall_congr' fun n => ?_
  refine imp_congr_right fun _ => ?_
  rw [Bool.and_eq_true]
  refine and_congr ?_ ?_
  · cases h : (nodeAt A n).nextZ with
    | none => simp [h]
    | some q =>
        simp only [h, Bool.and_eq_true, decide_eq_true_eq]
        constructor
        · rintro hb q' hq'
          obtain rfl : q = q' := by injection hq'
          exact hb
        · intro hi
          exact hi q rfl
  · cases h : (nodeAt A n).prevZ with
    | none => simp [h]
    | some p =>
        simp only [h, Bool.and_eq_true, decide_eq_true_eq]
        constructor
        · rintro hb p' hp'
          obtain rfl : p = p' := by injection hp'
          exact hb
        · intro hi
          exact hi p rfl

/-- `removeNode` factored so that every scrutinee and write argument is
a field of the original arena. -/
theorem removeNode_eq (A : Arena) (n : Nat) :
    removeNode A n =
      (let B := setAt (setAt A (nodeAt A n).next
          (fun p => { p with prev := (nodeAt A n).prev }))
          (nodeAt A n).prev (fun p => { p with next := (nodeAt A n).next });
       let C := match (nodeAt A n).prevZ with
         | some pz => setAt B pz (fun p => { p with nextZ := (nodeAt A n).nextZ })
         | none => B;
       match (nodeAt A n).nextZ with
         | some nz => setAt C nz (fun p => { p with prevZ := (nodeAt A n).prevZ })
         | none => C) := by
  unfold removeNode
  have e1 : (nodeAt (setAt A ((nodeAt A n).next)
      (fun p => { p with prev := (nodeAt A n).prev })) n).prev =
      (nodeAt A n).prev := by
    simp only [nodeAt, setAt]
    split_ifs <;> rfl
  have e2 : (nodeAt (setAt A ((nodeAt A n).next)
      (fun p => { p with prev := (nodeAt A n).prev })) n).next =
      (nodeAt A n).next := by
    simp only [nodeAt, setAt]
    split_ifs <;> rfl
  dsimp only
  rw [e1, e2]
  have e3 : (nodeAt (setAt (setAt A ((nodeAt A n).next)
      (fun p => { p with prev := (nodeAt A n).prev }))
      ((nodeAt A n).prev) (fun p => { p with next := (nodeAt A n).next })) n).prevZ =
      (nodeAt A n).prevZ := by
    simp only [nodeAt, setAt]
    split_ifs <;> rfl
  have e4 : ∀ B : Arena, (∀ k, (nodeAt B k).nextZ = (nodeAt A k).nextZ) →
      (∀ k, (nodeAt B k).prevZ = (nodeAt A k).prevZ) →
      (match (nodeAt B n).prevZ with
        | some pz => setAt B pz (fun p => { p with nextZ := (nodeAt B n).nextZ })
        | none => B) =
      (match (nodeAt A n).prevZ with
        | some pz => setAt B pz (fun p => { p with nextZ := (nodeAt A n).nextZ })
        | none => B) := by
    intro B hnz hpz
    rw [hnz n, hpz n]
  rw [e3]
  cases hpz : (nodeAt A n).prevZ with
  | none =>
      dsimp only
      have e5 : (nodeAt (setAt (setAt A ((nodeAt A n).next)
          (fun p => { p with prev := (nodeAt A n).prev }))
          ((nodeAt A n).prev)
          (fun p => { p with next := (nodeAt A n).next })) n).nextZ =
          (nodeAt A n).nextZ := by
        simp only [nodeAt, setAt]
        split_ifs <;> rfl
      rw [e5]
      cases hnz : (nodeAt A n).nextZ with
      | none => rfl
      | some nz =>
          dsimp only
          have e6 : (nodeAt (setAt (setAt A ((nodeAt A n).next)
              (fun p => { p with prev := (nodeAt A n).prev }))
              ((nodeAt A n).prev)
              (fun p => { p with next := (nodeAt A n).next })) n).prevZ =
              (nodeAt A n).prevZ := by
            simp only [nodeAt, setAt]
            split_ifs <;> rfl
          rw [e6, hpz]
  | some pz =>
      dsimp only
      have e5 : (nodeAt (setAt (setAt A ((nodeAt A n).next)
          (fun p => { p with prev := (nodeAt A n).prev }))
          ((nodeAt A n).prev)
          (fun p => { p with next := (nodeAt A n).next })) n).nextZ =
          (nodeAt A n).nextZ := by
        simp only [nodeAt, setAt]
        split_ifs <;> rfl
      rw [e5]
      have e7 : (nodeAt (setAt (setAt (setAt A ((nodeAt A n).next)
          (fun p => { p with prev := (nodeAt A n).prev }))
          ((nodeAt A n).prev)
          (fun p => { p with next := (nodeAt A n).next }))
          pz (fun p => { p with nextZ := (nodeAt A n).nextZ })) n).nextZ =
          (nodeAt A n).nextZ := by
        simp only [nodeAt, setAt]
        split_ifs <;> rfl
      rw [e7]
      cases hnz : (nodeAt A n).nextZ with
      | none => rfl
      | some nz =>
          dsimp only
          have e8 : ∀ v : Option Nat,
              (nodeAt (setAt (setAt (setAt A ((nodeAt A n).next)
                (fun p => { p with prev := (nodeAt A n).prev }))
                ((nodeAt A n).prev)
                (fun p => { p with next := (nodeAt A n).next }))
                pz (fun p => { p with nextZ := v })) n).prevZ =
              (nodeAt A n).prevZ := by
            intro v
            simp only [nodeAt, setAt]
            split_ifs <;> rfl
          rw [e8, hpz]

/-- Pointwise `next` field after `removeNode`. -/
theorem removeNode_next (A : Arena) (n k : Nat) :
    (nodeAt (removeNode A n) k).next =
      if k = (nodeAt A n).prev then (nodeAt A n).next
      else (nodeAt A k).next := by
  rw [removeNode_eq]
  dsimp only
  cases hpz : (nodeAt A n).prevZ <;> cases hnz : (nodeAt A n).nextZ <;>
    · dsimp only
      simp only [nodeAt, setAt]
      split_ifs <;> rfl

/-- Pointwise `prev` field after `removeNode`. -/
theorem removeNode_prev (A : Arena) (n k : Nat) :
    (nodeAt (removeNode A n) k).prev =
      if k = (nodeAt A n).next then (nodeAt A n).prev
      else (nodeAt A k).prev := by
  rw [removeNode_eq]
  dsimp only
  cases hpz : (nodeAt A n).prevZ <;> cases hnz : (nodeAt A n).nextZ <;>
    · dsimp only
      simp only [nodeAt, setAt]
      split_ifs <;> rfl

/-- Pointwise `nextZ` field after `removeNode`. -/
theorem removeNode_nextZ (A : Arena) (n k : Nat) :
    (nodeAt (removeNode A n) k).nextZ =
      match (nodeAt A n).prevZ with
      | some pz => if k = pz then (nodeAt A n).nextZ else (nodeAt A k).nextZ
      | none => (nodeAt A k).nextZ := by
  rw [removeNode_eq]
  dsimp only
  cases hpz : (nodeAt A n).prevZ <;> cases hnz : (nodeAt A n).nextZ <;>
    · dsimp only
      simp only [nodeAt, setAt]
      split_ifs <;> rfl

/-- Pointwise `prevZ` field after `removeNode`. -/
theorem removeNode_prevZ (A : Arena) (n k : Nat) :
    (nodeAt (removeNode A n) k).prevZ =
      match (nodeAt A n).nextZ with
      | some nz => if k = nz then (nodeAt A n).prevZ else (nodeAt A k).prevZ
      | none => (nodeAt A k).prevZ := by
  rw [removeNode_eq]
  dsimp only
  cases hpz : (nodeAt A n).prevZ <;> cases hnz : (nodeAt A n).nextZ <;>
    · dsimp only
      simp only [nodeAt, setAt]
      split_ifs <;> rfl

/-- Pointwise `next` field after `addNode _ _ _ (some l)`. -/
theorem addNode_next (A : Arena) (i : Nat) (x y : ℚ) (l k : Nat) :
    (nodeAt (addNode A i x y (some l)).1 k).next =
      if k = l then A.size
      else if k = A.size then (nodeAt A l).next
      else (nodeAt A k).next := by
  rw [addNode_some_eq]
  simp only [nodeAt, setAt, pushNode]
  split_ifs <;> rfl

/-- Pointwise `prev` field after `addNode _ _ _ (some l)`. -/
theorem addNode_prev (A : Arena) (i : Nat) (x y : ℚ) (l k : Nat) :
    (nodeAt (addNode A i x y (some l)).1 k).prev =
      if k = (nodeAt A l).next then A.size
      else if k = A.size then l
      else (nodeAt A k).prev := by
  rw [addNode_some_eq]
  simp only [nodeAt, setAt, pushNode]
  split_ifs <;> rfl

/-- Pointwise `next` field after `spliceBridge`. -/
theorem spliceBridge_next (A : Arena) (a b k : Nat) :
    (nodeAt (spliceBridge A a b).1 k).next =
      if k = (nodeAt A b).prev then A.size + 1
      else if k = a then b
      else if k = A.size then (nodeAt A a).next
      else if k = A.size + 1 then A.size
      else (nodeAt A k).next := by
  unfold spliceBridge
  dsimp only
  simp only [nodeAt, setAt]
  split_ifs <;> rfl

/-- Pointwise `prev` field after `spliceBridge`. -/
theorem spliceBridge_prev (A : Arena) (a b k : Nat) :
    (nodeAt (spliceBridge A a b).1 k).prev =
      if k = (nodeAt A a).next then A.size
      else if k = b then a
      else if k = A.size then A.size + 1
      else if k = A.size + 1 then (nodeAt A b).prev
      else (nodeAt A k).prev := by
  unfold spliceBridge
  dsimp only
  simp only [nodeAt, setAt]
  split_ifs <;> rfl

/-- `addNode` with a `null` last pointer creates a self-linked one-node
ring. -/
theorem addNode_none_ring (A : Arena) (i : Nat) (x y : ℚ) :
    ringOK (addNode A i x y none).1 [(addNode A i x y none).2] = true := by
  rw [ringOK_iff]
  intro n hn
  rw [List.mem_singleton] at hn
  subst hn
  rw [addNode_none_eq]
  refine ⟨?_, ?_, ?_, ?_⟩ <;>
    simp [nodeAt, pushNode, createNode, List.mem_singleton]

/-- Insertion after a live node `l` preserves the ring invariant, the
new node joining the live set. -/
theorem addNode_some_ring (A : Arena) (i : Nat) (x y : ℚ) (l : Nat)
    (S : List Nat) (hOK : ringOK A S = true) (hl : l ∈ S)
    (hbound : ∀ s ∈ S, s < A.size) :
    ringOK (addNode A i x y (some l)).1 (A.size :: S) = true := by
  rw [ringOK_iff] at hOK ⊢
  obtain ⟨hlnS, hlpS, hln3, hlp4⟩ := hOK l hl
  have hlsz := hbound l hl
  have hlnsz := hbound _ hlnS
  have vnextN : (nodeAt (addNode A i x y (some l)).1 A.size).next =
      (nodeAt A l).next := by
    rw [addNode_next, if_neg (by omega : ¬ A.size = l), if_pos rfl]
  have vprevN : (nodeAt (addNode A i x y (some l)).1 A.size).prev = l := by
    rw [addNode_prev,
      if_neg (by omega : ¬ A.size = (nodeAt A l).next), if_pos rfl]
  have vnextL : (nodeAt (addNode A i x y (some l)).1 l).next = A.size := by
    rw [addNode_next, if_pos rfl]
  have vprevLN : (nodeAt (addNode A i x y (some l)).1
      (nodeAt A l).next).prev = A.size := by
    rw [addNode_prev, if_pos rfl]
  have vnextOther : ∀ k, k ≠ l → k ≠ A.size →
      (nodeAt (addNode A i x y (some l)).1 k).next = (nodeAt A k).next := by
    intro k h1 h2
    rw [addNode_next, if_neg h1, if_neg h2]
  have vprevOther : ∀ k, k ≠ (nodeAt A l).next → k ≠ A.size →
      (nodeAt (addNode A i x y (some l)).1 k).prev = (nodeAt A k).prev := by
    intro k h1 h2
    rw [addNode_prev, if_neg h1, if_neg h2]
  intro m hm
  rcases List.mem_cons.mp hm with rfl | hmS
  · refine ⟨?_, ?_, ?_, ?_⟩
    · rw [vnextN]
      exact List.mem_cons_of_mem _ hlnS
    · rw [vprevN]
      exact List.mem_cons_of_mem _ hl
    · rw [vnextN, vprevLN]
    · rw [vprevN, vnextL]
  · obtain ⟨hmnextS, hmprevS, hm3, hm4⟩ := hOK m hmS
    have hmsz := hbound m hmS
    refine ⟨?_, ?_, ?_, ?_⟩
    · by_cases h1 : m = l
      · subst h1
        rw [vnextL]
        exact List.mem_cons_self _ _
      · rw [vnextOther m h1 (by omega)]
        exact List.mem_cons_of_mem _ hmnextS
    · by_cases h1 : m = (nodeAt A l).next
      · subst h1
        rw [vprevLN]
        exact List.mem_cons_self _ _
      · rw [vprevOther m h1 (by omega)]
        exact List.mem_cons_of_mem _ hmprevS
    · by_cases h1 : m = l
      · subst h1
        rw [vnextL, vprevN]
      · rw [vnextOther m h1 (by omega)]
        have hq : (nodeAt A m).next ≠ (nodeAt A l).next := by
          intro h
          rw [h, hln3] at hm3
          exact h1 hm3.symm
        rw [vprevOther _ hq (by have := hbound _ hmnextS; omega)]
        exact hm3
    · by_cases h1 : m = (nodeAt A l).next
      · subst h1
        rw [vprevLN, vnextN]
      · rw [vprevOther m h1 (by omega)]
        have hp : (nodeAt A m).prev ≠ l := by
          intro h
          rw [h] at hm4
          exact h1 hm4.symm
        rw [vnextOther _ hp (by have := hbound _ hmprevS; omega)]
        exact hm4

/-- `removeNode` preserves the primary ring invariant on the surviving
members. -/
theorem removeNode_ring (A : Arena) (S : List Nat) (n : Nat)
    (hOK : ringOK A S = true) (hn : n ∈ S) (hnd : S.Nodup) :
    ringOK (removeNode A n) (S.erase n) = true := by
  rw [ringOK_iff] at hOK ⊢
  obtain ⟨hnnS, hnpS, hc3, hc4⟩ := hOK n hn
  intro m hm
  obtain ⟨hmn, hmS⟩ := (List.Nodup.mem_erase_iff hnd).mp hm
  obtain ⟨hmnextS, hmprevS, hm3, hm4⟩ := hOK m hmS
  simp only [removeNode_next, removeNode_prev]
  have u1 : ∀ a ∈ S, (nodeAt A a).next = n → a = (nodeAt A n).prev := by
    intro a ha hEq
    obtain ⟨_, _, ha3, _⟩ := hOK a ha
    rw [hEq] at ha3
    exact ha3.symm
  have u2 : ∀ a ∈ S, (nodeAt A a).prev = n → a = (nodeAt A n).next := by
    intro a ha hEq
    obtain ⟨_, _, _, ha4⟩ := hOK a ha
    rw [hEq] at ha4
    exact ha4.symm
  refine ⟨?_, ?_, ?_, ?_⟩
  · split_ifs with h
    · refine (List.Nodup.mem_erase_iff hnd).mpr ⟨?_, hnnS⟩
      intro hEq
      rw [hEq] at hc3
      exact hmn (h.trans hc3)
    · refine (List.Nodup.mem_erase_iff hnd).mpr ⟨?_, hmnextS⟩
      intro hEq
      exact h (u1 m hmS hEq)
  · split_ifs with h
    · refine (List.Nodup.mem_erase_iff hnd).mpr ⟨?_, hnpS⟩
      intro hEq
      rw [hEq] at hc4
      exact hmn (h.trans hc4)
    · refine (List.Nodup.mem_erase_iff hnd).mpr ⟨?_, hmprevS⟩
      intro hEq
      exact h (u2 m hmS hEq)
  · split_ifs with h1 h2 h3
    · exact h1.symm
    · -- m = prev n and next n ≠ next n : impossible
      exact absurd rfl h2
    · -- m ≠ prev n but next m = next n: then prev (next m) identifies m = n
      rw [h3] at hm3
      rw [hc3] at hm3
      exact absurd hm3.symm hmn
    · exact hm3
  · split_ifs with h1 h2 h3
    · exact h1.symm
    · exact absurd rfl h2
    · rw [h3] at hm4
      rw [hc4] at hm4
      exact absurd hm4.symm hmn
    · exact hm4

/-- `removeNode` repairs the Z-list in the same operation: the Z-link
invariant also survives on the remaining members. -/
theorem removeNode_z (A : Arena) (S : List Nat) (n : Nat)
    (hOK : zOK A S = true) (hn : n ∈ S) (hnd : S.Nodup) :
    zOK (removeNode A n) (S.erase n) = true := by
  rw [zOK_iff] at hOK ⊢
  obtain ⟨hcn, hcp⟩ := hOK n hn
  intro m hm
  obtain ⟨hmn, hmS⟩ := (List.Nodup.mem_erase_iff hnd).mp hm
  obtain ⟨hmnz, hmpz⟩ := hOK m hmS
  constructor
  · intro q hq
    rw [removeNode_nextZ] at hq
    rcases hpz : (nodeAt A n).prevZ with _ | pp
    · rw [hpz] at hq
      dsimp only at hq
      obtain ⟨hqS, hqback⟩ := hmnz q hq
      have hqn : q ≠ n := by
        intro hEq
        rw [hEq] at hqback
        rw [hqback] at hpz
        exact Option.noConfusion hpz
      refine ⟨(List.Nodup.mem_erase_iff hnd).mpr ⟨hqn, hqS⟩, ?_⟩
      rw [removeNode_prevZ]
      rcases hnzo : (nodeAt A n).nextZ with _ | nq
      · exact hqback
      · obtain ⟨hnqS, hnqback⟩ := hcn nq hnzo
        have : q ≠ nq := by
          intro hEq
          rw [hEq] at hqback
          rw [hnqback] at hqback
          exact hmn (by injection hqback with h; exact h.symm) |>.elim
        dsimp only
        rw [if_neg this]
        exact hqback
    · rw [hpz] at hq
      dsimp only at hq
      obtain ⟨hppS, hppback⟩ := hcp pp hpz
      by_cases hmpp : m = pp
      · rw [if_pos hmpp] at hq
        obtain ⟨hqS, hqback⟩ := hcn q hq
        have hqn : q ≠ n := by
          intro hEq
          rw [hEq] at hq
          obtain ⟨_, hself⟩ := hcn n hq
          rw [hself] at hpz
          injection hpz with hinj
          rw [← hinj] at hmpp
          exact hmn hmpp
        refine ⟨(List.Nodup.mem_erase_iff hnd).mpr ⟨hqn, hqS⟩, ?_⟩
        rw [removeNode_prevZ, hq]
        dsimp only
        rw [if_pos rfl, hpz, hmpp]
      · rw [if_neg hmpp] at hq
        obtain ⟨hqS, hqback⟩ := hmnz q hq
        have hqn : q ≠ n := by
          intro hEq
          rw [hEq] at hqback
          rw [hqback] at hpz
          have : m = pp := by injection hpz
          exact hmpp this
        refine ⟨(List.Nodup.mem_erase_iff hnd).mpr ⟨hqn, hqS⟩, ?_⟩
        rw [removeNode_prevZ]
        rcases hnzo : (nodeAt A n).nextZ with _ | nq
        · exact hqback
        · obtain ⟨hnqS, hnqback⟩ := hcn nq hnzo
          have : q ≠ nq := by
            intro hEq
            rw [hEq] at hqback
            rw [hnqback] at hqback
            exact hmn (by injection hqback with h; exact h.symm) |>.elim
          dsimp only
          rw [if_neg this]
          exact hqback
  · intro p hp
    rw [removeNode_prevZ] at hp
    rcases hnzo : (nodeAt A n).nextZ with _ | nq
    · rw [hnzo] at hp
      dsimp only at hp
      obtain ⟨hpS, hpback⟩ := hmpz p hp
      have hpn : p ≠ n := by
        intro hEq
        rw [hEq] at hpback
        rw [hpback] at hnzo
        exact Option.noConfusion hnzo
      refine ⟨(List.Nodup.mem_erase_iff hnd).mpr ⟨hpn, hpS⟩, ?_⟩
      rw [removeNode_nextZ]
      rcases hpzo : (nodeAt A n).prevZ with _ | pp
      · exact hpback
      · obtain ⟨hppS, hppback⟩ := hcp pp hpzo
        have : p ≠ pp := by
          intro hEq
          rw [hEq] at hpback
          rw [hppback] at hpback
          exact hmn (by injection hpback with h; exact h.symm) |>.elim
        dsimp only
        rw [if_neg this]
        exact hpback
    · rw [hnzo] at hp
      dsimp only at hp
      obtain ⟨hnqS, hnqback⟩ := hcn nq hnzo
      by_cases hmnq : m = nq
      · rw [if_pos hmnq] at hp
        obtain ⟨hpS, hpback⟩ := hcp p hp
        have hpn : p ≠ n := by
          intro hEq
          rw [hEq] at hp
          obtain ⟨_, hself⟩ := hcp n hp
          rw [hself] at hnzo
          injection hnzo with hinj
          rw [← hinj] at hmnq
          exact hmn hmnq
        refine ⟨(List.Nodup.mem_erase_iff hnd).mpr ⟨hpn, hpS⟩, ?_⟩
        rw [removeNode_nextZ, hp]
        dsimp only
        rw [if_pos rfl, hnzo, hmnq]
      · rw [if_neg hmnq] at hp
        obtain ⟨hpS, hpback⟩ := hmpz p hp
        have hpn : p ≠ n := by
          intro hEq
          rw [hEq] at hpback
          rw [hpback] at hnzo
          have : m = nq := by injection hnzo
          exact hmnq this
        refine ⟨(List.Nodup.mem_erase_iff hnd).mpr ⟨hpn, hpS⟩, ?_⟩
        rw [removeNode_nextZ]
        rcases hpzo : (nodeAt A n).prevZ with _ | pp
        · exact hpback
        · obtain ⟨hppS, hppback⟩ := hcp pp hpzo
          have : p ≠ pp := by
            intro hEq
            rw [hEq] at hpback
            rw [hppback] at hpback
            exact hmn (by injection hpback with h; exact h.symm) |>.elim
          dsimp only
          rw [if_neg this]
          exact hpback

/-- Splicing two live nodes with `spliceBridge` preserves the ring
invariant, the two duplicated bridge nodes joining the live set.  `a`
and `b` must be distinct and not adjacent via the edge being cut
(`a.next ≠ b` and `b.prev ≠ a`), which holds at both call sites: hole
merging joins two disjoint rings, and the split pass cuts along a
diagonal. -/
theorem spliceBridge_ring (A : Arena) (S : List Nat) (a b : Nat)
    (hOK : ringOK A S = true) (ha : a ∈ S) (hb : b ∈ S) (hab : a ≠ b)
    (hanb : (nodeAt A a).next ≠ b) (hbpa : (nodeAt A b).prev ≠ a)
    (hbound : ∀ s ∈ S, s < A.size) :
    ringOK (spliceBridge A a b).1 (A.size :: (A.size + 1) :: S) = true := by
  rw [ringOK_iff] at hOK ⊢
  obtain ⟨hanS, hapS, ha3, ha4⟩ := hOK a ha
  obtain ⟨hbnS, hbpS, hb3, hb4⟩ := hOK b hb
  have hasz := hbound a ha
  have hbsz := hbound b hb
  have hansz := hbound _ hanS
  have hbpsz := hbound _ hbpS
  have memS : ∀ s ∈ S, s ∈ A.size :: (A.size + 1) :: S := by
    intro s hs
    exact List.mem_cons_of_mem _ (List.mem_cons_of_mem _ hs)
  have memN : A.size ∈ A.size :: (A.size + 1) :: S := List.mem_cons_self _ _
  have memM : A.size + 1 ∈ A.size :: (A.size + 1) :: S :=
    List.mem_cons_of_mem _ (List.mem_cons_self _ _)
  -- concrete field values after the splice
  have vnext : ∀ k, (nodeAt (spliceBridge A a b).1 k).next =
      if k = (nodeAt A b).prev then A.size + 1
      else if k = a then b
      else if k = A.size then (nodeAt A a).next
      else if k = A.size + 1 then A.size
      else (nodeAt A k).next := spliceBridge_next A a b
  have vprev : ∀ k, (nodeAt (spliceBridge A a b).1 k).prev =
      if k = (nodeAt A a).next then A.size
      else if k = b then a
      else if k = A.size then A.size + 1
      else if k = A.size + 1 then (nodeAt A b).prev
      else (nodeAt A k).prev := spliceBridge_prev A a b
  have vnextN : (nodeAt (spliceBridge A a b).1 A.size).next =
      (nodeAt A a).next := by
    rw [vnext, if_neg (by omega : ¬ A.size = (nodeAt A b).prev),
      if_neg (by omega : ¬ A.size = a), if_pos rfl]
  have vprevN : (nodeAt (spliceBridge A a b).1 A.size).prev = A.size + 1 := by
    rw [vprev, if_neg (by omega : ¬ A.size = (nodeAt A a).next),
      if_neg (by omega : ¬ A.size = b), if_pos rfl]
  have vnextM : (nodeAt (spliceBridge A a b).1 (A.size + 1)).next = A.size := by
    rw [vnext, if_neg (by omega : ¬ A.size + 1 = (nodeAt A b).prev),
      if_neg (by omega : ¬ A.size + 1 = a),
      if_neg (by omega : ¬ A.size + 1 = A.size), if_pos rfl]
  have vprevM : (nodeAt (spliceBridge A a b).1 (A.size + 1)).prev =
      (nodeAt A b).prev := by
    rw [vprev, if_neg (by omega : ¬ A.size + 1 = (nodeAt A a).next),
      if_neg (by omega : ¬ A.size + 1 = b),
      if_neg (by omega : ¬ A.size + 1 = A.size), if_pos rfl]
  have vnextA : (nodeAt (spliceBridge A a b).1 a).next = b := by
    rw [vnext, if_neg (fun h => hbpa h.symm), if_pos rfl]
  have vprevB : (nodeAt (spliceBridge A a b).1 b).prev = a := by
    rw [vprev, if_neg (fun h => hanb h.symm), if_pos rfl]
  have vprevAN : (nodeAt (spliceBridge A a b).1 (nodeAt A a).next).prev =
      A.size := by
    rw [vprev, if_pos rfl]
  have vnextBP : (nodeAt (spliceBridge A a b).1 (nodeAt A b).prev).next =
      A.size + 1 := by
    rw [vnext, if_pos rfl]
  have vnextOther : ∀ k, k ≠ (nodeAt A b).prev → k ≠ a → k ∈ S →
      (nodeAt (spliceBridge A a b).1 k).next = (nodeAt A k).next := by
    intro k h1 h2 hk
    have := hbound k hk
    rw [vnext, if_neg h1, if_neg h2, if_neg (by omega : ¬ k = A.size),
      if_neg (by omega : ¬ k = A.size + 1)]
  have vprevOther : ∀ k, k ≠ (nodeAt A a).next → k ≠ b → k ∈ S →
      (nodeAt (spliceBridge A a b).1 k).prev = (nodeAt A k).prev := by
    intro k h1 h2 hk
    have := hbound k hk
    rw [vprev, if_neg h1, if_neg h2, if_neg (by omega : ¬ k = A.size),
      if_neg (by omega : ¬ k = A.size + 1)]
  intro m hm
  rcases List.mem_cons.mp hm with rfl | hm'
  · -- the fresh copy of a
    refine ⟨?_, ?_, ?_, ?_⟩
    · rw [vnextN]
      exact memS _ hanS
    · rw [vprevN]
      exact memM
    · rw [vnextN, vprevAN]
    · rw [vprevN, vnextM]
  rcases List.mem_cons.mp hm' with rfl | hmS
  · -- the fresh copy of b
    refine ⟨?_, ?_, ?_, ?_⟩
    · rw [vnextM]
      exact memN
    · rw [vprevM]
      exact memS _ hbpS
    · rw [vnextM, vprevN]
    · rw [vprevM, vnextBP]
  -- an original member
  obtain ⟨hmnextS, hmprevS, hm3, hm4⟩ := hOK m hmS
  have hmsz := hbound m hmS
  by_cases hma : m = a
  · rw [hma]
    refine ⟨?_, ?_, ?_, ?_⟩
    · rw [vnextA]
      exact memS _ hb
    · by_cases hsel : a = (nodeAt A a).next
      · have h' := vprevAN
        rw [← hsel] at h'
        rw [h']
        exact memN
      · rw [vprevOther a (fun h => hsel h) hab ha]
        exact memS _ hapS
    · rw [vnextA, vprevB]
    · by_cases hsel : a = (nodeAt A a).next
      · have h' := vprevAN
        rw [← hsel] at h'
        rw [h', vnextN, ← hsel]
      · rw [vprevOther a (fun h => hsel h) hab ha]
        have hp1 : (nodeAt A a).prev ≠ (nodeAt A b).prev := by
          intro h
          rw [h, hb4] at ha4
          exact hab ha4.symm
        have hp2 : (nodeAt A a).prev ≠ a := by
          intro h
          rw [h] at ha4
          exact hsel ha4.symm
        rw [vnextOther _ hp1 hp2 hapS]
        exact ha4
  by_cases hmb : m = b
  · rw [hmb]
    refine ⟨?_, ?_, ?_, ?_⟩
    · by_cases hsel : b = (nodeAt A b).prev
      · have h' := vnextBP
        rw [← hsel] at h'
        rw [h']
        exact memM
      · rw [vnextOther b (fun h => hsel h) (fun h => hab h.symm) hb]
        exact memS _ hbnS
    · rw [vprevB]
      exact memS _ ha
    · by_cases hsel : b = (nodeAt A b).prev
      · have h' := vnextBP
        rw [← hsel] at h'
        rw [h', vprevM, ← hsel]
      · rw [vnextOther b (fun h => hsel h) (fun h => hab h.symm) hb]
        have hq1 : (nodeAt A b).next ≠ (nodeAt A a).next := by
          intro h
          rw [h, ha3] at hb3
          exact hab hb3
        have hq2 : (nodeAt A b).next ≠ b := by
          intro h
          rw [h] at hb3
          exact hsel hb3.symm
        rw [vprevOther _ hq1 hq2 hbnS]
        exact hb3
    · rw [vprevB, vnextA]
  -- m distinct from a and b
  refine ⟨?_, ?_, ?_, ?_⟩
  · by_cases h1 : m = (nodeAt A b).prev
    · rw [h1, vnextBP]
      exact memM
    · rw [vnextOther m h1 hma hmS]
      exact memS _ hmnextS
  · by_cases h1 : m = (nodeAt A a).next
    · rw [h1, vprevAN]
      exact memN
    · rw [vprevOther m h1 hmb hmS]
      exact memS _ hmprevS
  · by_cases h1 : m = (nodeAt A b).prev
    · rw [h1, vnextBP, vprevM, ← h1]
    · rw [vnextOther m h1 hma hmS]
      have hq1 : (nodeAt A m).next ≠ (nodeAt A a).next := by
        intro h
        rw [h, ha3] at hm3
        exact hma hm3.symm
      have hq2 : (nodeAt A m).next ≠ b := by
        intro h
        rw [h] at hm3
        exact h1 hm3.symm
      rw [vprevOther _ hq1 hq2 hmnextS]
      exact hm3
  · by_cases h1 : m = (nodeAt A a).next
    · rw [h1, vprevAN, vnextN, ← h1]
    · rw [vprevOther m h1 hmb hmS]
      have hp1 : (nodeAt A m).prev ≠ (nodeAt A b).prev := by
        intro h
        rw [h, hb4] at hm4
        exact hmb hm4.symm
      have hp2 : (nodeAt A m).prev ≠ a := by
        intro h
        rw [h] at hm4
        exact h1 hm4.symm
      rw [vnextOther _ hp1 hp2 hmprevS]
      exact hm4

/-- C8.  For every node still in a ring, `next(prev(n)) = n` and
`prev(next(n)) = n` holds after every ring operation: `addNode` with a
null last pointer creates a self-linked singleton; `addNode` after a
live node preserves the invariant with the fresh node joining the live
set; `removeNode` preserves it on the survivors and repairs, in the
same operation, the `prevZ`/`nextZ` links whenever the node carries
them; and the bridge splice preserves it with the two duplicated bridge
nodes joining the live set. -/
theorem ring_ops_invariant :
    (∀ (A : Arena) (i : Nat) (x y : ℚ),
      ringOK (addNode A i x y none).1 [(addNode A i x y none).2] = true) ∧
    (∀ (A : Arena) (i : Nat) (x y : ℚ) (l : Nat) (S : List Nat),
      ringOK A S = true → l ∈ S → (∀ s ∈ S, s < A.size) →
      ringOK (addNode A i x y (some l)).1 (A.size :: S) = true) ∧
    (∀ (A : Arena) (S : List Nat) (n : Nat),
      ringOK A S = true → n ∈ S → S.Nodup →
      ringOK (removeNode A n) (S.erase n) = true) ∧
    (∀ (A : Arena) (S : List Nat) (n : Nat),
      zOK A S = true → n ∈ S → S.Nodup →
      zOK (removeNode A n) (S.erase n) = true) ∧
    (∀ (A : Arena) (S : List Nat) (a b : Nat),
      ringOK A S = true → a ∈ S → b ∈ S → a ≠ b →
      (nodeAt A a).next ≠ b → (nodeAt A b).prev ≠ a →
      (∀ s ∈ S, s < A.size) →
      ringOK (spliceBridge A a b).1 (A.size :: (A.size + 1) :: S) = true) :=
  ⟨fun A i x y => addNode_none_ring A i x y,
   fun A i x y l S h1 h2 h3 => addNode_some_ring A i x y l S h1 h2 h3,
   fun A S n h1 h2 h3 => removeNode_ring A S n h1 h2 h3,
   fun A S n h1 h2 h3 => removeNode_z A S n h1 h2 h3,
   fun A S a b h1 h2 h3 h4 h5 h6 h7 =>
     spliceBridge_ring A S a b h1 h2 h3 h4 h5 h6 h7⟩

/-- Witness for C8: removal and splicing instantiated on the concrete
four-node square ring built by `createLinkedList`. -/
theorem ring_ops_invariant_witness :
    (ringOK (createLinkedList Arena.empty [(0:ℚ), 0, 4, 0, 4, 4, 0, 4]
        0 8 2 false).1 [0, 1, 2, 3] = true ∧
      zOK (createLinkedList Arena.empty [(0:ℚ), 0, 4, 0, 4, 4, 0, 4]
        0 8 2 false).1 [0, 1, 2, 3] = true ∧
      (1 : Nat) ∈ [0, 1, 2, 3] ∧ ([0, 1, 2, 3] : List Nat).Nodup) ∧
    ringOK (removeNode (createLinkedList Arena.empty
        [(0:ℚ), 0, 4, 0, 4, 4, 0, 4] 0 8 2 false).1 1)
      (([0, 1, 2, 3] : List Nat).erase 1) = true ∧
    zOK (removeNode (createLinkedList Arena.empty
        [(0:ℚ), 0, 4, 0, 4, 4, 0, 4] 0 8 2 false).1 1)
      (([0, 1, 2, 3] : List Nat).erase 1) = true ∧
    ringOK (spliceBridge (createLinkedList Arena.empty
        [(0:ℚ), 0, 4, 0, 4, 4, 0, 4] 0 8 2 false).1 0 2).1
      ((createLinkedList Arena.empty [(0:ℚ), 0, 4, 0, 4, 4, 0, 4]
          0 8 2 false).1.size ::
        ((createLinkedList Arena.empty [(0:ℚ), 0, 4, 0, 4, 4, 0, 4]
          0 8 2 false).1.size + 1) :: [0, 1, 2, 3]) = true :=
  ⟨⟨by decide, by decide, by decide, by decide⟩,
   ring_ops_invariant.2.2.1 _ [0, 1, 2, 3] 1 (by decide) (by decide) (by decide),
   ring_ops_invariant.2.2.2.1 _ [0, 1, 2, 3] 1 (by decide) (by decide) (by decide),
   ring_ops_invariant.2.2.2.2 _ [0, 1, 2, 3] 0 2 (by decide) (by decide)
     (by decide) (by decide) (by decide) (by decide) (by decide)⟩

/-! ## C6: pass escalation -/

/-- While `ear.prev = ear.next` the clipping loop stops at once, leaving
arena and output untouched. -/
theorem run_loop_done (dim : Nat) (minX minY scale : ℚ) (f ear stop pass : Nat)
    (A : Arena) (tris : List Nat)
    (h : (nodeAt A ear).prev = (nodeAt A ear).next) :
    triangulateRun dim minX minY scale (f + 1)
      (TLCall.loop ear stop pass) A tris = (A, tris) := by
  simp only [triangulateRun]
  rw [if_pos h]

/-- A successful clip emits one triangle, unlinks the ear and resumes
the same pass from `next.next`, which becomes the new stop point. -/
theorem run_loop_clip (dim : Nat) (minX minY scale : ℚ) (f ear stop pass : Nat)
    (A : Arena) (tris : List Nat)
    (h1 : ¬ (nodeAt A ear).prev = (nodeAt A ear).next)
    (h2 : (if scale ≠ 0 then isValidEarHashed A ear minX minY scale (A.size + 1)
        else isValidEar A ear (A.size + 1)) = true) :
    triangulateRun dim minX minY scale (f + 1)
        (TLCall.loop ear stop pass) A tris =
      triangulateRun dim minX minY scale f
        (TLCall.loop (nodeAt (removeNode A ear) ((nodeAt A ear).next)).next
          (nodeAt (removeNode A ear) ((nodeAt A ear).next)).next pass)
        (removeNode A ear)
        (tris ++ [(nodeAt A ((nodeAt A ear).prev)).i, (nodeAt A ear).i,
          (nodeAt A ((nodeAt A ear).next)).i]) := by
  simp only [triangulateRun]
  rw [if_neg h1, if_pos h2]

/-- A rejected ear short of the stop point advances to `next` in the
same pass, with no emission and no state change. -/
theorem run_loop_advance (dim : Nat) (minX minY scale : ℚ)
    (f ear stop pass : Nat) (A : Arena) (tris : List Nat)
    (h1 : ¬ (nodeAt A ear).prev = (nodeAt A ear).next)
    (h2 : (if scale ≠ 0 then isValidEarHashed A ear minX minY scale (A.size + 1)
        else isValidEar A ear (A.size + 1)) = false)
    (h3 : ¬ (nodeAt A ear).next = stop) :
    triangulateRun dim minX minY scale (f + 1)
        (TLCall.loop ear stop pass) A tris =
      triangulateRun dim minX minY scale f
        (TLCall.loop ((nodeAt A ear).next) stop pass) A tris := by
  simp only [triangulateRun]
  rw [if_neg h1, if_neg (by rw [h2]; exact Bool.false_ne_true), if_neg h3]

/-- Stall in pass 0 (Basic): a full traversal back to the stop point with
no emission simplifies the ring and hands it to pass 1. -/
theorem run_stall_pass0 (dim : Nat) (minX minY scale : ℚ) (f ear stop : Nat)
    (A : Arena) (tris : List Nat)
    (h1 : ¬ (nodeAt A ear).prev = (nodeAt A ear).next)
    (h2 : (if scale ≠ 0 then isValidEarHashed A ear minX minY scale (A.size + 1)
        else isValidEar A ear (A.size + 1)) = false)
    (h3 : (nodeAt A ear).next = stop) :
    triangulateRun dim minX minY scale (f + 1)
        (TLCall.loop ear stop 0) A tris =
      triangulateRun dim minX minY scale f
        (TLCall.main (simplifyPoints A (some ((nodeAt A ear).next)) none f).2 1)
        (simplifyPoints A (some ((nodeAt A ear).next)) none f).1 tris := by
  simp only [triangulateRun]
  rw [if_neg h1, if_neg (by rw [h2]; exact Bool.false_ne_true), if_pos h3]
  simp

/-- Stall in pass 1 (Simplify): simplify, resolve local
self-intersections and hand to pass 2. -/
theorem run_stall_pass1 (dim : Nat) (minX minY scale : ℚ) (f ear stop : Nat)
    (A : Arena) (tris : List Nat)
    (h1 : ¬ (nodeAt A ear).prev = (nodeAt A ear).next)
    (h2 : (if scale ≠ 0 then isValidEarHashed A ear minX minY scale (A.size + 1)
        else isValidEar A ear (A.size + 1)) = false)
    (h3 : (nodeAt A ear).next = stop) :
    triangulateRun dim minX minY scale (f + 1)
        (TLCall.loop ear stop 1) A tris =
      triangulateRun dim minX minY scale f
        (TLCall.main (resolveLocalIntersections
            (simplifyPoints A (some ((nodeAt A ear).next)) none f).1
            (simplifyPoints A (some ((nodeAt A ear).next)) none f).2
            tris f).2.1 2)
        (resolveLocalIntersections
            (simplifyPoints A (some ((nodeAt A ear).next)) none f).1
            (simplifyPoints A (some ((nodeAt A ear).next)) none f).2
            tris f).1
        (resolveLocalIntersections
            (simplifyPoints A (some ((nodeAt A ear).next)) none f).1
            (simplifyPoints A (some ((nodeAt A ear).next)) none f).2
            tris f).2.2 := by
  simp only [triangulateRun]
  rw [if_neg h1, if_neg (by rw [h2]; exact Bool.false_ne_true), if_pos h3]
  simp

/-- Stall in pass 2 (CureIntersections): hand the remaining ring to the
split pass. -/
theorem run_stall_pass2 (dim : Nat) (minX minY scale : ℚ) (f ear stop : Nat)
    (A : Arena) (tris : List Nat)
    (h1 : ¬ (nodeAt A ear).prev = (nodeAt A ear).next)
    (h2 : (if scale ≠ 0 then isValidEarHashed A ear minX minY scale (A.size + 1)
        else isValidEar A ear (A.size + 1)) = false)
    (h3 : (nodeAt A ear).next = stop) :
    triangulateRun dim minX minY scale (f + 1)
        (TLCall.loop ear stop 2) A tris =
      triangulateRun dim minX minY scale f
        (TLCall.split ((nodeAt A ear).next)) A tris := by
  simp only [triangulateRun]
  rw [if_neg h1, if_neg (by rw [h2]; exact Bool.false_ne_true), if_pos h3]
  simp

/-- The split pass cuts along the chosen diagonal and re-enters the full
pipeline at pass 0 on both halves. -/
theorem run_split_step (dim : Nat) (minX minY scale : ℚ) (f ear : Nat)
    (A : Arena) (tris : List Nat)
    (hnd : ¬ ((nodeAt A ((nodeAt A ear).next)).next = ear ∨
      (nodeAt A ((nodeAt A ear).next)).next = (nodeAt A ear).next ∨
      (nodeAt A ((nodeAt A ear).next)).next = (nodeAt A ear).prev)) :
    triangulateRun dim minX minY scale (f + 1) (TLCall.split ear) A tris =
      triangulateRun dim minX minY scale f
        (TLCall.main
          (some (spliceBridge A ear ((nodeAt A ((nodeAt A ear).next)).next)).2)
          0)
        (triangulateRun dim minX minY scale f (TLCall.main (some ear) 0)
          (spliceBridge A ear ((nodeAt A ((nodeAt A ear).next)).next)).1
          tris).1
        (triangulateRun dim minX minY scale f (TLCall.main (some ear) 0)
          (spliceBridge A ear ((nodeAt A ((nodeAt A ear).next)).next)).1
          tris).2 := by
  simp only [triangulateRun]
  rw [if_neg hnd]

/-- A `null` ear returns at once. -/
theorem run_main_none (dim : Nat) (minX minY scale : ℚ) (f pass : Nat)
    (A : Arena) (tris : List Nat) :
    triangulateRun dim minX minY scale (f + 1)
      (TLCall.main none pass) A tris = (A, tris) := rfl

/-- Entering `triangulateLinkedList` starts the clipping loop of the
*same* pass, after building the spatial index exactly on the pass-0
entry with an active scale. -/
theorem run_main_some (dim : Nat) (minX minY scale : ℚ) (f ear pass : Nat)
    (A : Arena) (tris : List Nat) :
    triangulateRun dim minX minY scale (f + 1)
        (TLCall.main (some ear) pass) A tris =
      triangulateRun dim minX minY scale f (TLCall.loop ear ear pass)
        (if pass = 0 ∧ scale ≠ 0
          then buildSpatialIndex A ear minX minY scale f else A) tris := rfl

/-- C6.  Recovery escalates in a fixed order and only on stall: the
clipping loop runs only while `ear.prev ≠ ear.next` (otherwise it
returns unchanged); a clip or an advance stays in the same pass; only a
full traversal back to the stop point without an emission escalates, and
then pass 0 simplifies and hands to pass 1, pass 1 simplifies, resolves
local self-intersections and hands to pass 2, and pass 2 splits; the
split re-enters at pass 0 on both halves and every loop entry keeps its
caller's pass — so no pass runs before its predecessor has stalled and
no pass is skipped. -/
theorem recovery_escalation :
    (∀ (dim : Nat) (minX minY scale : ℚ) (f ear stop pass : Nat) (A : Arena)
      (tris : List Nat), (nodeAt A ear).prev = (nodeAt A ear).next →
      triangulateRun dim minX minY scale (f + 1)
        (TLCall.loop ear stop pass) A tris = (A, tris)) ∧
    (∀ (dim : Nat) (minX minY scale : ℚ) (f ear stop pass : Nat) (A : Arena)
      (tris : List Nat), ¬ (nodeAt A ear).prev = (nodeAt A ear).next →
      (if scale ≠ 0 then isValidEarHashed A ear minX minY scale (A.size + 1)
        else isValidEar A ear (A.size + 1)) = true →
      triangulateRun dim minX minY scale (f + 1)
          (TLCall.loop ear stop pass) A tris =
        triangulateRun dim minX minY scale f
          (TLCall.loop (nodeAt (removeNode A ear) ((nodeAt A ear).next)).next
            (nodeAt (removeNode A ear) ((nodeAt A ear).next)).next pass)
          (removeNode A ear)
          (tris ++ [(nodeAt A ((nodeAt A ear).prev)).i, (nodeAt A ear).i,
            (nodeAt A ((nodeAt A ear).next)).i])) ∧
    (∀ (dim : Nat) (minX minY scale : ℚ) (f ear stop pass : Nat) (A : Arena)
      (tris : List Nat), ¬ (nodeAt A ear).prev = (nodeAt A ear).next →
      (if scale ≠ 0 then isValidEarHashed A ear minX minY scale (A.size + 1)
        else isValidEar A ear (A.size + 1)) = false →
      ¬ (nodeAt A ear).next = stop →
      triangulateRun dim minX minY scale (f + 1)
          (TLCall.loop ear stop pass) A tris =
        triangulateRun dim minX minY scale f
          (TLCall.loop ((nodeAt A ear).next) stop pass) A tris) ∧
    (∀ (dim : Nat) (minX minY scale : ℚ) (f ear stop : Nat) (A : Arena)
      (tris : List Nat), ¬ (nodeAt A ear).prev = (nodeAt A ear).next →
      (if scale ≠ 0 then isValidEarHashed A ear minX minY scale (A.size + 1)
        else isValidEar A ear (A.size + 1)) = false →
      (nodeAt A ear).next = stop →
      triangulateRun dim minX minY scale (f + 1)
          (TLCall.loop ear stop 0) A tris =
        triangulateRun dim minX minY scale f
          (TLCall.main (simplifyPoints A (some ((nodeAt A ear).next)) none f).2
            1)
          (simplifyPoints A (some ((nodeAt A ear).next)) none f).1 tris) ∧
    (∀ (dim : Nat) (minX minY scale : ℚ) (f ear stop : Nat) (A : Arena)
      (tris : List Nat), ¬ (nodeAt A ear).prev = (nodeAt A ear).next →
      (if scale ≠ 0 then isValidEarHashed A ear minX minY scale (A.size + 1)
        else isValidEar A ear (A.size + 1)) = false →
      (nodeAt A ear).next = stop →
      triangulateRun dim minX minY scale (f + 1)
          (TLCall.loop ear stop 1) A tris =
        triangulateRun dim minX minY scale f
          (TLCall.main (resolveLocalIntersections
              (simplifyPoints A (some ((nodeAt A ear).next)) none f).1
              (simplifyPoints A (some ((nodeAt A ear).next)) none f).2
              tris f).2.1 2)
          (resolveLocalIntersections
              (simplifyPoints A (some ((nodeAt A ear).next)) none f).1
              (simplifyPoints A (some ((nodeAt A ear).next)) none f).2
              tris f).1
          (resolveLocalIntersections
              (simplifyPoints A (some ((nodeAt A ear).next)) none f).1
              (simplifyPoints A (some ((nodeAt A ear).next)) none f).2
              tris f).2.2) ∧
    (∀ (dim : Nat) (minX minY scale : ℚ) (f ear stop : Nat) (A : Arena)
      (tris : List Nat), ¬ (nodeAt A ear).prev = (nodeAt A ear).next →
      (if scale ≠ 0 then isValidEarHashed A ear minX minY scale (A.size + 1)
        else isValidEar A ear (A.size + 1)) = false →
      (nodeAt A ear).next = stop →
      triangulateRun dim minX minY scale (f + 1)
          (TLCall.loop ear stop 2) A tris =
        triangulateRun dim minX minY scale f
          (TLCall.split ((nodeAt A ear).next)) A tris) ∧
    (∀ (dim : Nat) (minX minY scale : ℚ) (f ear : Nat) (A : Arena)
      (tris : List Nat),
      ¬ ((nodeAt A ((nodeAt A ear).next)).next = ear ∨
        (nodeAt A ((nodeAt A ear).next)).next = (nodeAt A ear).next ∨
        (nodeAt A ((nodeAt A ear).next)).next = (nodeAt A ear).prev) →
      triangulateRun dim minX minY scale (f + 1) (TLCall.split ear) A tris =
        triangulateRun dim minX minY scale f
          (TLCall.main
            (some (spliceBridge A ear
              ((nodeAt A ((nodeAt A ear).next)).next)).2) 0)
          (triangulateRun dim minX minY scale f (TLCall.main (some ear) 0)
            (spliceBridge A ear
              ((nodeAt A ((nodeAt A ear).next)).next)).1 tris).1
          (triangulateRun dim minX minY scale f (TLCall.main (some ear) 0)
            (spliceBridge A ear
              ((nodeAt A ((nodeAt A ear).next)).next)).1 tris).2) ∧
    (∀ (dim : Nat) (minX minY scale : ℚ) (f pass : Nat) (A : Arena)
      (tris : List Nat),
      triangulateRun dim minX minY scale (f + 1)
        (TLCall.main none pass) A tris = (A, tris)) ∧
    (∀ (dim : Nat) (minX minY scale : ℚ) (f ear pass : Nat) (A : Arena)
      (tris : List Nat),
      triangulateRun dim minX minY scale (f + 1)
          (TLCall.main (some ear) pass) A tris =
        triangulateRun dim minX minY scale f (TLCall.loop ear ear pass)
          (if pass = 0 ∧ scale ≠ 0
            then buildSpatialIndex A ear minX minY scale f else A) tris) :=
  ⟨run_loop_done, run_loop_clip, run_loop_advance, run_stall_pass0,
   run_stall_pass1, run_stall_pass2, run_split_step, run_main_none,
   run_main_some⟩

/-- Four-node ring with a blocked ear (same geometry as the C1
counterexample ring): ear 1 is rejected, so a traversal of it with
`stopPoint` at hand exercises the stall transitions. -/
def c6Arena : Arena :=
  { heap := fun k =>
      if k = 0 then
        { i := 0, x := 0, y := 0, z := 0, prev := 3, next := 1,
          prevZ := none, nextZ := none, steiner := false }
      else if k = 1 then
        { i := 1, x := 4, y := 0, z := 0, prev := 0, next := 2,
          prevZ := none, nextZ := none, steiner := false }
      else if k = 2 then
        { i := 2, x := 2, y := 4, z := 0, prev := 1, next := 3,
          prevZ := none, nextZ := none, steiner := false }
      else if k = 3 then
        { i := 3, x := 2, y := 1, z := 0, prev := 2, next := 0,
          prevZ := none, nextZ := none, steiner := false }
      else PNode.blank,
    size := 4 }

/-- Witness for C6: the pass-0 stall transition instantiated on a
concrete ring whose current ear is rejected at the stop point. -/
theorem recovery_escalation_witness :
    (¬ (nodeAt c6Arena 1).prev = (nodeAt c6Arena 1).next ∧
      (if (0 : ℚ) ≠ 0 then isValidEarHashed c6Arena 1 0 0 0 (c6Arena.size + 1)
        else isValidEar c6Arena 1 (c6Arena.size + 1)) = false ∧
      (nodeAt c6Arena 1).next = 2) ∧
    triangulateRun 2 0 0 0 (3 + 1) (TLCall.loop 1 2 0) c6Arena [] =
      triangulateRun 2 0 0 0 3
        (TLCall.main (simplifyPoints c6Arena
          (some ((nodeAt c6Arena 1).next)) none 3).2 1)
        (simplifyPoints c6Arena (some ((nodeAt c6Arena 1).next)) none 3).1
        [] :=
  ⟨⟨by decide, by decide, by decide⟩,
   recovery_escalation.2.2.2.1 2 0 0 0 3 1 2 c6Arena [] (by decide)
     (by decide) (by decide)⟩

/-! ## C5: hole merging -/

theorem posLE_total (A : Arena) (u v : Nat) :
    posLE A u v = true ∨ posLE A v u = true := by
  unfold posLE
  simp only [Bool.or_eq_true, Bool.and_eq_true, decide_eq_true_eq]
  rcases lt_trichotomy (nodeAt A u).x (nodeAt A v).x with h | h | h
  · exact Or.inl (Or.inl h)
  · rcases le_total (nodeAt A u).y (nodeAt A v).y with hy | hy
    · exact Or.inl (Or.inr ⟨h, hy⟩)
    · exact Or.inr (Or.inr ⟨h.symm, hy⟩)
  · exact Or.inr (Or.inl h)

theorem posLE_trans (A : Arena) (u v w : Nat) (h1 : posLE A u v = true)
    (h2 : posLE A v w = true) : posLE A u w = true := by
  unfold posLE at h1 h2 ⊢
  simp only [Bool.or_eq_true, Bool.and_eq_true, decide_eq_true_eq] at h1 h2 ⊢
  rcases h1 with h1 | ⟨h1e, h1y⟩ <;> rcases h2 with h2 | ⟨h2e, h2y⟩
  · exact Or.inl (h1.trans h2)
  · exact Or.inl (h2e ▸ h1)
  · exact Or.inl (by rw [h1e]; exact h2)
  · exact Or.inr ⟨h1e.trans h2e, h1y.trans h2y⟩

theorem insertByPos_perm (A : Arena) (q : Nat) (l : List Nat) :
    (insertByPos A q l).Perm (q :: l) := by
  induction l with
  | nil => exact List.Perm.refl _
  | cons r rs ih =>
      unfold insertByPos
      split_ifs with h
      · exact List.Perm.refl _
      · exact (ih.cons r).trans (List.Perm.swap q r rs)

theorem insertByPos_sorted (A : Arena) (q : Nat) (l : List Nat)
    (hs : List.Pairwise (fun u v => posLE A u v = true) l) :
    List.Pairwise (fun u v => posLE A u v = true) (insertByPos A q l) := by
  induction l with
  | nil => simp [insertByPos]
  | cons r rs ih =>
      unfold insertByPos
      obtain ⟨hr, hrs⟩ := List.pairwise_cons.mp hs
      split_ifs with h
      · refine List.pairwise_cons.mpr ⟨?_, hs⟩
        intro b hb
        rcases List.mem_cons.mp hb with rfl | hb'
        · exact h
        · exact posLE_trans A q r b h (hr b hb')
      · refine List.pairwise_cons.mpr ⟨?_, ih hrs⟩
        intro b hb
        have hb' := (insertByPos_perm A q rs).mem_iff.mp hb
        rcases List.mem_cons.mp hb' with rfl | hb''
        · rcases posLE_total A r b with h2 | h2
          · exact h2
          · exact absurd h2 h
        · exact hr b hb''

/-- The hole queue sort orders by ascending `x` with the documented
`y` tie-break. -/
theorem sortByPos_sorted (A : Arena) (l : List Nat) :
    List.Pairwise (fun u v => posLE A u v = true) (sortByPos A l) := by
  induction l with
  | nil => simp [sortByPos]
  | cons q rs ih => exact insertByPos_sorted A q _ ih

/-- The hole queue sort permutes the queue. -/
theorem sortByPos_perm (A : Arena) (l : List Nat) :
    (sortByPos A l).Perm l := by
  induction l with
  | nil => exact List.Perm.refl _
  | cons q rs ih => exact (insertByPos_perm A q _).trans (ih.cons q)

/-- The first fresh splice node duplicates the first bridge endpoint. -/
theorem spliceBridge_dupA (A : Arena) (a b : Nat) :
    (nodeAt (spliceBridge A a b).1 A.size).i = (nodeAt A a).i ∧
    (nodeAt (spliceBridge A a b).1 A.size).x = (nodeAt A a).x ∧
    (nodeAt (spliceBridge A a b).1 A.size).y = (nodeAt A a).y := by
  refine ⟨?_, ?_, ?_⟩ <;>
  · unfold spliceBridge
    dsimp only
    simp only [nodeAt, setAt]
    split_ifs <;> rfl

/-- The second fresh splice node duplicates the second bridge endpoint. -/
theorem spliceBridge_dupB (A : Arena) (a b : Nat) :
    (nodeAt (spliceBridge A a b).1 (A.size + 1)).i = (nodeAt A b).i ∧
    (nodeAt (spliceBridge A a b).1 (A.size + 1)).x = (nodeAt A b).x ∧
    (nodeAt (spliceBridge A a b).1 (A.size + 1)).y = (nodeAt A b).y := by
  refine ⟨?_, ?_, ?_⟩ <;>
  · unfold spliceBridge
    dsimp only
    simp only [nodeAt, setAt]
    split_ifs <;> first | rfl | omega

/-- C5.  Hole merging: every hole ring is built with
`clockwise = false`, opposite the outer ring's `clockwise = true`, so
(whenever the duplicate-trim is inert) a hole ring's cyclic shoelace
value is non-positive while the outer ring's is non-negative; a hole
ring reduced to a single self-linked node is flagged `steiner` when its
leftmost node is queued; the queue is sorted into ascending `x` order
(ties by `y`) as a permutation of itself before splicing; and every
splice bridges through `spliceBridge`, whose two fresh nodes duplicate
the bridge endpoints' indices and coordinates while preserving the ring
link invariant with both fresh nodes live. -/
theorem processHoles_merging :
    (∀ (data : List ℚ) (start stop dim : Nat) (A : Arena),
      0 < dim → start < stop → dim ∣ (stop - start) →
      (¬ (dAt data start = dAt data (stop - dim) ∧
        dAt data (start + 1) = dAt data (stop - dim + 1))) →
      cycleShoelace ((List.range' A.size ((stop - start) / dim)).map
        (fun k =>
          ((nodeAt (createLinkedList A data start stop dim false).1 k).x,
           (nodeAt (createLinkedList A data start stop dim false).1 k).y))) ≤
        0 ∧
      0 ≤ cycleShoelace ((List.range' A.size ((stop - start) / dim)).map
        (fun k =>
          ((nodeAt (createLinkedList A data start stop dim true).1 k).x,
           (nodeAt (createLinkedList A data start stop dim true).1 k).y)))) ∧
    (∀ (data : List ℚ) (dim fuel : Nat) (Ac : Arena) (q : List Nat)
      (r : Nat × Nat) (Ab : Arena) (l : Nat),
      createLinkedList Ac data r.1 r.2 dim false = (Ab, some l) →
      l = (nodeAt Ab l).next →
      (nodeAt (holeStep data dim fuel (Ac, q) r).1 l).steiner = true ∧
      (holeStep data dim fuel (Ac, q) r).2 =
        q ++ [findLeftmost (setAt Ab l (fun p => { p with steiner := true }))
          l fuel]) ∧
    (∀ (A : Arena) (l : List Nat),
      List.Pairwise (fun u v => posLE A u v = true) (sortByPos A l) ∧
      (sortByPos A l).Perm l) ∧
    (∀ (A : Arena) (h o fuel b : Nat),
      b = nearestPick A (nodeAt A h) o
        (o :: walkNext A o fuel ((nodeAt A o).next)) →
      connectHole A h o fuel = ((spliceBridge A b h).1, b) ∧
      (nodeAt (connectHole A h o fuel).1 A.size).i = (nodeAt A b).i ∧
      (nodeAt (connectHole A h o fuel).1 A.size).x = (nodeAt A b).x ∧
      (nodeAt (connectHole A h o fuel).1 A.size).y = (nodeAt A b).y ∧
      (nodeAt (connectHole A h o fuel).1 (A.size + 1)).i = (nodeAt A h).i ∧
      (nodeAt (connectHole A h o fuel).1 (A.size + 1)).x = (nodeAt A h).x ∧
      (nodeAt (connectHole A h o fuel).1 (A.size + 1)).y = (nodeAt A h).y ∧
      (∀ S : List Nat, ringOK A S = true → b ∈ S → h ∈ S → b ≠ h →
        (nodeAt A b).next ≠ h → (nodeAt A h).prev ≠ b →
        (∀ s ∈ S, s < A.size) →
        ringOK (connectHole A h o fuel).1
          (A.size :: (A.size + 1) :: S) = true)) := by
  refine ⟨?_, ?_, ?_, ?_⟩
  · intro data start stop dim A hdim hlt hdvd hends
    constructor
    · exact (createLinkedList_winding data start stop dim false A hdim hlt
        hdvd hends).2.2.2.2.2 rfl
    · exact (createLinkedList_winding data start stop dim true A hdim hlt
        hdvd hends).2.2.2.2.1 rfl
  · intro data dim fuel Ac q r Ab l hcll hl
    unfold holeStep
    dsimp only
    rw [hcll]
    dsimp only
    rw [if_pos hl]
    refine ⟨?_, rfl⟩
    rw [nodeAt, setAt_same]
  · intro A l
    exact ⟨sortByPos_sorted A l, sortByPos_perm A l⟩
  · intro A h o fuel b hb
    have hch : connectHole A h o fuel = ((spliceBridge A b h).1, b) := by
      rw [hb]
      rfl
    refine ⟨hch, ?_, ?_, ?_, ?_, ?_, ?_, ?_⟩
    · rw [hch]
      exact (spliceBridge_dupA A b h).1
    · rw [hch]
      exact (spliceBridge_dupA A b h).2.1
    · rw [hch]
      exact (spliceBridge_dupA A b h).2.2
    · rw [hch]
      exact (spliceBridge_dupB A b h).1
    · rw [hch]
      exact (spliceBridge_dupB A b h).2.1
    · rw [hch]
      exact (spliceBridge_dupB A b h).2.2
    · intro S h1 h2 h3 h4 h5 h6 h7
      rw [hch]
      exact spliceBridge_ring A S b h h1 h2 h3 h4 h5 h6 h7

/-- Two-ring arena for the hole-merging witness: a square outer ring
(nodes 0–3) and a triangular hole ring (nodes 4–6). -/
def c5Arena : Arena :=
  { heap := fun k =>
      if k = 0 then
        { i := 0, x := 0, y := 0, z := 0, prev := 3, next := 1,
          prevZ := none, nextZ := none, steiner := false }
      else if k = 1 then
        { i := 1, x := 4, y := 0, z := 0, prev := 0, next := 2,
          prevZ := none, nextZ := none, steiner := false }
      else if k = 2 then
        { i := 2, x := 4, y := 4, z := 0, prev := 1, next := 3,
          prevZ := none, nextZ := none, steiner := false }
      else if k = 3 then
        { i := 3, x := 0, y := 4, z := 0, prev := 2, next := 0,
          prevZ := none, nextZ := none, steiner := false }
      else if k = 4 then
        { i := 4, x := 1, y := 1, z := 0, prev := 6, next := 5,
          prevZ := none, nextZ := none, steiner := false }
      else if k = 5 then
        { i := 5, x := 2, y := 1, z := 0, prev := 4, next := 6,
          prevZ := none, nextZ := none, steiner := false }
      else if k = 6 then
        { i := 6, x := 1, y := 2, z := 0, prev := 5, next := 4,
          prevZ := none, nextZ := none, steiner := false }
      else PNode.blank,
    size := 7 }

/-- Witness for C5: winding signs on a concrete range, steiner marking
of a one-point hole, and the splice's ring invariant on the two-ring
arena. -/
theorem processHoles_merging_witness :
    ((0 < 2 ∧ 0 < 8 ∧ 2 ∣ (8 - 0) ∧
      ¬ (dAt [(0:ℚ), 0, 4, 0, 4, 4, 0, 4] 0 =
           dAt [(0:ℚ), 0, 4, 0, 4, 4, 0, 4] (8 - 2) ∧
         dAt [(0:ℚ), 0, 4, 0, 4, 4, 0, 4] (0 + 1) =
           dAt [(0:ℚ), 0, 4, 0, 4, 4, 0, 4] (8 - 2 + 1))) ∧
      cycleShoelace ((List.range' Arena.empty.size ((8 - 0) / 2)).map
        (fun k =>
          ((nodeAt (createLinkedList Arena.empty [(0:ℚ), 0, 4, 0, 4, 4, 0, 4]
              0 8 2 false).1 k).x,
           (nodeAt (createLinkedList Arena.empty [(0:ℚ), 0, 4, 0, 4, 4, 0, 4]
              0 8 2 false).1 k).y))) ≤ 0 ∧
      0 ≤ cycleShoelace ((List.range' Arena.empty.size ((8 - 0) / 2)).map
        (fun k =>
          ((nodeAt (createLinkedList Arena.empty [(0:ℚ), 0, 4, 0, 4, 4, 0, 4]
              0 8 2 true).1 k).x,
           (nodeAt (createLinkedList Arena.empty [(0:ℚ), 0, 4, 0, 4, 4, 0, 4]
              0 8 2 true).1 k).y)))) ∧
    (nodeAt (holeStep [(2:ℚ), 2] 2 5 (Arena.empty, []) (0, 2)).1 0).steiner =
      true ∧
    ringOK (connectHole c5Arena 4 0 9).1
      (c5Arena.size :: (c5Arena.size + 1) :: [0, 1, 2, 3, 4, 5, 6]) = true := by
  refine ⟨⟨⟨by decide, by decide, by decide, by decide⟩, ?_, ?_⟩, ?_, ?_⟩
  · exact (processHoles_merging.1 [(0:ℚ), 0, 4, 0, 4, 4, 0, 4] 0 8 2
      Arena.empty (by decide) (by decide) (by decide) (by decide)).1
  · exact (processHoles_merging.1 [(0:ℚ), 0, 4, 0, 4, 4, 0, 4] 0 8 2
      Arena.empty (by decide) (by decide) (by decide) (by decide)).2
  · exact (processHoles_merging.2.1 [(2:ℚ), 2] 2 5 Arena.empty [] (0, 2)
      (createLinkedList Arena.empty [(2:ℚ), 2] 0 2 2 false).1 0
      (by
        have h2 : (createLinkedList Arena.empty [(2:ℚ), 2] 0 2 2 false).2 =
            some 0 := by decide
        rw [← h2])
      (by decide)).1
  · exact (processHoles_merging.2.2.2 c5Arena 4 0 9
      (nearestPick c5Arena (nodeAt c5Arena 4) 0
        (0 :: walkNext c5Arena 0 9 ((nodeAt c5Arena 0).next))) rfl).2.2.2.2.2.2.2
      [0, 1, 2, 3, 4, 5, 6] (by decide) (by decide) (by decide) (by decide)
      (by decide) (by decide) (by decide)

/-! ## C3: Morton-key arithmetic -/

/-- Bounded check of the Morton spread steps on `[base, base + n)`:
strict growth to the successor and confinement to the even bit
positions. -/
def spreadOkFrom (base : Nat) : Nat → Bool
  | 0 => true
  | n + 1 => (decide (mortonSpread (base + n) < mortonSpread (base + n + 1)) &&
      decide (mortonSpread (base + n) &&& 0x55555555 = mortonSpread (base + n))) &&
      spreadOkFrom base n

set_option maxRecDepth 40000

theorem spreadOk_c0 : spreadOkFrom 0 2048 = true := by decide

theorem spreadOk_c1 : spreadOkFrom 2048 2048 = true := by decide

theorem spreadOk_c2 : spreadOkFrom 4096 2048 = true := by decide

theorem spreadOk_c3 : spreadOkFrom 6144 2048 = true := by decide

theorem spreadOk_c4 : spreadOkFrom 8192 2048 = true := by decide

theorem spreadOk_c5 : spreadOkFrom 10240 2048 = true := by decide

theorem spreadOk_c6 : spreadOkFrom 12288 2048 = true := by decide

theorem spreadOk_c7 : spreadOkFrom 14336 2048 = true := by decide

theorem spreadOk_c8 : spreadOkFrom 16384 2048 = true := by decide

theorem spreadOk_c9 : spreadOkFrom 18432 2048 = true := by decide

theorem spreadOk_c10 : spreadOkFrom 20480 2048 = true := by decide

theorem spreadOk_c11 : spreadOkFrom 22528 2048 = true := by decide

theorem spreadOk_c12 : spreadOkFrom 24576 2048 = true := by decide

theorem spreadOk_c13 : spreadOkFrom 26624 2048 = true := by decide

theorem spreadOk_c14 : spreadOkFrom 28672 2048 = true := by decide

theorem spreadOk_c15 : spreadOkFrom 30720 2048 = true := by decide

theorem spreadOkFrom_spec (base : Nat) :
    ∀ n, spreadOkFrom base n = true → ∀ j, j < n →
      mortonSpread (base + j) < mortonSpread (base + j + 1) ∧
      mortonSpread (base + j) &&& 0x55555555 = mortonSpread (base + j) := by
  intro n
  induction n with
  | zero =>
      intro _ j hj
      omega
  | succ m ih =>
      intro h j hj
      unfold spreadOkFrom at h
      simp only [Bool.and_eq_true, decide_eq_true_eq] at h
      obtain ⟨⟨h1, h2⟩, h3⟩ := h
      rcases Nat.lt_succ_iff_lt_or_eq.mp hj with hlt | rfl
      · exact ih (by simpa [Bool.and_eq_true, decide_eq_true_eq] using h3) j hlt
      · exact ⟨h1, h2⟩

theorem spread_facts (x : Nat) (hx : x < 32768) :
    mortonSpread x < mortonSpread (x + 1) ∧
    mortonSpread x &&& 0x55555555 = mortonSpread x := by
  have get : ∀ base n, spreadOkFrom base n = true → base ≤ x → x < base + n →
      mortonSpread x < mortonSpread (x + 1) ∧
      mortonSpread x &&& 0x55555555 = mortonSpread x := by
    intro base n h hb hx2
    have hs := spreadOkFrom_spec base n h (x - base) (by omega)
    rw [show base + (x - base) = x by omega] at hs
    exact hs
  by_cases c0 : x < 2048
  · exact get 0 2048 spreadOk_c0 (by omega) (by omega)
  by_cases c1 : x < 4096
  · exact get 2048 2048 spreadOk_c1 (by omega) (by omega)
  by_cases c2 : x < 6144
  · exact get 4096 2048 spreadOk_c2 (by omega) (by omega)
  by_cases c3 : x < 8192
  · exact get 6144 2048 spreadOk_c3 (by omega) (by omega)
  by_cases c4 : x < 10240
  · exact get 8192 2048 spreadOk_c4 (by omega) (by omega)
  by_cases c5 : x < 12288
  · exact get 10240 2048 spreadOk_c5 (by omega) (by omega)
  by_cases c6 : x < 14336
  · exact get 12288 2048 spreadOk_c6 (by omega) (by omega)
  by_cases c7 : x < 16384
  · exact get 14336 2048 spreadOk_c7 (by omega) (by omega)
  by_cases c8 : x < 18432
  · exact get 16384 2048 spreadOk_c8 (by omega) (by omega)
  by_cases c9 : x < 20480
  · exact get 18432 2048 spreadOk_c9 (by omega) (by omega)
  by_cases c10 : x < 22528
  · exact get 20480 2048 spreadOk_c10 (by omega) (by omega)
  by_cases c11 : x < 24576
  · exact get 22528 2048 spreadOk_c11 (by omega) (by omega)
  by_cases c12 : x < 26624
  · exact get 24576 2048 spreadOk_c12 (by omega) (by omega)
  by_cases c13 : x < 28672
  · exact get 26624 2048 spreadOk_c13 (by omega) (by omega)
  by_cases c14 : x < 30720
  · exact get 28672 2048 spreadOk_c14 (by omega) (by omega)
  exact get 30720 2048 spreadOk_c15 (by omega) (by omega)

/-- The Morton spread is monotone on the quantized range. -/
theorem mortonSpread_mono {u v : Nat} (hv : v ≤ 32767) (huv : u ≤ v) :
    mortonSpread u ≤ mortonSpread v := by
  obtain ⟨d, rfl⟩ : ∃ d, v = u + d := ⟨v - u, by omega⟩
  clear huv
  induction d with
  | zero => exact le_refl _
  | succ e ih =>
      have h1 := ih (by omega)
      have h2 := (spread_facts (u + e) (by omega)).1
      have h3 : u + e + 1 = u + (e + 1) := by omega
      rw [h3] at h2
      omega

/-- Addition computes the join of numbers with disjoint binary bits. -/
theorem lor_disjoint_add : ∀ a b : Nat, a &&& b = 0 → a ||| b = a + b := by
  intro a
  induction a using Nat.strong_induction_on with
  | _ a ih =>
    intro b h
    match a, ih with
    | 0, _ => simp
    | a + 1, ih =>
      have hd : (a + 1) / 2 &&& b / 2 = 0 := by
        rw [← Nat.and_div_two, h]
      have ih2 := ih ((a + 1) / 2) (by omega) (b / 2) hd
      have hm2 : ¬((a + 1) % 2 = 1 ∧ b % 2 = 1) := by
        rintro ⟨h1, h2⟩
        have ht : ((a + 1) &&& b).testBit 0 = true := by
          rw [Nat.testBit_and]
          simp [h1, h2]
        rw [h] at ht
        simp at ht
      have hor2 : ((a + 1) ||| b) % 2 = (a + 1) % 2 + b % 2 := by
        have ht := Nat.testBit_or (a + 1) b 0
        simp only [Nat.testBit_zero] at ht
        by_cases h1 : (a + 1) % 2 = 1 <;> by_cases h2 : b % 2 = 1
        · exact absurd ⟨h1, h2⟩ hm2
        · rw [decide_eq_true h1, decide_eq_false h2, Bool.true_or] at ht
          have := of_decide_eq_true ht
          omega
        · rw [decide_eq_false h1, decide_eq_true h2, Bool.false_or] at ht
          have := of_decide_eq_true ht
          omega
        · rw [decide_eq_false h1, decide_eq_false h2, Bool.or_self] at ht
          have := of_decide_eq_false ht
          omega
      have key : 2 * (((a + 1) ||| b) / 2) + ((a + 1) ||| b) % 2 =
          (a + 1) ||| b := Nat.div_add_mod _ 2
      rw [Nat.or_div_two, ih2, hor2] at key
      have ka : 2 * ((a + 1) / 2) + (a + 1) % 2 = a + 1 := Nat.div_add_mod _ 2
      have kb : 2 * (b / 2) + b % 2 = b := Nat.div_add_mod _ 2
      omega

theorem testBit_M5_odd (i : Nat) :
    (0x55555555 : Nat).testBit (2 * i + 1) = false := by
  by_cases hi : i < 16
  · interval_cases i <;> decide
  · apply Nat.testBit_lt_two_pow
    calc (0x55555555 : Nat) < 2 ^ 32 := by decide
      _ ≤ 2 ^ (2 * i + 1) := Nat.pow_le_pow_right (by omega) (by omega)

theorem evenBits_of_mask {a : Nat} (h : a &&& 0x55555555 = a) (i : Nat) :
    a.testBit (2 * i + 1) = false := by
  have hc := congrArg (fun t => t.testBit (2 * i + 1)) h
  dsimp only at hc
  rw [Nat.testBit_and, testBit_M5_odd, Bool.and_false] at hc
  exact hc.symm

theorem disjoint_of_evenBits {a b : Nat}
    (ha : ∀ i, a.testBit (2 * i + 1) = false)
    (hb : ∀ i, b.testBit (2 * i + 1) = false) :
    a &&& (b <<< 1) = 0 := by
  apply Nat.eq_of_testBit_eq
  intro i
  rw [Nat.testBit_and, Nat.zero_testBit]
  rcases Nat.mod_two_eq_zero_or_one i with hp | hp
  · rw [Nat.testBit_shiftLeft]
    match i, hp with
    | 0, _ => simp
    | i + 1, hp =>
        have : i = 2 * (i / 2) + 1 := by omega
        rw [show i + 1 - 1 = i by omega, this, hb]
        simp
  · have : i = 2 * (i / 2) + 1 := by omega
    rw [this, ha]
    simp

/-- With valid quantized bounds the Morton key is the carry-free sum of
the two spread coordinates. -/
theorem computeZOrder_eq_add (x y minX minY scale : ℚ)
    (hx : quantize x minX scale ≤ 32767) (hy : quantize y minY scale ≤ 32767) :
    computeZOrder x y minX minY scale =
      mortonSpread (quantize x minX scale) +
        2 * mortonSpread (quantize y minY scale) := by
  unfold computeZOrder
  rw [lor_disjoint_add _ _ (disjoint_of_evenBits
    (evenBits_of_mask (spread_facts _ (by omega)).2)
    (evenBits_of_mask (spread_facts _ (by omega)).2))]
  rw [Nat.shiftLeft_eq]
  ring

theorem quantize_mono {v w : ℚ} (minV scale : ℚ) (hs : 0 ≤ scale)
    (hvw : v ≤ w) : quantize v minV scale ≤ quantize w minV scale := by
  unfold quantize
  have h1 : (v - minV) * scale ≤ (w - minV) * scale :=
    mul_le_mul_of_nonneg_right (by linarith) hs
  exact Int.toNat_le_toNat (Int.floor_le_floor h1)

/-- Componentwise monotonicity of the Morton key on the quantized
range. -/
theorem computeZOrder_mono {x y x' y' minX minY scale : ℚ} (hs : 0 ≤ scale)
    (hx' : quantize x' minX scale ≤ 32767)
    (hy' : quantize y' minY scale ≤ 32767)
    (hxx : x ≤ x') (hyy : y ≤ y') :
    computeZOrder x y minX minY scale ≤ computeZOrder x' y' minX minY scale := by
  have qx := quantize_mono minX scale hs hxx
  have qy := quantize_mono minY scale hs hyy
  rw [computeZOrder_eq_add _ _ _ _ _ (le_trans qx hx') (le_trans qy hy'),
    computeZOrder_eq_add _ _ _ _ _ hx' hy']
  have s1 := mortonSpread_mono hx' qx
  have s2 := mortonSpread_mono hy' qy
  omega

/-! ## C3: the Z-list and its walks -/

/-- The doubly-linked, null-terminated Z-list `zs` threaded through the
arena, with `prevOpt` the link of the head. -/
def zLinked (A : Arena) : Option Nat → List Nat → Bool
  | _, [] => true
  | prevOpt, q :: rest =>
      decide ((nodeAt A q).prevZ = prevOpt) &&
      decide ((nodeAt A q).nextZ = rest.head?) &&
      zLinked A (some q) rest

theorem zLinked_prevZ (A : Arena) :
    ∀ (zs : List Nat) (po : Option Nat), zLinked A po zs = true →
    ∀ i, i < zs.length →
    (nodeAt A (zs.getD i 0)).prevZ =
      (if i = 0 then po else some (zs.getD (i - 1) 0)) := by
  intro zs
  induction zs with
  | nil =>
      intro po _ i hi
      simp at hi
  | cons q rest ih =>
      intro po h i hi
      unfold zLinked at h
      simp only [Bool.and_eq_true, decide_eq_true_eq] at h
      obtain ⟨⟨h1, h2⟩, h3⟩ := h
      match i with
      | 0 => simpa using h1
      | i + 1 =>
          have hr := ih (some q) h3 i (by simpa using hi)
          simp only [List.getD_cons_succ]
          rw [hr]
          cases i with
          | zero => simp
          | succ j => simp

theorem zLinked_nextZ (A : Arena) :
    ∀ (zs : List Nat) (po : Option Nat), zLinked A po zs = true →
    ∀ i, i < zs.length →
    (nodeAt A (zs.getD i 0)).nextZ = (zs.drop (i + 1)).head? := by
  intro zs
  induction zs with
  | nil =>
      intro po _ i hi
      simp at hi
  | cons q rest ih =>
      intro po h i hi
      unfold zLinked at h
      simp only [Bool.and_eq_true, decide_eq_true_eq] at h
      obtain ⟨⟨h1, h2⟩, h3⟩ := h
      match i with
      | 0 => simpa using h2
      | i + 1 =>
          have hr := ih (some q) h3 i (by simpa using hi)
          simpa using hr

theorem take_succ_getD (zs : List Nat) (j : Nat) (hj : j < zs.length) :
    zs.take (j + 1) = zs.take j ++ [zs.getD j 0] := by
  rw [List.take_succ, List.getElem?_eq_getElem hj]
  rw [List.getD_eq_getElem zs 0 hj]
  rfl

theorem drop_getD_cons (zs : List Nat) (j : Nat) (hj : j < zs.length) :
    zs.drop j = zs.getD j 0 :: zs.drop (j + 1) := by
  rw [List.getD_eq_getElem zs 0 hj]
  exact List.drop_eq_getElem_cons hj

theorem sorted_take_le (A : Arena) (zs : List Nat)
    (hs : List.Pairwise (fun u v => (nodeAt A u).z ≤ (nodeAt A v).z) zs)
    (j : Nat) (hj : j < zs.length) :
    ∀ q ∈ zs.take (j + 1), (nodeAt A q).z ≤ (nodeAt A (zs.getD j 0)).z := by
  intro q hq
  rw [List.mem_iff_getElem] at hq
  obtain ⟨i, hi, hiq⟩ := hq
  have hil : i < zs.length := by
    rw [List.length_take] at hi
    omega
  have hij : i ≤ j := by
    rw [List.length_take] at hi
    omega
  rw [List.getElem_take] at hiq
  rw [List.getD_eq_getElem zs 0 hj]
  rcases Nat.lt_or_ge i j with hlt | hge
  · have hp := List.pairwise_iff_getElem.mp hs i j hil hj hlt
    rw [hiq] at hp
    exact hp
  · have hij' : i = j := by omega
    subst hij'
    rw [← hiq]

theorem sorted_drop_ge (A : Arena) (zs : List Nat)
    (hs : List.Pairwise (fun u v => (nodeAt A u).z ≤ (nodeAt A v).z) zs)
    (j : Nat) (hj : j < zs.length) :
    ∀ q ∈ zs.drop j, (nodeAt A (zs.getD j 0)).z ≤ (nodeAt A q).z := by
  intro q hq
  rw [List.mem_iff_getElem] at hq
  obtain ⟨i, hi, hiq⟩ := hq
  have hil : j + i < zs.length := by
    rw [List.length_drop] at hi
    omega
  rw [List.getElem_drop] at hiq
  rw [List.getD_eq_getElem zs 0 hj]
  rcases Nat.eq_zero_or_pos i with rfl | hpos
  · rw [← hiq]
    simp
  · have hp := List.pairwise_iff_getElem.mp hs j (j + i) hj hil (by omega)
    rw [hiq] at hp
    exact hp

/-- The `prevZ` walk scans exactly the key-sorted prefix nodes whose key
is at least `minZ`. -/
theorem hashedLoopP_spec (A : Arena) (ax ay bx b_y cx cy mnx mny mxx mxy : ℚ)
    (aIdx cIdx minZ : Nat) (zs : List Nat)
    (hz : zLinked A none zs = true)
    (hs : List.Pairwise (fun u v => (nodeAt A u).z ≤ (nodeAt A v).z) zs) :
    ∀ j fuel, j ≤ zs.length → j ≤ fuel →
      hashedLoopP A ax ay bx b_y cx cy mnx mny mxx mxy aIdx cIdx minZ fuel
        (if j = 0 then none else some (zs.getD (j - 1) 0)) =
      ((zs.take j).filter (fun q => decide ((nodeAt A q).z ≥ minZ))).all
        (fun q =>
          !hashedBlocker A ax ay bx b_y cx cy mnx mny mxx mxy aIdx cIdx q) := by
  intro j
  induction j with
  | zero =>
      intro fuel _ _
      rw [if_pos rfl]
      cases fuel <;> simp [hashedLoopP]
  | succ j ih =>
      intro fuel hj hf
      obtain ⟨f, rfl⟩ : ∃ f, fuel = f + 1 := ⟨fuel - 1, by omega⟩
      rw [if_neg (by omega : ¬ j + 1 = 0)]
      have hjl : j < zs.length := by omega
      rw [show j + 1 - 1 = j from rfl]
      rw [take_succ_getD zs j hjl, List.filter_append, List.all_append]
      simp only [hashedLoopP]
      by_cases hzc : (nodeAt A (zs.getD j 0)).z ≥ minZ
      · have hcond : decide ((nodeAt A (zs.getD j 0)).z ≥ minZ) = true :=
          decide_eq_true hzc
        have hall2 : ([zs.getD j 0].filter
            (fun q => decide ((nodeAt A q).z ≥ minZ))).all
            (fun q => !hashedBlocker A ax ay bx b_y cx cy mnx mny mxx mxy
              aIdx cIdx q) =
            !hashedBlocker A ax ay bx b_y cx cy mnx mny mxx mxy aIdx cIdx
              (zs.getD j 0) := by
          simp only [List.filter_cons, List.filter_nil, hcond, List.all_cons,
            List.all_nil, Bool.and_true, if_true]
        rw [if_pos hzc, hall2]
        by_cases hb : hashedBlocker A ax ay bx b_y cx cy mnx mny mxx mxy
            aIdx cIdx (zs.getD j 0) = true
        · rw [if_pos hb, hb]
          simp
        · have hb' : hashedBlocker A ax ay bx b_y cx cy mnx mny mxx mxy
              aIdx cIdx (zs.getD j 0) = false := Bool.eq_false_iff.mpr hb
          rw [if_neg hb]
          rw [zLinked_prevZ A zs none hz j hjl]
          rw [ih f (by omega) (by omega), hb']
          simp
      · rw [if_neg hzc]
        have h1 : (zs.take j).filter
            (fun q => decide ((nodeAt A q).z ≥ minZ)) = [] := by
          rw [List.filter_eq_nil_iff]
          intro q hq
          have hmem : q ∈ zs.take (j + 1) := by
            rw [take_succ_getD zs j hjl]
            exact List.mem_append_left _ hq
          have := sorted_take_le A zs hs j hjl q hmem
          simp only [decide_eq_true_eq]
          push_neg at hzc
          intro hc
          exact absurd (le_trans hc this) (not_le.mpr hzc)
        have h2 : ([zs.getD j 0].filter
            (fun q => decide ((nodeAt A q).z ≥ minZ))) = [] := by
          rw [List.filter_eq_nil_iff]
          intro q hq
          rw [List.mem_singleton] at hq
          subst hq
          simp only [decide_eq_true_eq]
          exact hzc
        rw [h1, h2]
        rfl

/-- The `nextZ` walk scans exactly the key-sorted suffix nodes whose key
is at most `maxZ`. -/
theorem hashedLoopN_spec (A : Arena) (ax ay bx b_y cx cy mnx mny mxx mxy : ℚ)
    (aIdx cIdx maxZ : Nat) (zs : List Nat)
    (hz : zLinked A none zs = true)
    (hs : List.Pairwise (fun u v => (nodeAt A u).z ≤ (nodeAt A v).z) zs) :
    ∀ d j fuel, zs.length - j = d → zs.length - j ≤ fuel →
      hashedLoopN A ax ay bx b_y cx cy mnx mny mxx mxy aIdx cIdx maxZ fuel
        ((zs.drop j).head?) =
      ((zs.drop j).filter (fun q => decide ((nodeAt A q).z ≤ maxZ))).all
        (fun q =>
          !hashedBlocker A ax ay bx b_y cx cy mnx mny mxx mxy aIdx cIdx q) := by
  intro d
  induction d with
  | zero =>
      intro j fuel hd _
      have hnil : zs.drop j = [] := List.drop_eq_nil_of_le (by omega)
      rw [hnil]
      cases fuel <;> simp [hashedLoopN]
  | succ e ih =>
      intro j fuel hd hf
      obtain ⟨f, rfl⟩ : ∃ f, fuel = f + 1 := ⟨fuel - 1, by omega⟩
      have hjl : j < zs.length := by omega
      rw [drop_getD_cons zs j hjl]
      simp only [List.head?_cons, hashedLoopN, List.filter_cons, List.all_cons]
      by_cases hzc : (nodeAt A (zs.getD j 0)).z ≤ maxZ
      · have hcond : decide ((nodeAt A (zs.getD j 0)).z ≤ maxZ) = true :=
          decide_eq_true hzc
        rw [if_pos hzc, hcond, if_pos rfl, List.all_cons]
        by_cases hb : hashedBlocker A ax ay bx b_y cx cy mnx mny mxx mxy
            aIdx cIdx (zs.getD j 0) = true
        · rw [if_pos hb, hb]
          simp
        · have hb' : hashedBlocker A ax ay bx b_y cx cy mnx mny mxx mxy
              aIdx cIdx (zs.getD j 0) = false := Bool.eq_false_iff.mpr hb
          rw [if_neg hb]
          rw [zLinked_nextZ A zs none hz j hjl]
          rw [ih (j + 1) f (by omega) (by omega), hb']
          simp
      · rw [if_neg hzc]
        have h1 : (zs.getD j 0 :: zs.drop (j + 1)).filter
            (fun q => decide ((nodeAt A q).z ≤ maxZ)) = [] := by
          rw [List.filter_eq_nil_iff]
          intro q hq
          rw [← drop_getD_cons zs j hjl] at hq
          have := sorted_drop_ge A zs hs j hjl q hq
          simp only [decide_eq_true_eq]
          push_neg at hzc
          intro hc
          exact absurd (le_trans this hc) (not_le.mpr hzc)
        rw [List.filter_cons] at h1
        rw [h1]
        rfl

/-- The fused two-direction loop followed by the two tail loops scans
exactly the key-sorted prefix with key at least `minZ` and suffix with
key at most `maxZ`, regardless of where the fused loop stops. -/
theorem hashedLoopBoth_spec (A : Arena)
    (ax ay bx b_y cx cy mnx mny mxx mxy : ℚ)
    (aIdx cIdx minZ maxZ : Nat) (zs : List Nat)
    (hz : zLinked A none zs = true)
    (hs : List.Pairwise (fun u v => (nodeAt A u).z ≤ (nodeAt A v).z) zs) :
    ∀ fb jp jn fpn, jp ≤ zs.length → zs.length ≤ fpn →
      (match hashedLoopBoth A ax ay bx b_y cx cy mnx mny mxx mxy aIdx cIdx
          minZ maxZ fb
          (if jp = 0 then none else some (zs.getD (jp - 1) 0))
          ((zs.drop jn).head?) with
       | none => false
       | some (p, n) =>
           hashedLoopP A ax ay bx b_y cx cy mnx mny mxx mxy aIdx cIdx minZ
             fpn p &&
           hashedLoopN A ax ay bx b_y cx cy mnx mny mxx mxy aIdx cIdx maxZ
             fpn n) =
      (((zs.take jp).filter (fun q => decide ((nodeAt A q).z ≥ minZ))).all
        (fun q =>
          !hashedBlocker A ax ay bx b_y cx cy mnx mny mxx mxy aIdx cIdx q) &&
       ((zs.drop jn).filter (fun q => decide ((nodeAt A q).z ≤ maxZ))).all
        (fun q =>
          !hashedBlocker A ax ay bx b_y cx cy mnx mny mxx mxy aIdx cIdx q)) := by
  intro fb
  induction fb with
  | zero =>
      intro jp jn fpn hjp hfpn
      rw [show hashedLoopBoth A ax ay bx b_y cx cy mnx mny mxx mxy aIdx cIdx
          minZ maxZ 0
          (if jp = 0 then none else some (zs.getD (jp - 1) 0))
          ((zs.drop jn).head?) =
        some ((if jp = 0 then none else some (zs.getD (jp - 1) 0)),
          ((zs.drop jn).head?)) from rfl]
      dsimp only
      rw [hashedLoopP_spec A ax ay bx b_y cx cy mnx mny mxx mxy aIdx cIdx
        minZ zs hz hs jp fpn hjp (by omega)]
      rw [hashedLoopN_spec A ax ay bx b_y cx cy mnx mny mxx mxy aIdx cIdx
        maxZ zs hz hs (zs.length - jn) jn fpn rfl (by omega)]
  | succ fb ih =>
      intro jp jn fpn hjp hfpn
      have hexit :
          (hashedLoopP A ax ay bx b_y cx cy mnx mny mxx mxy aIdx cIdx minZ
            fpn (if jp = 0 then none else some (zs.getD (jp - 1) 0)) &&
           hashedLoopN A ax ay bx b_y cx cy mnx mny mxx mxy aIdx cIdx maxZ
            fpn ((zs.drop jn).head?)) =
          (((zs.take jp).filter
              (fun q => decide ((nodeAt A q).z ≥ minZ))).all
            (fun q => !hashedBlocker A ax ay bx b_y cx cy mnx mny mxx mxy
              aIdx cIdx q) &&
           ((zs.drop jn).filter
              (fun q => decide ((nodeAt A q).z ≤ maxZ))).all
            (fun q => !hashedBlocker A ax ay bx b_y cx cy mnx mny mxx mxy
              aIdx cIdx q)) := by
        rw [hashedLoopP_spec A ax ay bx b_y cx cy mnx mny mxx mxy aIdx cIdx
          minZ zs hz hs jp fpn hjp (by omega)]
        rw [hashedLoopN_spec A ax ay bx b_y cx cy mnx mny mxx mxy aIdx cIdx
          maxZ zs hz hs (zs.length - jn) jn fpn rfl (by omega)]
      by_cases hjp0 : jp = 0
      · rw [if_pos hjp0]
        rw [if_pos hjp0] at hexit
        simp only [hashedLoopBoth]
        exact hexit
      · rw [if_neg hjp0]
        rw [if_neg hjp0] at hexit
        have hjpl : jp - 1 < zs.length := by omega
        rcases hh : (zs.drop jn).head? with _ | ni
        · rw [hh] at hexit
          simp only [hashedLoopBoth]
          exact hexit
        · have hjnl : jn < zs.length := by
            by_contra hc
            rw [List.drop_eq_nil_of_le (by omega)] at hh
            simp at hh
          have hni : ni = zs.getD jn 0 := by
            rw [drop_getD_cons zs jn hjnl] at hh
            simp only [List.head?_cons] at hh
            injection hh with h
            exact h.symm
          simp only [hashedLoopBoth]
          by_cases hzc : (nodeAt A (zs.getD (jp - 1) 0)).z ≥ minZ ∧
              (nodeAt A ni).z ≤ maxZ
          · rw [if_pos hzc]
            by_cases hbp : hashedBlocker A ax ay bx b_y cx cy mnx mny mxx mxy
                aIdx cIdx (zs.getD (jp - 1) 0) = true
            · rw [if_pos hbp]
              have hcond : decide ((nodeAt A (zs.getD (jp - 1) 0)).z ≥ minZ) =
                  true := decide_eq_true hzc.1
              have hleft : ((zs.take jp).filter
                  (fun q => decide ((nodeAt A q).z ≥ minZ))).all
                  (fun q => !hashedBlocker A ax ay bx b_y cx cy mnx mny mxx mxy
                    aIdx cIdx q) = false := by
                have hmem : zs.getD (jp - 1) 0 ∈ (zs.take jp).filter
                    (fun q => decide ((nodeAt A q).z ≥ minZ)) := by
                  rw [List.mem_filter]
                  refine ⟨?_, hcond⟩
                  rw [show jp = (jp - 1) + 1 by omega,
                    take_succ_getD zs (jp - 1) hjpl]
                  exact List.mem_append_right _ (List.mem_singleton_self _)
                refine Bool.eq_false_iff.mpr fun hall => ?_
                have hthis := List.all_eq_true.mp hall _ hmem
                simp only [Bool.not_eq_true'] at hthis
                rw [hbp] at hthis
                exact Bool.noConfusion hthis
              rw [hleft, Bool.false_and]
            · rw [if_neg hbp]
              have hbp' : hashedBlocker A ax ay bx b_y cx cy mnx mny mxx mxy
                  aIdx cIdx (zs.getD (jp - 1) 0) = false :=
                Bool.eq_false_iff.mpr hbp
              by_cases hbn : hashedBlocker A ax ay bx b_y cx cy mnx mny mxx mxy
                  aIdx cIdx ni = true
              · rw [if_pos hbn]
                have hcond : decide ((nodeAt A ni).z ≤ maxZ) = true :=
                  decide_eq_true hzc.2
                have hright : ((zs.drop jn).filter
                    (fun q => decide ((nodeAt A q).z ≤ maxZ))).all
                    (fun q => !hashedBlocker A ax ay bx b_y cx cy
                      mnx mny mxx mxy aIdx cIdx q) = false := by
                  have hmem : ni ∈ (zs.drop jn).filter
                      (fun q => decide ((nodeAt A q).z ≤ maxZ)) := by
                    rw [List.mem_filter]
                    refine ⟨?_, hcond⟩
                    rw [drop_getD_cons zs jn hjnl, ← hni]
                    exact List.mem_cons_self _ _
                  refine Bool.eq_false_iff.mpr fun hall => ?_
                  have hthis := List.all_eq_true.mp hall _ hmem
                  simp only [Bool.not_eq_true'] at hthis
                  rw [hbn] at hthis
                  exact Bool.noConfusion hthis
                rw [hright, Bool.and_false]
              · rw [if_neg hbn]
                have hbn' : hashedBlocker A ax ay bx b_y cx cy mnx mny mxx mxy
                    aIdx cIdx ni = false := Bool.eq_false_iff.mpr hbn
                rw [zLinked_prevZ A zs none hz (jp - 1) hjpl]
                rw [hni, zLinked_nextZ A zs none hz jn hjnl]
                rw [ih (jp - 1) (jn + 1) fpn (by omega) hfpn]
                -- reassemble both sides
                have hL : ((zs.take jp).filter
                    (fun q => decide ((nodeAt A q).z ≥ minZ))).all
                    (fun q => !hashedBlocker A ax ay bx b_y cx cy
                      mnx mny mxx mxy aIdx cIdx q) =
                    ((zs.take (jp - 1)).filter
                    (fun q => decide ((nodeAt A q).z ≥ minZ))).all
                    (fun q => !hashedBlocker A ax ay bx b_y cx cy
                      mnx mny mxx mxy aIdx cIdx q) := by
                  rw [show jp = (jp - 1) + 1 by omega,
                    take_succ_getD zs (jp - 1) hjpl, List.filter_append,
                    List.all_append]
                  have h2 : ([zs.getD (jp - 1) 0].filter
                      (fun q => decide ((nodeAt A q).z ≥ minZ))).all
                      (fun q => !hashedBlocker A ax ay bx b_y cx cy
                        mnx mny mxx mxy aIdx cIdx q) = true := by
                    rw [List.all_eq_true]
                    intro x hx
                    obtain ⟨hx1, _⟩ := List.mem_filter.mp hx
                    rw [List.mem_singleton] at hx1
                    subst hx1
                    simp only [hbp', Bool.not_false]
                  rw [h2, Bool.and_true]
                  simp only [Nat.add_sub_cancel]
                have hR : ((zs.drop jn).filter
                    (fun q => decide ((nodeAt A q).z ≤ maxZ))).all
                    (fun q => !hashedBlocker A ax ay bx b_y cx cy
                      mnx mny mxx mxy aIdx cIdx q) =
                    ((zs.drop (jn + 1)).filter
                    (fun q => decide ((nodeAt A q).z ≤ maxZ))).all
                    (fun q => !hashedBlocker A ax ay bx b_y cx cy
                      mnx mny mxx mxy aIdx cIdx q) := by
                  rw [drop_getD_cons zs jn hjnl, ← hni, List.filter_cons]
                  have hcond : decide ((nodeAt A ni).z ≤ maxZ) = true :=
                    decide_eq_true hzc.2
                  rw [hcond, if_pos rfl, List.all_cons]
                  rw [hbn', Bool.not_false, Bool.true_and]
                rw [hL, hR]
          · rw [if_neg hzc]
            rw [hh] at hexit
            exact hexit

/-- Away from the ear's own neighbours the indexed loop body tests the
same condition as the plain scan body. -/
theorem hashedBlocker_eq (A : Arena) (ax ay bx b_y cx cy mnx mny mxx mxy : ℚ)
    (aIdx cIdx q : Nat) (h1 : q ≠ aIdx) (h2 : q ≠ cIdx) :
    hashedBlocker A ax ay bx b_y cx cy mnx mny mxx mxy aIdx cIdx q =
      earBlocker A ax ay bx b_y cx cy mnx mny mxx mxy q := by
  unfold hashedBlocker earBlocker
  rw [decide_eq_true h1, decide_eq_true h2]
  simp only [Bool.and_true]

/-- The indexed loop body never fires on the ear's previous vertex. -/
theorem hashedBlocker_self_a (A : Arena)
    (ax ay bx b_y cx cy mnx mny mxx mxy : ℚ) (aIdx cIdx : Nat) :
    hashedBlocker A ax ay bx b_y cx cy mnx mny mxx mxy aIdx cIdx aIdx =
      false := by
  unfold hashedBlocker
  rw [decide_eq_false (fun h => h rfl : ¬ aIdx ≠ aIdx)]
  simp

/-- The indexed loop body never fires on the ear's next vertex. -/
theorem hashedBlocker_self_c (A : Arena)
    (ax ay bx b_y cx cy mnx mny mxx mxy : ℚ) (aIdx cIdx : Nat) :
    hashedBlocker A ax ay bx b_y cx cy mnx mny mxx mxy aIdx cIdx cIdx =
      false := by
  unfold hashedBlocker
  rw [decide_eq_false (fun h => h rfl : ¬ cIdx ≠ cIdx)]
  simp

/-- A firing scan body implies the bounding-box inequalities. -/
theorem earBlocker_bbox (A : Arena) (ax ay bx b_y cx cy mnx mny mxx mxy : ℚ)
    (q : Nat) (h : earBlocker A ax ay bx b_y cx cy mnx mny mxx mxy q = true) :
    mnx ≤ (nodeAt A q).x ∧ (nodeAt A q).x ≤ mxx ∧
    mny ≤ (nodeAt A q).y ∧ (nodeAt A q).y ≤ mxy := by
  unfold earBlocker at h
  simp only [Bool.and_eq_true, decide_eq_true_eq] at h
  exact ⟨h.1.1.1.1.1, h.1.1.1.1.2, h.1.1.1.2, h.1.1.2⟩

theorem getD_append_cons (L : List Nat) (x : Nat) (R : List Nat) :
    (L ++ x :: R).getD L.length 0 = x := by
  induction L with
  | nil => rfl
  | cons a l ih => simpa using ih

theorem drop_append_cons (L : List Nat) (x : Nat) (R : List Nat) :
    (L ++ x :: R).drop (L.length + 1) = R := by
  induction L with
  | nil => rfl
  | cons a l ih => simp

/-- C3.  With a valid spatial index — the Z-list threads exactly the
ring's nodes, null-terminated, in ascending key order, every stored key
equal to `computeZOrder` of the node's coordinates, quantized
coordinates within the 15-bit range and a non-negative scale — the
indexed ear check agrees with the unindexed one on every candidate ear:
the Morton neighbourhood `[minZ, maxZ]` provably contains every node
that could block, so restricting the scan to it never changes the
verdict. -/
theorem hashed_ear_equivalence (A : Arena) (ear : Nat) (minX minY scale : ℚ)
    (fuel : Nat) (zs L Rt : List Nat)
    (hsplit : zs = L ++ ear :: Rt)
    (hnd : zs.Nodup)
    (hz : zLinked A none zs = true)
    (hsort : List.Pairwise (fun u v => (nodeAt A u).z ≤ (nodeAt A v).z) zs)
    (hzval : ∀ q ∈ zs, (nodeAt A q).z =
      computeZOrder (nodeAt A q).x (nodeAt A q).y minX minY scale)
    (hquant : ∀ q ∈ zs, quantize (nodeAt A q).x minX scale ≤ 32767 ∧
      quantize (nodeAt A q).y minY scale ≤ 32767)
    (hscale : 0 ≤ scale)
    (ha : (nodeAt A ear).prev ∈ zs) (hc : (nodeAt A ear).next ∈ zs)
    (hfuel : zs.length ≤ fuel)
    (hw1 : ∀ q ∈ walkNext A ((nodeAt A ear).prev) fuel
        ((nodeAt A ((nodeAt A ear).next)).next),
      q ∈ zs ∧ q ≠ (nodeAt A ear).prev ∧ q ≠ ear ∧ q ≠ (nodeAt A ear).next)
    (hw2 : ∀ q ∈ zs, q ≠ (nodeAt A ear).prev → q ≠ ear →
      q ≠ (nodeAt A ear).next →
      q ∈ walkNext A ((nodeAt A ear).prev) fuel
        ((nodeAt A ((nodeAt A ear).next)).next)) :
    isValidEarHashed A ear minX minY scale fuel = isValidEar A ear fuel := by
  have hlen : L.length < zs.length := by
    rw [hsplit]
    simp only [List.length_append, List.length_cons]
    omega
  have hgd : zs.getD L.length 0 = ear := by
    rw [hsplit]
    exact getD_append_cons L ear Rt
  have hearzs : ear ∈ zs := by
    rw [hsplit]
    exact List.mem_append_right _ (List.mem_cons_self _ _)
  have hearL : ear ∉ L := by
    intro hmem
    rw [hsplit] at hnd
    rcases List.nodup_append.mp hnd with ⟨_, _, hdisj⟩
    exact hdisj hmem (List.mem_cons_self _ _)
  have hearRt : ear ∉ Rt := by
    rw [hsplit] at hnd
    rcases List.nodup_append.mp hnd with ⟨_, hcons, _⟩
    exact (List.nodup_cons.mp hcons).1
  have hp := zLinked_prevZ A zs none hz L.length hlen
  rw [hgd] at hp
  have hnx := zLinked_nextZ A zs none hz L.length hlen
  rw [hgd] at hnx
  have hdropRt : zs.drop (L.length + 1) = Rt := by
    rw [hsplit]
    exact drop_append_cons L ear Rt
  have htake : zs.take L.length = L := by
    rw [hsplit]
    exact List.take_left L _
  obtain ⟨hqa1, hqa2⟩ := hquant _ ha
  obtain ⟨hqe1, hqe2⟩ := hquant _ hearzs
  obtain ⟨hqc1, hqc2⟩ := hquant _ hc
  have hmxX : quantize (max (max (nodeAt A (nodeAt A ear).prev).x
      (nodeAt A ear).x) (nodeAt A (nodeAt A ear).next).x) minX scale ≤
      32767 := by
    rcases max_choice (max (nodeAt A (nodeAt A ear).prev).x (nodeAt A ear).x)
        (nodeAt A (nodeAt A ear).next).x with h | h <;> rw [h]
    · rcases max_choice (nodeAt A (nodeAt A ear).prev).x (nodeAt A ear).x
          with h2 | h2 <;> rw [h2]
      · exact hqa1
      · exact hqe1
    · exact hqc1
  have hmxY : quantize (max (max (nodeAt A (nodeAt A ear).prev).y
      (nodeAt A ear).y) (nodeAt A (nodeAt A ear).next).y) minY scale ≤
      32767 := by
    rcases max_choice (max (nodeAt A (nodeAt A ear).prev).y (nodeAt A ear).y)
        (nodeAt A (nodeAt A ear).next).y with h | h <;> rw [h]
    · rcases max_choice (nodeAt A (nodeAt A ear).prev).y (nodeAt A ear).y
          with h2 | h2 <;> rw [h2]
      · exact hqa2
      · exact hqe2
    · exact hqc2
  have hzrange : ∀ q ∈ zs,
      earBlocker A (nodeAt A (nodeAt A ear).prev).x
        (nodeAt A (nodeAt A ear).prev).y (nodeAt A ear).x (nodeAt A ear).y
        (nodeAt A (nodeAt A ear).next).x (nodeAt A (nodeAt A ear).next).y
        (min (min (nodeAt A (nodeAt A ear).prev).x (nodeAt A ear).x)
          (nodeAt A (nodeAt A ear).next).x)
        (min (min (nodeAt A (nodeAt A ear).prev).y (nodeAt A ear).y)
          (nodeAt A (nodeAt A ear).next).y)
        (max (max (nodeAt A (nodeAt A ear).prev).x (nodeAt A ear).x)
          (nodeAt A (nodeAt A ear).next).x)
        (max (max (nodeAt A (nodeAt A ear).prev).y (nodeAt A ear).y)
          (nodeAt A (nodeAt A ear).next).y) q = true →
      computeZOrder
          (min (min (nodeAt A (nodeAt A ear).prev).x (nodeAt A ear).x)
            (nodeAt A (nodeAt A ear).next).x)
          (min (min (nodeAt A (nodeAt A ear).prev).y (nodeAt A ear).y)
            (nodeAt A (nodeAt A ear).next).y) minX minY scale ≤
        (nodeAt A q).z ∧
      (nodeAt A q).z ≤ computeZOrder
          (max (max (nodeAt A (nodeAt A ear).prev).x (nodeAt A ear).x)
            (nodeAt A (nodeAt A ear).next).x)
          (max (max (nodeAt A (nodeAt A ear).prev).y (nodeAt A ear).y)
            (nodeAt A (nodeAt A ear).next).y) minX minY scale := by
    intro q hq hb
    obtain ⟨h1, h2, h3, h4⟩ := earBlocker_bbox A _ _ _ _ _ _ _ _ _ _ q hb
    obtain ⟨hq1, hq2⟩ := hquant q hq
    rw [hzval q hq]
    exact ⟨computeZOrder_mono hscale hq1 hq2 h1 h3,
      computeZOrder_mono hscale hmxX hmxY h2 h4⟩
  unfold isValidEarHashed isValidEar
  dsimp only
  by_cases harea : triangleArea (nodeAt A (nodeAt A ear).prev) (nodeAt A ear)
      (nodeAt A (nodeAt A ear).next) ≥ 0
  · rw [if_pos harea, if_pos harea]
  rw [if_neg harea, if_neg harea]
  rw [hp, hnx]
  rw [hashedLoopBoth_spec A (nodeAt A (nodeAt A ear).prev).x
    (nodeAt A (nodeAt A ear).prev).y (nodeAt A ear).x (nodeAt A ear).y
    (nodeAt A (nodeAt A ear).next).x (nodeAt A (nodeAt A ear).next).y
    (min (min (nodeAt A (nodeAt A ear).prev).x (nodeAt A ear).x)
      (nodeAt A (nodeAt A ear).next).x)
    (min (min (nodeAt A (nodeAt A ear).prev).y (nodeAt A ear).y)
      (nodeAt A (nodeAt A ear).next).y)
    (max (max (nodeAt A (nodeAt A ear).prev).x (nodeAt A ear).x)
      (nodeAt A (nodeAt A ear).next).x)
    (max (max (nodeAt A (nodeAt A ear).prev).y (nodeAt A ear).y)
      (nodeAt A (nodeAt A ear).next).y)
    ((nodeAt A ear).prev) ((nodeAt A ear).next) _ _ zs hz hsort fuel
    L.length (L.length + 1) fuel (le_of_lt hlen) hfuel]
  rw [earScan_eq_all]
  rw [htake, hdropRt]
  apply Bool.eq_iff_iff.mpr
  simp only [Bool.and_eq_true, List.all_eq_true, List.mem_filter,
    decide_eq_true_eq, Bool.not_eq_true']
  constructor
  · rintro ⟨hLall, hRall⟩ q hqw
    obtain ⟨hqzs, hqa, hqe, hqc⟩ := hw1 q hqw
    rcases he : earBlocker A (nodeAt A (nodeAt A ear).prev).x
        (nodeAt A (nodeAt A ear).prev).y (nodeAt A ear).x (nodeAt A ear).y
        (nodeAt A (nodeAt A ear).next).x (nodeAt A (nodeAt A ear).next).y
        (min (min (nodeAt A (nodeAt A ear).prev).x (nodeAt A ear).x)
          (nodeAt A (nodeAt A ear).next).x)
        (min (min (nodeAt A (nodeAt A ear).prev).y (nodeAt A ear).y)
          (nodeAt A (nodeAt A ear).next).y)
        (max (max (nodeAt A (nodeAt A ear).prev).x (nodeAt A ear).x)
          (nodeAt A (nodeAt A ear).next).x)
        (max (max (nodeAt A (nodeAt A ear).prev).y (nodeAt A ear).y)
          (nodeAt A (nodeAt A ear).next).y) q with _ | _
    · rfl
    · exfalso
      obtain ⟨hz1, hz2⟩ := hzrange q hqzs he
      have hhb : hashedBlocker A (nodeAt A (nodeAt A ear).prev).x
          (nodeAt A (nodeAt A ear).prev).y (nodeAt A ear).x (nodeAt A ear).y
          (nodeAt A (nodeAt A ear).next).x (nodeAt A (nodeAt A ear).next).y
          (min (min (nodeAt A (nodeAt A ear).prev).x (nodeAt A ear).x)
            (nodeAt A (nodeAt A ear).next).x)
          (min (min (nodeAt A (nodeAt A ear).prev).y (nodeAt A ear).y)
            (nodeAt A (nodeAt A ear).next).y)
          (max (max (nodeAt A (nodeAt A ear).prev).x (nodeAt A ear).x)
            (nodeAt A (nodeAt A ear).next).x)
          (max (max (nodeAt A (nodeAt A ear).prev).y (nodeAt A ear).y)
            (nodeAt A (nodeAt A ear).next).y)
          ((nodeAt A ear).prev) ((nodeAt A ear).next) q = true := by
        rw [hashedBlocker_eq _ _ _ _ _ _ _ _ _ _ _ _ _ _ hqa hqc]
        exact he
      rw [hsplit] at hqzs
      rcases List.mem_append.mp hqzs with hqL | hqcons
      · have := hLall q ⟨hqL, hz1⟩
        rw [hhb] at this
        exact Bool.noConfusion this
      · rcases List.mem_cons.mp hqcons with rfl | hqRt
        · exact hqe rfl
        · have := hRall q ⟨hqRt, hz2⟩
          rw [hhb] at this
          exact Bool.noConfusion this
  · intro hwall
    constructor
    · rintro q ⟨hqL, hzq⟩
      by_cases hqa : q = (nodeAt A ear).prev
      · rw [hqa]
        exact hashedBlocker_self_a A _ _ _ _ _ _ _ _ _ _ _ _
      by_cases hqc : q = (nodeAt A ear).next
      · rw [hqc]
        exact hashedBlocker_self_c A _ _ _ _ _ _ _ _ _ _ _ _
      have hqe : q ≠ ear := fun h => hearL (h ▸ hqL)
      have hqzs : q ∈ zs := by
        rw [hsplit]
        exact List.mem_append_left _ hqL
      have hqw := hw2 q hqzs hqa hqe hqc
      have := hwall q hqw
      rw [hashedBlocker_eq _ _ _ _ _ _ _ _ _ _ _ _ _ _ hqa hqc]
      exact this
    · rintro q ⟨hqRt, hzq⟩
      by_cases hqa : q = (nodeAt A ear).prev
      · rw [hqa]
        exact hashedBlocker_self_a A _ _ _ _ _ _ _ _ _ _ _ _
      by_cases hqc : q = (nodeAt A ear).next
      · rw [hqc]
        exact hashedBlocker_self_c A _ _ _ _ _ _ _ _ _ _ _ _
      have hqe : q ≠ ear := fun h => hearRt (h ▸ hqRt)
      have hqzs : q ∈ zs := by
        rw [hsplit]
        exact List.mem_append_right _ (List.mem_cons_of_mem _ hqRt)
      have hqw := hw2 q hqzs hqa hqe hqc
      have := hwall q hqw
      rw [hashedBlocker_eq _ _ _ _ _ _ _ _ _ _ _ _ _ _ hqa hqc]
      exact this

/-- Spatially indexed four-node square for the C3 witness: ring
`0 → 1 → 2 → 3`, Z-list `0, 1, 3, 2` in ascending Morton order with the
keys actually computed by `computeZOrder` at `minX = minY = 0`,
`scale = 1`. -/
def c3Arena : Arena :=
  { heap := fun k =>
      if k = 0 then
        { i := 0, x := 0, y := 0, z := 0, prev := 3, next := 1,
          prevZ := none, nextZ := some 1, steiner := false }
      else if k = 1 then
        { i := 1, x := 4, y := 0, z := 16, prev := 0, next := 2,
          prevZ := some 0, nextZ := some 3, steiner := false }
      else if k = 2 then
        { i := 2, x := 4, y := 4, z := 48, prev := 1, next := 3,
          prevZ := some 3, nextZ := none, steiner := false }
      else if k = 3 then
        { i := 3, x := 0, y := 4, z := 32, prev := 2, next := 0,
          prevZ := some 1, nextZ := some 2, steiner := false }
      else PNode.blank,
    size := 4 }

/-- Witness for C3: the equivalence instantiated on the indexed square,
ear 1. -/
theorem hashed_ear_equivalence_witness :
    (zLinked c3Arena none [0, 1, 3, 2] = true ∧
      List.Pairwise (fun u v => (nodeAt c3Arena u).z ≤ (nodeAt c3Arena v).z)
        [0, 1, 3, 2] ∧
      ([0, 1, 3, 2] : List Nat).Nodup ∧
      (∀ q ∈ ([0, 1, 3, 2] : List Nat), (nodeAt c3Arena q).z =
        computeZOrder (nodeAt c3Arena q).x (nodeAt c3Arena q).y 0 0 1)) ∧
    isValidEarHashed c3Arena 1 0 0 1 5 = isValidEar c3Arena 1 5 :=
  ⟨⟨by decide, by decide, by decide, by decide⟩,
   hashed_ear_equivalence c3Arena 1 0 0 1 5 [0, 1, 3, 2] [0] [3, 2] rfl
     (by decide) (by decide) (by decide) (by decide) (by decide) (by decide)
     (by decide) (by decide) (by decide) (by decide) (by decide)⟩

end DSRT
